import Mathlib

/-!
# Spacepunk: `ArrayList` and the `Mesh::SubMesh` algorithms

A shallow embedding of `src/ArrayList.hpp` (the templated `ArrayList<T>`) and, from
`src/Mesh.cpp`, of `Mesh::SubMesh::findAdjacentIndex`, the index loop of the `SubMesh`
constructor, `findPosition`, `findRotation`, `findScaling`, `calcInterpolatedPosition`,
`calcInterpolatedRotation`, `calcInterpolatedScaling`, `findNodeAnim`, `boneTransform`
and `readNodeHierarchy`.

Conventions of the embedding:

* `Uint32` values are natural numbers below `2^32`; every operation of the source
  that can leave that range is written with an explicit `% 4294967296` (`2^32`).
* an `int` loop counter is a natural number that may not be incremented past
  `INT_MAX = 2147483647` (signed overflow is undefined behaviour, reported as a
  fault).
* the heap block behind `arr` is a `List T` whose length is the number of
  allocated cells; the null pointer is the empty block, so that every access
  through it is out of bounds.
* `new T[len]` default-constructs its cells (`T()`, here `default`); the theorems
  about elements only speak of cells that were written since.
* a parameter `const T& val` of `push`, `insert` and `insertAndRearrange` is a `Ref T`:
  it is bound to an object outside the heap block of the list or to a cell of that
  block, and it is read where the source reads it. A read through a reference into a
  block that `alloc` has deleted is a fault.
* a failed `assert`, an access outside the heap block and a read of a deleted block end
  the run with a `Fault`; operations therefore return `Except Fault _`.
* `float` is IEEE 754 binary32 and `double` is binary64 (type `Fp`: NaN, the infinities
  and the finite numbers `(-1)^neg * num / 2^exp`). Every arithmetic operation and every
  conversion is rounded once, to nearest with ties to even, to the format of its type; no
  two operations are fused. Comparisons with NaN are false.
* 4x4 matrices are elements of a type `M` with a product that has a unit (the
  identity matrix `glm::mat4(1.f)`) and a scaling by `16384`; no other law of
  matrix arithmetic is used, and products keep the bracketing of the source.
  Quaternions are elements of a type `Q`. The assimp functions on quaternions and the
  conversions from vectors and quaternions to matrices are parameters (`Assimp Q M`).
-/

namespace Spacepunk

/-! ## Definitions -/

/-- The ways in which a run can leave defined behaviour. -/
inductive Fault where
  | assertion
  | outOfBounds
  | signedOverflow
  | useAfterFree
  deriving DecidableEq

/-- The fields of `ArrayList<T>`: `arr` (the heap block), `size`, `maxSize`. -/
structure ArrayList (T : Type) where
  arr : List T
  size : Nat
  maxSize : Nat
  deriving DecidableEq

section ArrayListOps

variable {T : Type}

/-- Read of `arr[c]` through the raw pointer. -/
def load (arr : List T) (c : Nat) : Except Fault T :=
  match arr[c]? with
  | some v => .ok v
  | none => .error .outOfBounds

/-- Write `arr[c] = v` through the raw pointer. -/
def store (arr : List T) (c : Nat) (v : T) : Except Fault (List T) :=
  if c < arr.length then .ok (arr.set c v) else .error .outOfBounds

/-- What a parameter `const T& val` of a method of the list is bound to: an object that
is not in the heap block of the list (with its value), or the cell `arr[k]` of the heap
block that the list has when the method is called. -/
inductive Ref (T : Type) where
  | object (v : T)
  | cell (k : Nat)
  deriving DecidableEq

/-- Read through the reference `val`. `arr` is the heap block of the list at the time of
the read; `freed` tells whether the method has called `alloc` since it was entered, which
deletes the block that a cell reference points into. -/
def Ref.read (val : Ref T) (arr : List T) (freed : Bool) : Except Fault T :=
  match val with
  | .object v => .ok v
  | .cell k => if freed then .error Fault.useAfterFree else load arr k

/-- The value that the reference `val` has when the method is called on the block `arr`. -/
def Ref.get? (val : Ref T) (arr : List T) : Option T :=
  match val with
  | .object v => some v
  | .cell k => arr[k]?

/-- The default constructor `ArrayList()`: `arr = nullptr`, `size = 0`, `maxSize = 0`. -/
def ArrayList.empty : ArrayList T := ⟨[], 0, 0⟩

/-- Getter `getSize()`. -/
def ArrayList.getSize (l : ArrayList T) : Nat := l.size

/-- Getter `getMaxSize()`. -/
def ArrayList.getMaxSize (l : ArrayList T) : Nat := l.maxSize

/-- The copy loop of `alloc`: `for (c; c < copyLen; ++c) newArr[c] = std::move(arr[c])`,
with `n = copyLen - c` iterations left. -/
def allocCopy (arr : List T) : Nat → Nat → List T → Except Fault (List T)
  | 0, _, newArr => .ok newArr
  | n + 1, c, newArr => do
    let v ← load arr c
    let newArr ← store newArr c v
    allocCopy arr n (c + 1) newArr

/-- The method `alloc(len)`. -/
def ArrayList.alloc [Inhabited T] (l : ArrayList T) (len : Nat) : Except Fault (ArrayList T) := do
  let maxSize := len
  let newSize := min maxSize l.size
  let newArr ←
    (if len ≠ 0 then
      allocCopy l.arr (min l.size len) 0 (List.replicate len default)
    else
      pure [])
  pure ⟨newArr, newSize, maxSize⟩

/-- The fill loop of `resize`: `for (c; c < len; ++c) arr[c] = T()`,
with `n = len - c` iterations left. -/
def resizeFill [Inhabited T] : Nat → Nat → List T → Except Fault (List T)
  | 0, _, arr => .ok arr
  | n + 1, c, arr => do
    let arr ← store arr c default
    resizeFill n (c + 1) arr

/-- The method `resize(len)`. -/
def ArrayList.resize [Inhabited T] (l : ArrayList T) (len : Nat) : Except Fault (ArrayList T) := do
  let l ← (if len > l.maxSize then l.alloc len else pure l)
  let arr ← (if len > l.size then resizeFill (len - l.size) l.size l.arr else pure l.arr)
  pure ⟨arr, len, l.maxSize⟩

/-- The method `swap(src)`: exchanges the three fields; returns `(this, src)`. -/
def ArrayList.swap (l src : ArrayList T) : ArrayList T × ArrayList T :=
  (⟨src.arr, src.size, src.maxSize⟩, ⟨l.arr, l.size, l.maxSize⟩)

/-- The growth step shared by `push`, `insert` and `insertAndRearrange`:
`if (size == maxSize) alloc(std::max((unsigned int)size*2U, 4U));`. -/
def ArrayList.grow [Inhabited T] (l : ArrayList T) : Except Fault (ArrayList T) :=
  if l.size = l.maxSize then l.alloc (max ((l.size * 2) % 4294967296) 4) else pure l

/-- The method `push(val)`; `val` is read in the assignment `arr[size-1] = val`, after
the growth step. -/
def ArrayList.push [Inhabited T] (l : ArrayList T) (val : Ref T) :
    Except Fault (ArrayList T) := do
  let freed := decide (l.size = l.maxSize)
  let l ← l.grow
  let size := (l.size + 1) % 4294967296
  let v ← val.read l.arr freed
  let arr ← store l.arr ((size + 4294967296 - 1) % 4294967296) v
  pure ⟨arr, size, l.maxSize⟩

/-- The method `insert(val, pos)`; `val` is read in the last assignment `arr[pos] = val`. -/
def ArrayList.insert [Inhabited T] (l : ArrayList T) (val : Ref T) (pos : Nat) :
    Except Fault (ArrayList T) := do
  if ¬ pos ≤ l.size then throw Fault.assertion
  let freed := decide (l.size = l.maxSize)
  let l ← l.grow
  let size := (l.size + 1) % 4294967296
  let v ← load l.arr pos
  let arr ← store l.arr ((size + 4294967296 - 1) % 4294967296) v
  let v ← val.read arr freed
  let arr ← store arr pos v
  pure ⟨arr, size, l.maxSize⟩

/-- The shifting loop of `insertAndRearrange`:
`for (c; c > pos; --c) arr[c] = arr[c-1]`, with `n = c - pos` iterations left. -/
def shiftUp : Nat → Nat → List T → Except Fault (List T)
  | 0, _, arr => .ok arr
  | n + 1, c, arr => do
    let v ← load arr (c - 1)
    let arr ← store arr c v
    shiftUp n (c - 1) arr

/-- The method `insertAndRearrange(val, pos)`; `val` is read in the assignment
`arr[pos] = val`, after the shifting loop. -/
def ArrayList.insertAndRearrange [Inhabited T] (l : ArrayList T) (val : Ref T) (pos : Nat) :
    Except Fault (ArrayList T) := do
  if ¬ pos ≤ l.size then throw Fault.assertion
  let freed := decide (l.size = l.maxSize)
  let l ← l.grow
  let size := (l.size + 1) % 4294967296
  let c := (size + 4294967296 - 1) % 4294967296
  let arr ← shiftUp (c - pos) c l.arr
  let v ← val.read arr freed
  let arr ← store arr pos v
  pure ⟨arr, size, l.maxSize⟩

/-- The method `pop()`: returns the element and the list afterwards. -/
def ArrayList.pop (l : ArrayList T) : Except Fault (T × ArrayList T) := do
  if ¬ l.size > 0 then throw Fault.assertion
  let size := (l.size + 4294967296 - 1) % 4294967296
  let v ← load l.arr size
  pure (v, ⟨l.arr, size, l.maxSize⟩)

/-- The method `remove(pos)`: returns the element and the list afterwards. -/
def ArrayList.remove (l : ArrayList T) (pos : Nat) : Except Fault (T × ArrayList T) := do
  if ¬ l.size > pos then throw Fault.assertion
  let result ← load l.arr pos
  let size := (l.size + 4294967296 - 1) % 4294967296
  let v ← load l.arr size
  let arr ← store l.arr pos v
  pure (result, ⟨arr, size, l.maxSize⟩)

/-- The shifting loop of `removeAndRearrange`:
`for (c; c < newSize; ++c) arr[c] = arr[c+1]`, with `n = newSize - c` iterations left. -/
def shiftDown : Nat → Nat → List T → Except Fault (List T)
  | 0, _, arr => .ok arr
  | n + 1, c, arr => do
    let v ← load arr (c + 1)
    let arr ← store arr c v
    shiftDown n (c + 1) arr

/-- The method `removeAndRearrange(pos)`: returns the element and the list afterwards. -/
def ArrayList.removeAndRearrange (l : ArrayList T) (pos : Nat) :
    Except Fault (T × ArrayList T) := do
  if ¬ l.size > pos then throw Fault.assertion
  let result ← load l.arr pos
  let newSize := (l.size + 4294967296 - 1) % 4294967296
  let arr ← shiftDown (newSize - pos) pos l.arr
  pure (result, ⟨arr, (l.size + 4294967296 - 1) % 4294967296, l.maxSize⟩)

/-- The accessor `operator[](pos)`. -/
def ArrayList.subscript (l : ArrayList T) (pos : Nat) : Except Fault T := do
  if ¬ pos < l.size then throw Fault.assertion
  load l.arr pos

/-- The inner loop of `sort`, for the element `arr[c]`:
`for (int i; i < result.getSize(); ++i) if (fn(arr[c], result[i])) { ...; break; }`,
with `n = result.getSize() - i` iterations left. Returns the new `result` when a
place was found and `none` when the loop ran to its end. The argument `arr[c]` of
`insertAndRearrange` is a cell of the block of `this`, an object outside the block of
`result`. -/
def sortPlace [Inhabited T] (fn : T → T → Bool) (arr : List T) (c : Nat) (result : ArrayList T) :
    Nat → Nat → Except Fault (Option (ArrayList T))
  | 0, _ => .ok none
  | n + 1, i => do
    let a ← load arr c
    let b ← result.subscript i
    if fn a b then
      let a ← load arr c
      let result ← result.insertAndRearrange (.object a) i
      pure (some result)
    else if i + 1 > 2147483647 then
      throw Fault.signedOverflow
    else
      sortPlace fn arr c result n (i + 1)

/-- The outer loop of `sort`: `for (int c; c < size; ++c) ...`, with `n = size - c`
iterations left. -/
def sortLoop [Inhabited T] (fn : T → T → Bool) (arr : List T) :
    Nat → Nat → ArrayList T → Except Fault (ArrayList T)
  | 0, _, result => .ok result
  | n + 1, c, result => do
    let placed ← sortPlace fn arr c result result.getSize 0
    let result ←
      (match placed with
      | some r => pure r
      | none => do
        let a ← load arr c
        result.push (.object a))
    if c + 1 > 2147483647 then
      throw Fault.signedOverflow
    else
      sortLoop fn arr n (c + 1) result

/-- The method `sort(fn)`: the list after the final `swap(result)`. -/
def ArrayList.sort [Inhabited T] (l : ArrayList T) (fn : T → T → Bool) :
    Except Fault (ArrayList T) := do
  let result ← (ArrayList.empty : ArrayList T).alloc l.size
  let result ← sortLoop fn l.arr l.size 0 result
  pure (l.swap result).1

/-- Representation invariant of a live `ArrayList`: the heap block has `maxSize`
cells, `size <= maxSize`, and both fit a `Uint32`. -/
def ArrayList.wf (l : ArrayList T) : Prop :=
  l.arr.length = l.maxSize ∧ l.size ≤ l.maxSize ∧ l.maxSize < 4294967296

instance (l : ArrayList T) : Decidable l.wf := by
  unfold ArrayList.wf; infer_instance

/-- The elements of the list, indices `0 .. size-1`. -/
def ArrayList.contents (l : ArrayList T) : List T := l.arr.take l.size

end ArrayListOps

/-- The contract of a `SortFunction` (`true if a should be placed before b`) as a strict
weak ordering: irreflexive, transitive, and with a transitive incomparability. -/
def StrictWeakOrdering {T : Type} (fn : T → T → Bool) : Prop :=
  (∀ a, fn a a = false) ∧
  (∀ a b c, fn a b = true → fn b c = true → fn a c = true) ∧
  (∀ a b c, fn a b = false → fn b a = false → fn b c = false → fn c b = false →
    fn a c = false ∧ fn c a = false)

/-- The `SortFunction` that places smaller numbers first. -/
def natLess : Nat → Nat → Bool := fun a b => decide (a < b)

/-- A full list of `2^31 + 1` zeros: `size == maxSize == 2147483649`. -/
def hugeList : ArrayList Nat :=
  ⟨List.replicate 2147483649 0, 2147483649, 2147483649⟩

/-- A full list of `2^31` zeros: `size == maxSize == 2147483648`. -/
def fullList : ArrayList Nat :=
  ⟨List.replicate 2147483648 0, 2147483648, 2147483648⟩

/-- The assimp type `aiFace`: the vertex indices `mIndices` of one face
(`mNumIndices` is their number). -/
structure aiFace where
  mIndices : List Nat
  deriving DecidableEq

/-- The field `mNumIndices` of an `aiFace`. -/
def aiFace.mNumIndices (f : aiFace) : Nat := f.mIndices.length

/-- The part of the assimp type `aiMesh` that the adjacency search reads: the faces
`mFaces` (`mNumFaces` is their number). -/
structure aiMesh where
  mFaces : List aiFace
  deriving DecidableEq

/-- The field `mNumFaces` of an `aiMesh`. -/
def aiMesh.mNumFaces (mesh : aiMesh) : Nat := mesh.mFaces.length

/-- The inner loop of `findAdjacentIndex` over the edges of one face:
`for (int edge; edge < 3; ++edge) ...`, with `n = 3 - edge` iterations left. Returns
`some vOpp` when the loop returns from the function and `none` when it runs to its end. -/
def findAdjacentEdge (indices : List Nat) (index1 index2 index3 : Nat) :
    Nat → Nat → Except Fault (Option Nat)
  | 0, _ => .ok none
  | n + 1, edge => do
    let v1 ← load indices edge
    let v2 ← load indices ((edge + 1) % 3)
    let vOpp ← load indices ((edge + 2) % 3)
    if ((v1 == index1 && v2 == index2) || (v2 == index1 && v1 == index2)) && vOpp != index3 then
      pure (some vOpp)
    else
      findAdjacentEdge indices index1 index2 index3 n (edge + 1)

/-- The outer loop of `findAdjacentIndex` over the faces:
`for (unsigned int i; i < mesh.mNumFaces; ++i) ...`, with `n = mNumFaces - i` iterations
left. -/
def findAdjacentFace (mesh : aiMesh) (index1 index2 index3 : Nat) :
    Nat → Nat → Except Fault (Option Nat)
  | 0, _ => .ok none
  | n + 1, i => do
    let face ← load mesh.mFaces i
    let found ← findAdjacentEdge face.mIndices index1 index2 index3 3 0
    (match found with
    | some vOpp => pure (some vOpp)
    | none => findAdjacentFace mesh index1 index2 index3 n (i + 1))

/-- The function `Mesh::SubMesh::findAdjacentIndex(mesh, index1, index2, index3)`. -/
def findAdjacentIndex (mesh : aiMesh) (index1 index2 index3 : Nat) : Except Fault Nat := do
  let found ← findAdjacentFace mesh index1 index2 index3 mesh.mNumFaces 0
  (match found with
  | some vOpp => pure vOpp
  | none => pure index3)

/-- A mesh is triangulated when every face has exactly three indices, as the loader
requests (`aiProcess_Triangulate`) and the `SubMesh` constructor asserts. -/
def aiMesh.triangulated (mesh : aiMesh) : Prop :=
  ∀ f, f ∈ mesh.mFaces → f.mNumIndices = 3

instance (mesh : aiMesh) : Decidable mesh.triangulated := by
  unfold aiMesh.triangulated; infer_instance

/-- Corner `k` (modulo three) of a face. -/
def aiFace.corner (f : aiFace) (k : Nat) : Nat := f.mIndices.getD (k % 3) 0

/-- Edge `edge` of the face `f` joins `index1` and `index2` in either direction and the
vertex opposite to it differs from `index3`. -/
def aiFace.adjacentAt (f : aiFace) (edge index1 index2 index3 : Nat) : Prop :=
  ((f.corner edge = index1 ∧ f.corner (edge + 1) = index2) ∨
    (f.corner (edge + 1) = index1 ∧ f.corner edge = index2)) ∧
  f.corner (edge + 2) ≠ index3

instance (f : aiFace) (edge index1 index2 index3 : Nat) :
    Decidable (f.adjacentAt edge index1 index2 index3) := by
  unfold aiFace.adjacentAt; infer_instance

/-- The method `aiMesh::HasFaces()`: `mFaces != nullptr && mNumFaces > 0`. -/
def aiMesh.HasFaces (mesh : aiMesh) : Bool := decide (mesh.mNumFaces > 0)

/-- The fields of `Mesh::SubMesh` that the index section of the constructor sets:
`elementCount` and the heap block `indices`. -/
structure SubMesh where
  elementCount : Nat
  indices : List Nat
  deriving DecidableEq

/-- The macro `assert(c)`. -/
def assert (c : Prop) [Decidable c] : Except Fault Unit :=
  if c then .ok () else .error Fault.assertion

/-- The face loop of the `SubMesh` constructor:
`for (unsigned int i; i < mesh->mNumFaces; ++i) ...`, with `n = mNumFaces - i` iterations
left. The subscripts `i*6 + k` are `unsigned int` expressions. -/
def SubMesh.fillIndices (mesh : aiMesh) : Nat → Nat → List Nat → Except Fault (List Nat)
  | 0, _, indices => .ok indices
  | n + 1, i, indices => do
    let face ← load mesh.mFaces i
    assert (face.mNumIndices = 3)
    let v ← load face.mIndices 0
    let indices ← store indices ((i * 6) % 4294967296) v
    let v ← load face.mIndices 1
    let indices ← store indices ((i * 6 + 2) % 4294967296) v
    let v ← load face.mIndices 2
    let indices ← store indices ((i * 6 + 4) % 4294967296) v
    let a ← load indices ((i * 6) % 4294967296)
    let b ← load indices ((i * 6 + 2) % 4294967296)
    let c ← load indices ((i * 6 + 4) % 4294967296)
    let adj ← findAdjacentIndex mesh a b c
    let indices ← store indices ((i * 6 + 1) % 4294967296) adj
    let a ← load indices ((i * 6 + 2) % 4294967296)
    let b ← load indices ((i * 6 + 4) % 4294967296)
    let c ← load indices ((i * 6) % 4294967296)
    let adj ← findAdjacentIndex mesh a b c
    let indices ← store indices ((i * 6 + 3) % 4294967296) adj
    let a ← load indices ((i * 6 + 4) % 4294967296)
    let b ← load indices ((i * 6) % 4294967296)
    let c ← load indices ((i * 6 + 2) % 4294967296)
    let adj ← findAdjacentIndex mesh a b c
    let indices ← store indices ((i * 6 + 5) % 4294967296) adj
    SubMesh.fillIndices mesh n (i + 1) indices

/-- The index section of the constructor `Mesh::SubMesh::SubMesh(name, scene, mesh)`:
`elementCount = mesh->mNumFaces * 3 * 2` and, when the mesh has faces,
`indices = new GLuint[mesh->mNumFaces * 3 * 2]` filled by the face loop. Both products
are `unsigned int` expressions. -/
def SubMesh.SubMesh (mesh : aiMesh) : Except Fault SubMesh := do
  let elementCount := (mesh.mNumFaces * 3 * 2) % 4294967296
  let indices ←
    (if mesh.HasFaces then
      SubMesh.fillIndices mesh mesh.mNumFaces 0
        (List.replicate ((mesh.mNumFaces * 3 * 2) % 4294967296) 0)
    else
      pure [])
  pure ⟨elementCount, indices⟩

/-- Edge `edge` of the face `f` joins `a` and `b` in either direction. -/
def aiFace.joinsAt (f : aiFace) (edge a b : Nat) : Prop :=
  (f.corner edge = a ∧ f.corner (edge + 1) = b) ∨ (f.corner (edge + 1) = a ∧ f.corner edge = b)

instance (f : aiFace) (edge a b : Nat) : Decidable (f.joinsAt edge a b) := by
  unfold aiFace.joinsAt; infer_instance

/-- Face `i` of the mesh (the empty face outside the range). -/
def aiMesh.face (mesh : aiMesh) (i : Nat) : aiFace := mesh.mFaces.getD i ⟨[]⟩

/-- Face `j` is the one other face that shares edge `e` of face `i`: it has an edge
joining the same two vertices, its vertex opposite to that edge differs from the one of
face `i`, and no third face has such an edge. -/
def aiMesh.sharesEdge (mesh : aiMesh) (i e j : Nat) : Prop :=
  j ≠ i ∧
  (∃ e', e' < 3 ∧
    (mesh.face j).joinsAt e' ((mesh.face i).corner e) ((mesh.face i).corner (e + 1))) ∧
  (∀ e', e' < 3 →
    (mesh.face j).joinsAt e' ((mesh.face i).corner e) ((mesh.face i).corner (e + 1)) →
    (mesh.face j).corner (e' + 2) ≠ (mesh.face i).corner (e + 2)) ∧
  ∀ k, k < mesh.mNumFaces → k ≠ i → k ≠ j → ∀ e', e' < 3 →
    ¬ (mesh.face k).joinsAt e' ((mesh.face i).corner e) ((mesh.face i).corner (e + 1))

instance (mesh : aiMesh) (i e j : Nat) : Decidable (mesh.sharesEdge i e j) := by
  unfold aiMesh.sharesEdge; infer_instance

/-- Every undirected edge of the mesh is shared by exactly two faces whose opposite
vertices differ. -/
def aiMesh.edgesShared (mesh : aiMesh) : Prop :=
  ∀ i, i < mesh.mNumFaces → ∀ e, e < 3 → ∃ j, j < mesh.mNumFaces ∧ mesh.sharesEdge i e j

instance (mesh : aiMesh) : Decidable mesh.edgesShared := by
  unfold aiMesh.edgesShared; infer_instance

/-- The six cells of face `i` in the index buffer: the three corners of the face at the
even offsets and, at the odd offset after corner `e`, the result of `findAdjacentIndex`
for the edge that starts at corner `e`. -/
def SubMesh.faceCells (mesh : aiMesh) (indices : List Nat) (i : Nat) (f : aiFace) : Prop :=
  indices[6 * i]? = some (f.corner 0) ∧ indices[6 * i + 2]? = some (f.corner 1) ∧
  indices[6 * i + 4]? = some (f.corner 2) ∧
  ∀ e, e < 3 → ∃ x,
    findAdjacentIndex mesh (f.corner e) (f.corner (e + 1)) (f.corner (e + 2)) = .ok x ∧
    indices[6 * i + 2 * e + 1]? = some x

/-- The four faces of a tetrahedron. -/
def tetrahedron : aiMesh := ⟨[⟨[0, 1, 2]⟩, ⟨[0, 3, 1]⟩, ⟨[1, 3, 2]⟩, ⟨[2, 3, 0]⟩]⟩

/-- A mesh of `715827883` copies of the face `(0, 1, 2)`: six times the number of faces
is `2^32 + 2`. -/
def manyFaces : aiMesh := ⟨List.replicate 715827883 ⟨[0, 1, 2]⟩⟩

/-! ### Floating point

`float` is the IEEE 754 format binary32 and `double` is binary64. Every arithmetic
operation and every conversion is rounded once, to the format of its type, to nearest
with ties to even; comparisons follow IEEE 754 (every comparison with NaN is false). -/

/-- An IEEE 754 binary format: the number of bits `prec` of the significand and the
largest exponent `emax`. -/
structure FloatFormat where
  prec : Nat
  emax : Nat
  deriving DecidableEq

/-- The format of `float`. -/
def binary32 : FloatFormat := ⟨24, 127⟩

/-- The format of `double`. -/
def binary64 : FloatFormat := ⟨53, 1023⟩

/-- A floating-point value: NaN, an infinity, or the finite number
`(-1)^neg * num / 2^exp`. The two zeros are `fin false 0 0` and `fin true 0 0`. -/
inductive Fp where
  | nan
  | inf (neg : Bool)
  | fin (neg : Bool) (num : Nat) (exp : Nat)
  deriving DecidableEq

/-- The number of binary digits of `n`, added to `acc`; `fuel` bounds the number of
steps. -/
def bitLength : Nat → Nat → Nat → Nat
  | 0, _, acc => acc
  | fuel + 1, n, acc =>
    if n = 0 then acc
    else if 18446744073709551616 ≤ n then bitLength fuel (n / 18446744073709551616) (acc + 64)
    else if 4294967296 ≤ n then bitLength fuel (n / 4294967296) (acc + 32)
    else if 65536 ≤ n then bitLength fuel (n / 65536) (acc + 16)
    else if 256 ≤ n then bitLength fuel (n / 256) (acc + 8)
    else if 16 ≤ n then bitLength fuel (n / 16) (acc + 4)
    else if 4 ≤ n then bitLength fuel (n / 4) (acc + 2)
    else if 2 ≤ n then bitLength fuel (n / 2) (acc + 1)
    else acc + 1

/-- Test `a / b >= 2^d` for naturals `a`, `b > 0` and an integer `d`. -/
def geTwoPow (a b : Nat) (d : Int) : Bool :=
  if 0 ≤ d then decide (b * 2 ^ d.toNat ≤ a) else decide (b ≤ a * 2 ^ (-d).toNat)

/-- The integer `e` with `2^e <= a / b < 2^(e+1)`, for `a > 0` and `b > 0`. -/
def floorLog2 (a b : Nat) : Int :=
  if geTwoPow a b ((bitLength a a 0 : Int) - (bitLength b b 0 : Int)) then
    (bitLength a a 0 : Int) - (bitLength b b 0 : Int)
  else
    (bitLength a a 0 : Int) - (bitLength b b 0 : Int) - 1

/-- The integer nearest to `num / den`, the even one when two are equally near. -/
def roundHalfEven (num den : Nat) : Nat :=
  if 2 * (num % den) < den then num / den
  else if den < 2 * (num % den) then num / den + 1
  else if (num / den) % 2 = 0 then num / den
  else num / den + 1

/-- The fraction `num / 2^exp` in lowest terms. -/
def Fp.reduce : Nat → Nat → Nat × Nat
  | n, 0 => (n, 0)
  | n, k + 1 => if n % 2 = 0 then Fp.reduce (n / 2) k else (n, k + 1)

/-- The exponent of the last place of the significand when the positive number `a / b`
is rounded to the format `fmt`: `e - (prec - 1)` for `2^e <= a / b < 2^(e+1)`, and the
exponent `2 - emax - prec` of the subnormal numbers when that is larger. -/
def Fp.quantum (fmt : FloatFormat) (a b : Nat) : Int :=
  max (floorLog2 a b - ((fmt.prec : Int) - 1)) (2 - (fmt.emax : Int) - (fmt.prec : Int))

/-- The significand of `a / b` rounded at the exponent `q`: the integer nearest to
`(a / b) / 2^q`, ties to even. -/
def Fp.significand (a b : Nat) (q : Int) : Nat :=
  if 0 ≤ q then roundHalfEven a (b * 2 ^ q.toNat) else roundHalfEven (a * 2 ^ (-q).toNat) b

/-- Rounding of the exact result `(-1)^neg * a / b` (`b > 0`) to the format `fmt`, to
nearest with ties to even: gradual underflow below the normal range, and an infinity when
the rounded magnitude reaches `2^(emax+1)`. -/
def Fp.round (fmt : FloatFormat) (neg : Bool) (a b : Nat) : Fp :=
  if a = 0 then .fin neg 0 0
  else if Fp.significand a b (Fp.quantum fmt a b) = 0 then .fin neg 0 0
  else if (fmt.emax : Int) <
      (bitLength (Fp.significand a b (Fp.quantum fmt a b))
        (Fp.significand a b (Fp.quantum fmt a b)) 0 : Int) - 1 + Fp.quantum fmt a b then
    .inf neg
  else if 0 ≤ Fp.quantum fmt a b then
    .fin neg (Fp.significand a b (Fp.quantum fmt a b) * 2 ^ (Fp.quantum fmt a b).toNat) 0
  else
    .fin neg
      (Fp.reduce (Fp.significand a b (Fp.quantum fmt a b)) (-Fp.quantum fmt a b).toNat).1
      (Fp.reduce (Fp.significand a b (Fp.quantum fmt a b)) (-Fp.quantum fmt a b).toNat).2

/-- Test for NaN. -/
def Fp.isNaN : Fp → Bool
  | .nan => true
  | _ => false

/-- The comparison `a < b` of IEEE 754. -/
def Fp.lt : Fp → Fp → Bool
  | .nan, _ => false
  | _, .nan => false
  | .inf s, .inf t => s && !t
  | .inf s, .fin _ _ _ => s
  | .fin _ _ _, .inf t => !t
  | .fin false n k, .fin false m j => decide (n * 2 ^ j < m * 2 ^ k)
  | .fin true n k, .fin true m j => decide (m * 2 ^ k < n * 2 ^ j)
  | .fin true n _, .fin false m _ => decide (n ≠ 0 ∨ m ≠ 0)
  | .fin false _ _, .fin true _ _ => false

/-- The comparison `a <= b` of IEEE 754. -/
def Fp.le : Fp → Fp → Bool
  | .nan, _ => false
  | _, .nan => false
  | .inf s, .inf t => s || !t
  | .inf s, .fin _ _ _ => s
  | .fin _ _ _, .inf t => !t
  | .fin false n k, .fin false m j => decide (n * 2 ^ j ≤ m * 2 ^ k)
  | .fin true n k, .fin true m j => decide (m * 2 ^ k ≤ n * 2 ^ j)
  | .fin true _ _, .fin false _ _ => true
  | .fin false n _, .fin true m _ => decide (n = 0 ∧ m = 0)

/-- The negation `-a`. -/
def Fp.neg : Fp → Fp
  | .nan => .nan
  | .inf s => .inf (!s)
  | .fin s n k => .fin (!s) n k

/-- The sum `a + b` in the format `fmt`. An exact zero sum of two numbers of opposite
sign is `+0`. -/
def Fp.add (fmt : FloatFormat) : Fp → Fp → Fp
  | .nan, _ => .nan
  | _, .nan => .nan
  | .inf s, .inf t => if s = t then .inf s else .nan
  | .inf s, .fin _ _ _ => .inf s
  | .fin _ _ _, .inf t => .inf t
  | .fin s n k, .fin t m j =>
    if s = t then Fp.round fmt s (n * 2 ^ j + m * 2 ^ k) (2 ^ (k + j))
    else if n * 2 ^ j = m * 2 ^ k then .fin false 0 0
    else if m * 2 ^ k < n * 2 ^ j then Fp.round fmt s (n * 2 ^ j - m * 2 ^ k) (2 ^ (k + j))
    else Fp.round fmt t (m * 2 ^ k - n * 2 ^ j) (2 ^ (k + j))

/-- The difference `a - b` in the format `fmt`. -/
def Fp.sub (fmt : FloatFormat) (a b : Fp) : Fp := Fp.add fmt a b.neg

/-- The product `a * b` in the format `fmt`. -/
def Fp.mul (fmt : FloatFormat) : Fp → Fp → Fp
  | .nan, _ => .nan
  | _, .nan => .nan
  | .inf s, .inf t => .inf (xor s t)
  | .inf s, .fin t m _ => if m = 0 then .nan else .inf (xor s t)
  | .fin s n _, .inf t => if n = 0 then .nan else .inf (xor s t)
  | .fin s n k, .fin t m j => Fp.round fmt (xor s t) (n * m) (2 ^ (k + j))

/-- The quotient `a / b` in the format `fmt`. -/
def Fp.div (fmt : FloatFormat) : Fp → Fp → Fp
  | .nan, _ => .nan
  | _, .nan => .nan
  | .inf _, .inf _ => .nan
  | .inf s, .fin t _ _ => .inf (xor s t)
  | .fin s _ _, .inf t => .fin (xor s t) 0 0
  | .fin s n k, .fin t m j =>
    if m = 0 then (if n = 0 then .nan else .inf (xor s t))
    else Fp.round fmt (xor s t) (n * 2 ^ j) (m * 2 ^ k)

/-- The library function `fmod(x, y)`: the remainder of the division of `x` by `y` with
the quotient truncated, with the sign of `x`; it is exact. -/
def Fp.fmod : Fp → Fp → Fp
  | .nan, _ => .nan
  | _, .nan => .nan
  | .inf _, _ => .nan
  | .fin s n k, .inf _ => .fin s n k
  | .fin s n k, .fin _ m j =>
    if m = 0 then .nan
    else .fin s (Fp.reduce ((n * 2 ^ j) % (m * 2 ^ k)) (k + j)).1
      (Fp.reduce ((n * 2 ^ j) % (m * 2 ^ k)) (k + j)).2

/-- The conversion `(float)a` of a `double`. -/
def Fp.toFloat : Fp → Fp
  | .nan => .nan
  | .inf s => .inf s
  | .fin s n k => Fp.round binary32 s n (2 ^ k)

/-- The rational value of a finite value (`0` for the others). -/
def Fp.toRat : Fp → ℚ
  | .fin false n k => (n : ℚ) / 2 ^ k
  | .fin true n k => -((n : ℚ) / 2 ^ k)
  | _ => 0

/-- The place of a value in the order of the rationals extended by the two infinities
(for NaN, which is not ordered, the least element). -/
def Fp.ord : Fp → WithBot (WithTop ℚ)
  | .nan => ⊥
  | .inf true => ⊥
  | .inf false => ((⊤ : WithTop ℚ) : WithBot (WithTop ℚ))
  | .fin s n k => (((Fp.fin s n k).toRat : WithTop ℚ) : WithBot (WithTop ℚ))

/-- The assimp type `aiVector3D`: three `float`s. -/
structure aiVector3D where
  x : Fp
  y : Fp
  z : Fp
  deriving DecidableEq

/-- The default constructor `aiVector3D()`: all components are zero. -/
def aiVector3D.zero : aiVector3D := ⟨.fin false 0 0, .fin false 0 0, .fin false 0 0⟩

/-- The assimp operators `a + b` and `a += b` on vectors. -/
def aiVector3D.add (a b : aiVector3D) : aiVector3D :=
  ⟨Fp.add binary32 a.x b.x, Fp.add binary32 a.y b.y, Fp.add binary32 a.z b.z⟩

/-- The assimp operator `a - b` on vectors. -/
def aiVector3D.sub (a b : aiVector3D) : aiVector3D :=
  ⟨Fp.sub binary32 a.x b.x, Fp.sub binary32 a.y b.y, Fp.sub binary32 a.z b.z⟩

/-- The assimp operators `f * v` and `v * f` of a `float` and a vector: both are
`(f*v.x, f*v.y, f*v.z)`. -/
def aiVector3D.scale (v : aiVector3D) (f : Fp) : aiVector3D :=
  ⟨Fp.mul binary32 f v.x, Fp.mul binary32 f v.y, Fp.mul binary32 f v.z⟩

/-- The assimp type `aiVectorKey`: a key frame with its time `mTime`, a `double`, and its
value. -/
structure aiVectorKey where
  mTime : Fp
  mValue : aiVector3D
  deriving DecidableEq

/-- The assimp type `aiQuatKey`: a key frame with its time `mTime`, a `double`, and its
value, a quaternion; the quaternions are the elements of a type `Q`. -/
structure aiQuatKey (Q : Type) where
  mTime : Fp
  mValue : Q

/-- The part of the assimp type `aiNodeAnim` that the animation code reads: the name of
the animated node and the three key arrays (`mNumPositionKeys`, `mNumRotationKeys` and
`mNumScalingKeys` are their lengths). -/
structure aiNodeAnim (Q : Type) where
  mNodeName : String
  mPositionKeys : List aiVectorKey
  mRotationKeys : List (aiQuatKey Q)
  mScalingKeys : List aiVectorKey

/-- The field `mNumPositionKeys` of an `aiNodeAnim`. -/
def aiNodeAnim.mNumPositionKeys {Q : Type} (nodeAnim : aiNodeAnim Q) : Nat :=
  nodeAnim.mPositionKeys.length

/-- The field `mNumRotationKeys` of an `aiNodeAnim`. -/
def aiNodeAnim.mNumRotationKeys {Q : Type} (nodeAnim : aiNodeAnim Q) : Nat :=
  nodeAnim.mRotationKeys.length

/-- The field `mNumScalingKeys` of an `aiNodeAnim`. -/
def aiNodeAnim.mNumScalingKeys {Q : Type} (nodeAnim : aiNodeAnim Q) : Nat :=
  nodeAnim.mScalingKeys.length

/-- The loop that `findPosition`, `findRotation` and `findScaling` share:
`for (unsigned int i; i < mNumKeys - 1; ++i) if (animationTime < (float)mKeys[i + 1].mTime) return i;`
with `n = (mNumKeys - 1) - i` iterations left; `times` holds the fields `mTime` of the
key array. Returns `some i` when the loop returns from the function and `none` when it
runs to its end. -/
def findKeyLoop (animationTime : Fp) (times : List Fp) : Nat → Nat → Except Fault (Option Nat)
  | 0, _ => .ok none
  | n + 1, i => do
    let mTime ← load times (i + 1)
    if Fp.lt animationTime mTime.toFloat = true then
      pure (some i)
    else
      findKeyLoop animationTime times n (i + 1)

/-- The search that `findPosition`, `findRotation` and `findScaling` share: the loop, and
`return mNumKeys - 1` after it; the bound `mNumKeys - 1` is an `unsigned int`
expression. -/
def findKey (animationTime : Fp) (times : List Fp) : Except Fault Nat := do
  let last := (times.length + 4294967296 - 1) % 4294967296
  let found ← findKeyLoop animationTime times last 0
  (match found with
  | some i => pure i
  | none => pure last)

/-- The function `Mesh::SubMesh::findPosition(animationTime, nodeAnim)`. -/
def findPosition {Q : Type} (animationTime : Fp) (nodeAnim : aiNodeAnim Q) : Except Fault Nat :=
  findKey animationTime (nodeAnim.mPositionKeys.map (fun key => key.mTime))

/-- The function `Mesh::SubMesh::findRotation(animationTime, nodeAnim)`. -/
def findRotation {Q : Type} (animationTime : Fp) (nodeAnim : aiNodeAnim Q) :
    Except Fault Nat := do
  assert (nodeAnim.mNumRotationKeys > 0)
  findKey animationTime (nodeAnim.mRotationKeys.map (fun key => key.mTime))

/-- The function `Mesh::SubMesh::findScaling(animationTime, nodeAnim)`. -/
def findScaling {Q : Type} (animationTime : Fp) (nodeAnim : aiNodeAnim Q) :
    Except Fault Nat := do
  assert (nodeAnim.mNumScalingKeys > 0)
  findKey animationTime (nodeAnim.mScalingKeys.map (fun key => key.mTime))

/-- The time of position key `j` as the code compares it, `(float)mPositionKeys[j].mTime`,
when there is such a key. -/
def aiNodeAnim.time? {Q : Type} (nodeAnim : aiNodeAnim Q) (j : Nat) : Option Fp :=
  (nodeAnim.mPositionKeys[j]?).map (fun key => key.mTime.toFloat)

/-- Modelled from the spec: the type `animframes_t` of an animation track, whose
declaration (in `Mesh.hpp`) is not among the sources. The fields are the ones that
`Mesh.cpp` reads, with the types of the variables that the code copies them to
(`float timeBeg = anim.begin`, `float timeEnd = anim.end`): the `float`s `begin`, `end`
(here `end_`), `ticks` and `blend`, and the `bool` `loop`. -/
structure animframes_t where
  begin : Fp
  end_ : Fp
  ticks : Fp
  loop : Bool
  blend : Fp
  deriving DecidableEq

/-- The variable `animLength` of the interpolation functions: `anim.end - anim.begin`. -/
def animframes_t.animLength (anim : animframes_t) : Fp :=
  Fp.sub binary32 anim.end_ anim.begin

/-- The variable `timeCur` of the interpolation functions:
`anim.begin + fmod(anim.ticks, animLength)`, where `fmod` is exact and the sum is rounded
to `float`. -/
def animframes_t.timeCur (anim : animframes_t) : Fp :=
  Fp.add binary32 anim.begin (Fp.fmod anim.ticks anim.animLength)

/-- The test `animLength > 1.f` followed by `anim.loop || anim.ticks < animLength`: the
track is in the branch that interpolates between two key frames. -/
def animframes_t.interpolates (anim : animframes_t) : Bool :=
  Fp.lt (.fin false 1 0) anim.animLength && (anim.loop || Fp.lt anim.ticks anim.animLength)

/-- The body of the loop of `calcInterpolatedPosition` for the track `anim`: the value of
`out` after `out += ... * anim.blend`. -/
def calcInterpolatedPositionStep {Q : Type} (nodeAnim : aiNodeAnim Q) (anim : animframes_t)
    (out : aiVector3D) : Except Fault aiVector3D :=
  if Fp.lt (.fin false 1 0) anim.animLength = true then
    if (anim.loop || Fp.lt anim.ticks anim.animLength) = true then do
      let indexBeg ← findPosition anim.begin nodeAnim
      let indexCur ← findPosition anim.timeCur nodeAnim
      let indexEnd ← findPosition anim.end_ nodeAnim
      let indexNext := if indexCur = indexEnd then indexBeg else (indexCur + 1) % 4294967296
      let keyNext ← load nodeAnim.mPositionKeys indexNext
      let keyCur ← load nodeAnim.mPositionKeys indexCur
      let deltaTime := (Fp.sub binary64 keyNext.mTime keyCur.mTime).toFloat
      let factor := Fp.div binary32 (Fp.sub binary32 anim.timeCur keyCur.mTime.toFloat) deltaTime
      let delta := keyNext.mValue.sub keyCur.mValue
      pure (out.add ((keyCur.mValue.add (delta.scale factor)).scale anim.blend))
    else do
      let indexCur ← findPosition anim.end_ nodeAnim
      let key ← load nodeAnim.mPositionKeys indexCur
      pure (out.add (key.mValue.scale anim.blend))
  else do
    let indexCur ← findPosition anim.begin nodeAnim
    let key ← load nodeAnim.mPositionKeys indexCur
    pure (out.add (key.mValue.scale anim.blend))

/-- The loop of `calcInterpolatedPosition`:
`for (Uint32 animIndex; animIndex < animations.getSize(); ++animIndex) ...`, with
`n = animations.getSize() - animIndex` iterations left. -/
def calcInterpolatedPositionLoop {Q : Type} (animations : ArrayList animframes_t)
    (nodeAnim : aiNodeAnim Q) : Nat → Nat → aiVector3D → Except Fault aiVector3D
  | 0, _, out => .ok out
  | n + 1, animIndex, out => do
    let anim ← animations.subscript animIndex
    let out ← calcInterpolatedPositionStep nodeAnim anim out
    calcInterpolatedPositionLoop animations nodeAnim n (animIndex + 1) out

/-- The function `Mesh::SubMesh::calcInterpolatedPosition(out, animations, nodeAnim)`:
the value of `out` afterwards. -/
def calcInterpolatedPosition {Q : Type} (out : aiVector3D) (animations : ArrayList animframes_t)
    (nodeAnim : aiNodeAnim Q) : Except Fault aiVector3D :=
  if nodeAnim.mNumPositionKeys = 1 then do
    let key ← load nodeAnim.mPositionKeys 0
    pure key.mValue
  else
    calcInterpolatedPositionLoop animations nodeAnim animations.getSize 0 out

/-- The sample `k_i + f * (k_{i+1} - k_i)` of a track between the position keys `keyCur`
and `keyNext`, with `f = (t - (float)time_i) / (float)(time_{i+1} - time_i)` for the
current time `t` of the track, in `float` arithmetic (the difference of the two key times
is a `double`). -/
def interpolatedSample (anim : animframes_t) (keyCur keyNext : aiVectorKey) : aiVector3D :=
  keyCur.mValue.add ((keyNext.mValue.sub keyCur.mValue).scale
    (Fp.div binary32 (Fp.sub binary32 anim.timeCur keyCur.mTime.toFloat)
      (Fp.sub binary64 keyNext.mTime keyCur.mTime).toFloat))

/-- The vector `sample` is a sample of the track `anim` on the position keys of
`nodeAnim`: when the track interpolates and its current time `t` falls in a key interval
`(float)time_i <= t < (float)time_{i+1}` that does not contain the end time of the
track, it is the interpolated sample of keys `i` and `i+1`; when the track does not
interpolate it is the value of one of the keys. -/
def aiNodeAnim.IsSample {Q : Type} (nodeAnim : aiNodeAnim Q) (anim : animframes_t)
    (sample : aiVector3D) : Prop :=
  (anim.interpolates = true → ∀ i keyCur keyNext,
    nodeAnim.mPositionKeys[i]? = some keyCur → nodeAnim.mPositionKeys[i + 1]? = some keyNext →
    Fp.le keyCur.mTime.toFloat anim.timeCur = true →
    Fp.lt anim.timeCur keyNext.mTime.toFloat = true →
    Fp.lt anim.end_ keyNext.mTime.toFloat = false →
    sample = interpolatedSample anim keyCur keyNext) ∧
  (anim.interpolates = false → ∃ key, key ∈ nodeAnim.mPositionKeys ∧ sample = key.mValue)

/-- The sum of `sample * blend` over the tracks, added to `out` track by track in `float`
arithmetic. -/
def blendSum (out : aiVector3D) (tracks : List animframes_t) (samples : List aiVector3D) :
    aiVector3D :=
  (tracks.zip samples).foldl (fun o p => o.add (p.2.scale p.1.blend)) out

/-- The body of the loop of `calcInterpolatedScaling` for the track `anim`. The key
indices come from `findRotation` and `findPosition`, as in the source, and are used on
`mScalingKeys`. -/
def calcInterpolatedScalingStep {Q : Type} (nodeAnim : aiNodeAnim Q) (anim : animframes_t)
    (out : aiVector3D) : Except Fault aiVector3D :=
  if Fp.lt (.fin false 1 0) anim.animLength = true then
    if (anim.loop || Fp.lt anim.ticks anim.animLength) = true then do
      let indexBeg ← findRotation anim.begin nodeAnim
      let indexCur ← findRotation anim.timeCur nodeAnim
      let indexEnd ← findRotation anim.end_ nodeAnim
      let indexNext := if indexCur = indexEnd then indexBeg else (indexCur + 1) % 4294967296
      let keyNext ← load nodeAnim.mScalingKeys indexNext
      let keyCur ← load nodeAnim.mScalingKeys indexCur
      let deltaTime := (Fp.sub binary64 keyNext.mTime keyCur.mTime).toFloat
      let factor := Fp.div binary32 (Fp.sub binary32 anim.timeCur keyCur.mTime.toFloat) deltaTime
      let delta := keyNext.mValue.sub keyCur.mValue
      pure (out.add ((keyCur.mValue.add (delta.scale factor)).scale anim.blend))
    else do
      let indexCur ← findPosition anim.end_ nodeAnim
      let key ← load nodeAnim.mScalingKeys indexCur
      pure (out.add (key.mValue.scale anim.blend))
  else do
    let indexCur ← findPosition anim.begin nodeAnim
    let key ← load nodeAnim.mScalingKeys indexCur
    pure (out.add (key.mValue.scale anim.blend))

/-- The loop of `calcInterpolatedScaling`, with `n = animations.getSize() - animIndex`
iterations left. -/
def calcInterpolatedScalingLoop {Q : Type} (animations : ArrayList animframes_t)
    (nodeAnim : aiNodeAnim Q) : Nat → Nat → aiVector3D → Except Fault aiVector3D
  | 0, _, out => .ok out
  | n + 1, animIndex, out => do
    let anim ← animations.subscript animIndex
    let out ← calcInterpolatedScalingStep nodeAnim anim out
    calcInterpolatedScalingLoop animations nodeAnim n (animIndex + 1) out

/-- The function `Mesh::SubMesh::calcInterpolatedScaling(out, animations, nodeAnim)`:
the value of `out` afterwards. -/
def calcInterpolatedScaling {Q : Type} (out : aiVector3D) (animations : ArrayList animframes_t)
    (nodeAnim : aiNodeAnim Q) : Except Fault aiVector3D :=
  if nodeAnim.mNumScalingKeys = 1 then do
    let key ← load nodeAnim.mScalingKeys 0
    pure key.mValue
  else
    calcInterpolatedScalingLoop animations nodeAnim animations.getSize 0 out

/-- The functions of the assimp library that `calcInterpolatedRotation` and
`readNodeHierarchy` call; they are parameters of the embedding. `quaternion` is the
default constructor `aiQuaternion()`, `Interpolate start end factor` is the value that
`aiQuaternion::Interpolate(out, start, end, factor)` leaves in `out`, `GetMatrix` is
`aiMatrix4x4(q.GetMatrix())`, and `Scaling` and `Translation` are the matrices that
`aiMatrix4x4::Scaling` and `aiMatrix4x4::Translation` build. -/
structure Assimp (Q M : Type) where
  quaternion : Q
  Interpolate : Q → Q → Fp → Q
  Normalize : Q → Q
  GetMatrix : Q → M
  Scaling : aiVector3D → M
  Translation : aiVector3D → M

/-- The body of the loop of `calcInterpolatedRotation` for the track `anim` at the index
`animIndex`. The key indices of the two branches that do not interpolate come from
`findPosition`, as in the source, and are used on `mRotationKeys`. -/
def calcInterpolatedRotationStep {Q M : Type} (lib : Assimp Q M) (nodeAnim : aiNodeAnim Q)
    (animIndex : Nat) (anim : animframes_t) (out : Q) : Except Fault Q :=
  if Fp.lt (.fin false 1 0) anim.animLength = true then
    if (anim.loop || Fp.lt anim.ticks anim.animLength) = true then do
      let indexBeg ← findRotation anim.begin nodeAnim
      let indexCur ← findRotation anim.timeCur nodeAnim
      let indexEnd ← findRotation anim.end_ nodeAnim
      let indexNext := if indexCur = indexEnd then indexBeg else (indexCur + 1) % 4294967296
      let keyNext ← load nodeAnim.mRotationKeys indexNext
      let keyCur ← load nodeAnim.mRotationKeys indexCur
      let deltaTime := (Fp.sub binary64 keyNext.mTime keyCur.mTime).toFloat
      let factor := Fp.div binary32 (Fp.sub binary32 anim.timeCur keyCur.mTime.toFloat) deltaTime
      let interpolatedQ := lib.Interpolate keyCur.mValue keyNext.mValue factor
      pure (lib.Interpolate (if animIndex = 0 then interpolatedQ else out) interpolatedQ
        anim.blend)
    else do
      let indexCur ← findPosition anim.end_ nodeAnim
      let key ← load nodeAnim.mRotationKeys indexCur
      pure (lib.Interpolate (if animIndex = 0 then key.mValue else out) key.mValue anim.blend)
  else do
    let indexCur ← findPosition anim.begin nodeAnim
    let key ← load nodeAnim.mRotationKeys indexCur
    pure (lib.Interpolate (if animIndex = 0 then key.mValue else out) key.mValue anim.blend)

/-- The loop of `calcInterpolatedRotation`, with `n = animations.getSize() - animIndex`
iterations left. -/
def calcInterpolatedRotationLoop {Q M : Type} (lib : Assimp Q M)
    (animations : ArrayList animframes_t) (nodeAnim : aiNodeAnim Q) :
    Nat → Nat → Q → Except Fault Q
  | 0, _, out => .ok out
  | n + 1, animIndex, out => do
    let anim ← animations.subscript animIndex
    let out ← calcInterpolatedRotationStep lib nodeAnim animIndex anim out
    calcInterpolatedRotationLoop lib animations nodeAnim n (animIndex + 1) out

/-- The function `Mesh::SubMesh::calcInterpolatedRotation(out, animations, nodeAnim)`:
the value of `out` afterwards. -/
def calcInterpolatedRotation {Q M : Type} (lib : Assimp Q M) (out : Q)
    (animations : ArrayList animframes_t) (nodeAnim : aiNodeAnim Q) : Except Fault Q :=
  if nodeAnim.mNumRotationKeys = 1 then do
    let key ← load nodeAnim.mRotationKeys 0
    pure key.mValue
  else do
    let out ← calcInterpolatedRotationLoop lib animations nodeAnim animations.getSize 0 out
    pure (lib.Normalize out)

/-- The write `list[pos] = val` through `operator[](pos)`. -/
def ArrayList.assign {T : Type} (l : ArrayList T) (pos : Nat) (val : T) :
    Except Fault (ArrayList T) := do
  assert (pos < l.size)
  let arr ← store l.arr pos val
  pure ⟨arr, l.size, l.maxSize⟩

/-- The assimp type `aiNode`: a node of the scene tree with its name, its static
transformation and its children (`mNumChildren` is their number). The matrices are the
elements of a type `M` with a product and an identity. -/
inductive aiNode (M : Type) where
  | mk (mName : String) (mTransformation : M) (mChildren : List (aiNode M))

/-- The field `mName` of an `aiNode`. -/
def aiNode.mName {M : Type} : aiNode M → String
  | .mk mName _ _ => mName

/-- The field `mTransformation` of an `aiNode`. -/
def aiNode.mTransformation {M : Type} : aiNode M → M
  | .mk _ mTransformation _ => mTransformation

/-- The field `mChildren` of an `aiNode`. -/
def aiNode.mChildren {M : Type} : aiNode M → List (aiNode M)
  | .mk _ _ mChildren => mChildren

/-- The assimp type `aiAnimation`: the channels (`mNumChannels` is their number). -/
structure aiAnimation (Q : Type) where
  mChannels : List (aiNodeAnim Q)

/-- The field `mNumChannels` of an `aiAnimation`. -/
def aiAnimation.mNumChannels {Q : Type} (animation : aiAnimation Q) : Nat :=
  animation.mChannels.length

/-- The part of the assimp type `aiScene` that the animation code reads: the root node
and the animations. -/
structure aiScene (M Q : Type) where
  mRootNode : aiNode M
  mAnimations : List (aiAnimation Q)

/-- The method `aiScene::HasAnimations()`: `mAnimations != nullptr && mNumAnimations > 0`. -/
def aiScene.HasAnimations {M Q : Type} (scene : aiScene M Q) : Bool :=
  decide (scene.mAnimations.length > 0)

/-- The loop of `findNodeAnim`:
`for (unsigned int i; i < animation->mNumChannels; ++i) if (strcmp(curStr, str) == 0) return ...`,
with `n = mNumChannels - i` iterations left. -/
def findNodeAnimLoop {Q : Type} (mChannels : List (aiNodeAnim Q)) (str : String) :
    Nat → Nat → Except Fault (Option (aiNodeAnim Q))
  | 0, _ => .ok none
  | n + 1, i => do
    let channel ← load mChannels i
    if channel.mNodeName = str then
      pure (some channel)
    else
      findNodeAnimLoop mChannels str n (i + 1)

/-- The function `Mesh::SubMesh::findNodeAnim(animation, str)`; `none` is `nullptr`. -/
def findNodeAnim {Q : Type} (animation : aiAnimation Q) (str : String) :
    Except Fault (Option (aiNodeAnim Q)) :=
  findNodeAnimLoop animation.mChannels str animation.mNumChannels 0

/-- A choice of three matrices for every animation channel: a translation, a rotation and
a scaling matrix. -/
structure ChannelMatrices (M Q : Type) where
  translationM : aiNodeAnim Q → M
  rotationM : aiNodeAnim Q → M
  scalingM : aiNodeAnim Q → M

/-- Modelled from the spec: the type `boneinfo_t`, whose declaration (in `Mesh.hpp`) is
not among the sources, with the fields that `Mesh.cpp` uses: the name of a bone and its
offset matrix (`bones[boneIndex].offset`). -/
structure boneinfo_t (M : Type) where
  name : String
  offset : M

instance {M : Type} [Inhabited M] : Inhabited (boneinfo_t M) := ⟨⟨"", default⟩⟩

/-- Modelled from the spec: the fields of `Mesh::SubMesh` that `boneTransform` and
`readNodeHierarchy` read (the class is declared in `Mesh.hpp`, which is not among the
sources): the scene pointer, `numBones`, the list `bones` and the map `boneMapping` from
bone names to bone indices. The map is an association list: `boneMapping.exists(name)`
and `*boneMapping[name]` are the two outcomes of `lookup`. -/
structure SubMeshBones (M Q : Type) where
  scene : Option (aiScene M Q)
  numBones : Nat
  bones : ArrayList (boneinfo_t M)
  boneMapping : List (String × Nat)

section Hierarchy

variable {M Q : Type} [MulOneClass M] [SMul Nat M]

/-- The first part of `readNodeHierarchy`: the variable `nodeTransform`, which is the
static transformation of the node and, `if( nodeAnim )`, is replaced by
`translationM * rotationM * scalingM` from the three interpolations, called in the order
of the source on default-constructed outputs. -/
def nodeTransform (lib : Assimp Q M) (animations : ArrayList animframes_t)
    (nodeAnim : Option (aiNodeAnim Q)) (mTransformation : M) : Except Fault M :=
  match nodeAnim with
  | some nodeAnim => do
    let scaling ← calcInterpolatedScaling aiVector3D.zero animations nodeAnim
    let scalingM := lib.Scaling scaling
    let rotationQ ← calcInterpolatedRotation lib lib.quaternion animations nodeAnim
    let rotationM := lib.GetMatrix rotationQ
    let translation ← calcInterpolatedPosition aiVector3D.zero animations nodeAnim
    let translationM := lib.Translation translation
    pure (translationM * rotationM * scalingM)
  | none => pure mTransformation

mutual
/-- The method `readNodeHierarchy(animations, transforms, node, parentTransform)`. The
product with `16384.f` is the scalar multiple `16384 • _`; the conversion
`glm::transpose(glm::make_mat4(...))` from the assimp layout to the glm layout leaves the
matrix the same; `visited` is a ghost record of the names of the nodes the method was
called on. -/
def SubMeshBones.readNodeHierarchy (sub : SubMeshBones M Q) (lib : Assimp Q M)
    (animations : ArrayList animframes_t) (scene : aiScene M Q) :
    ArrayList M → List String → aiNode M → M → Except Fault (ArrayList M × List String)
  | transforms, visited, .mk nodeName mTransformation mChildren, parentTransform => do
    let animation ← load scene.mAnimations 0
    let nodeAnim ← findNodeAnim animation nodeName
    let nodeTransform ← nodeTransform lib animations nodeAnim mTransformation
    let globalTransform := parentTransform * nodeTransform
    let transforms ←
      (match sub.boneMapping.lookup nodeName with
      | some boneIndex => do
        let bone ← sub.bones.subscript boneIndex
        transforms.assign boneIndex (16384 • (globalTransform * bone.offset))
      | none => pure transforms)
    SubMeshBones.readNodeChildren sub lib animations scene transforms (visited ++ [nodeName])
      mChildren globalTransform
/-- The loop over the children in `readNodeHierarchy`:
`for (unsigned int i; i < node->mNumChildren; ++i) readNodeHierarchy(..., node->mChildren[i], globalTransform)`,
on the children that are left. -/
def SubMeshBones.readNodeChildren (sub : SubMeshBones M Q) (lib : Assimp Q M)
    (animations : ArrayList animframes_t) (scene : aiScene M Q) :
    ArrayList M → List String → List (aiNode M) → M → Except Fault (ArrayList M × List String)
  | transforms, visited, [], _ => pure (transforms, visited)
  | transforms, visited, child :: rest, globalTransform => do
    let r ← SubMeshBones.readNodeHierarchy sub lib animations scene transforms visited child
      globalTransform
    SubMeshBones.readNodeChildren sub lib animations scene r.1 r.2 rest globalTransform
end

/-- The method `boneTransform(animations, transforms)`, with the ghost record of the
visited nodes. -/
def SubMeshBones.boneTransform [Inhabited M] (sub : SubMeshBones M Q) (lib : Assimp Q M)
    (animations : ArrayList animframes_t) (transforms : ArrayList M) :
    Except Fault (ArrayList M × List String) :=
  match sub.scene with
  | none => pure (transforms, [])
  | some scene =>
    if ¬ scene.HasAnimations then
      pure (transforms, [])
    else do
      let transforms ← transforms.resize sub.numBones
      SubMeshBones.readNodeHierarchy sub lib animations scene transforms [] scene.mRootNode 1

/-- Invariant of the bone fields after the constructor: `bones` is a well-formed list of
`numBones` entries, every index in `boneMapping` is below `numBones`, and different
names have different indices. -/
def SubMeshBones.wf (sub : SubMeshBones M Q) : Prop :=
  sub.bones.wf ∧ sub.bones.size = sub.numBones ∧
  (∀ name b, sub.boneMapping.lookup name = some b → b < sub.numBones) ∧
  (∀ name name' b, sub.boneMapping.lookup name = some b →
    sub.boneMapping.lookup name' = some b → name = name')

/-- The channel of the animation for the node called `name`: the first channel with
that name, if there is one. -/
def aiAnimation.channel? (animation : aiAnimation Q) (name : String) :
    Option (aiNodeAnim Q) :=
  animation.mChannels.find? (fun channel => decide (channel.mNodeName = name))

/-- The local transformation `L` of a node: translation * rotation * scaling from its
animation channel if the animation has a channel with the name of the node, and the
static transformation of the node otherwise. The three matrices are those of the values
that `calcInterpolatedPosition`, `calcInterpolatedRotation` and `calcInterpolatedScaling`
give for the channel; `L` is `none` when one of them reads a key out of range. -/
def localTransform? (lib : Assimp Q M) (animations : ArrayList animframes_t)
    (animation : aiAnimation Q) (node : aiNode M) : Option M :=
  match animation.channel? node.mName with
  | some channel =>
    match calcInterpolatedPosition aiVector3D.zero animations channel,
      calcInterpolatedRotation lib lib.quaternion animations channel,
      calcInterpolatedScaling aiVector3D.zero animations channel with
    | .ok translation, .ok rotationQ, .ok scaling =>
      some (lib.Translation translation * lib.GetMatrix rotationQ * lib.Scaling scaling)
    | _, _, _ => none
  | none => some node.mTransformation

/-- The three interpolations of the channel are defined: none of them reads a key out of
range. -/
def aiNodeAnim.interpolates (lib : Assimp Q M) (animations : ArrayList animframes_t)
    (channel : aiNodeAnim Q) : Prop :=
  (∃ translation, calcInterpolatedPosition aiVector3D.zero animations channel =
    .ok translation) ∧
  (∃ rotationQ, calcInterpolatedRotation lib lib.quaternion animations channel =
    .ok rotationQ) ∧
  (∃ scaling, calcInterpolatedScaling aiVector3D.zero animations channel = .ok scaling)

/-- The matrices of the interpolated values of every channel; `default` stands for the
matrix of an interpolation that is not defined. -/
def channelMatrices [Inhabited M] (lib : Assimp Q M) (animations : ArrayList animframes_t) :
    ChannelMatrices M Q where
  translationM channel :=
    match calcInterpolatedPosition aiVector3D.zero animations channel with
    | .ok translation => lib.Translation translation
    | .error _ => default
  rotationM channel :=
    match calcInterpolatedRotation lib lib.quaternion animations channel with
    | .ok rotationQ => lib.GetMatrix rotationQ
    | .error _ => default
  scalingM channel :=
    match calcInterpolatedScaling aiVector3D.zero animations channel with
    | .ok scaling => lib.Scaling scaling
    | .error _ => default

/-- The local transformation of a node for a given choice of the matrices of the
channels. -/
def localTransform (mats : ChannelMatrices M Q) (animation : aiAnimation Q)
    (node : aiNode M) : M :=
  match animation.channel? node.mName with
  | some channel => mats.translationM channel * mats.rotationM channel * mats.scalingM channel
  | none => node.mTransformation

mutual
/-- The names of the nodes of a tree, every node once, parents before children. -/
def aiNode.names : aiNode M → List String
  | .mk mName _ mChildren => mName :: aiNode.namesList mChildren
/-- The names of the nodes of a list of trees. -/
def aiNode.namesList : List (aiNode M) → List String
  | [] => []
  | child :: rest => aiNode.names child ++ aiNode.namesList rest
end

/-- The list update that a sequence of writes `transforms[index] = value` makes. -/
def applyWrites (transforms : ArrayList M) (ws : List (Nat × M)) : ArrayList M :=
  ws.foldl (fun t w => ⟨t.arr.set w.1 w.2, t.size, t.maxSize⟩) transforms

mutual
/-- The writes `(boneIndex, matrix)` that the traversal of a tree makes, in order, when it
is entered with the transformation `parent` of the parent node. -/
def aiNode.writes [Inhabited M] (sub : SubMeshBones M Q) (mats : ChannelMatrices M Q)
    (animation : aiAnimation Q) : aiNode M → M → List (Nat × M)
  | .mk mName mTransformation mChildren, parent =>
    (match sub.boneMapping.lookup mName with
    | some b =>
      [(b, 16384 • (parent * localTransform mats animation (.mk mName mTransformation mChildren) *
        (sub.bones.arr.getD b default).offset))]
    | none => []) ++
    aiNode.writesList sub mats animation mChildren
      (parent * localTransform mats animation (.mk mName mTransformation mChildren))
/-- The writes that the traversal of a list of trees makes. -/
def aiNode.writesList [Inhabited M] (sub : SubMeshBones M Q) (mats : ChannelMatrices M Q)
    (animation : aiAnimation Q) : List (aiNode M) → M → List (Nat × M)
  | [], _ => []
  | child :: rest, parent =>
    aiNode.writes sub mats animation child parent ++
      aiNode.writesList sub mats animation rest parent
end

end Hierarchy

/-- A stand-in for the assimp functions with natural numbers for quaternions and
matrices: the matrix of a vector is the numerator of its first component plus a constant,
and interpolation returns its end point. -/
def natLib : Assimp Nat Nat where
  quaternion := 1
  Interpolate _ b _ := b
  Normalize q := q
  GetMatrix q := q
  Scaling v := (match v.x with | .fin _ n _ => n | _ => 0) + 19
  Translation v := (match v.x with | .fin _ n _ => n | _ => 0) + 13

/-- The vector `(x, 0, 0)` for a natural number `x`. -/
def aiVector3D.ofNat (x : Nat) : aiVector3D := ⟨.fin false x 0, .fin false 0 0, .fin false 0 0⟩

/-- A channel for the node `hip`: position keys at the times `0, 2, 4` with the values
`(0,0,0)`, `(2,0,0)`, `(4,0,0)`, rotation keys at the same times with the values
`17, 23, 29`, and one scaling key with the value `(1,0,0)`. -/
def hipChannel : aiNodeAnim Nat :=
  ⟨"hip",
    [⟨.fin false 0 0, .ofNat 0⟩, ⟨.fin false 2 0, .ofNat 2⟩, ⟨.fin false 4 0, .ofNat 4⟩],
    [⟨.fin false 0 0, 17⟩, ⟨.fin false 2 0, 23⟩, ⟨.fin false 4 0, 29⟩],
    [⟨.fin false 0 0, .ofNat 1⟩]⟩

/-- One looping track from time `0` to time `4` at `ticks = 1`, with blend `1`. -/
def walkTracks : ArrayList animframes_t :=
  ⟨[⟨.fin false 0 0, .fin false 4 0, .fin false 1 0, true, .fin false 1 0⟩], 1, 1⟩

/-- A channel with two position keys at the `double` times `0` and `16777217`; the
second time is `16777216` as a `float`. -/
def roundedChannel : aiNodeAnim Nat :=
  ⟨"bone", [⟨.fin false 0 0, .ofNat 0⟩, ⟨.fin false 16777217 0, .ofNat 1⟩], [], []⟩

/-- A channel with three position keys at the `double` times `16777217`, `16777219` and
`67108864`, with the values `(0,0,0)`, `(1,0,0)` and `(2,0,0)`. As `float`s the first two
times are `16777216` and `16777220`. -/
def tieChannel : aiNodeAnim Nat :=
  ⟨"bone",
    [⟨.fin false 16777217 0, .ofNat 0⟩, ⟨.fin false 16777219 0, .ofNat 1⟩,
      ⟨.fin false 67108864 0, .ofNat 2⟩], [], []⟩

/-- One track from time `0` to time `67108864` at `ticks = 16777218`, not looping, with
blend `1`. -/
def tieTracks : ArrayList animframes_t :=
  ⟨[⟨.fin false 0 0, .fin false 67108864 0, .fin false 16777218 0, false, .fin false 1 0⟩],
    1, 1⟩

/-- One looping track from time `0` to time `2` whose `ticks` is NaN, with blend `1`. -/
def nanTracks : ArrayList animframes_t :=
  ⟨[⟨.fin false 0 0, .fin false 2 0, .nan, true, .fin false 1 0⟩], 1, 1⟩

/-- A channel with three position keys at the `double` times `-2^200`, `0` and `8`, with
the values `(0,0,0)`, `(1,0,0)` and `(2,0,0)`. As a `float` the first time is `-inf`. -/
def farChannel : aiNodeAnim Nat :=
  ⟨"bone",
    [⟨.fin true (2 ^ 200) 0, .ofNat 0⟩, ⟨.fin false 0 0, .ofNat 1⟩, ⟨.fin false 8 0, .ofNat 2⟩],
    [], []⟩

/-- One track from time `-2` to time `8` at `ticks = 1`, not looping, with blend `1`. -/
def farTracks : ArrayList animframes_t :=
  ⟨[⟨.fin true 2 0, .fin false 8 0, .fin false 1 0, false, .fin false 1 0⟩], 1, 1⟩

/-- A channel with three position keys at the `double` times `-16777219`, `-3/4` and `8`,
with the values `(0,0,0)`, `(1,0,0)` and `(2,0,0)`. As a `float` the first time is
`-16777220`. -/
def steepChannel : aiNodeAnim Nat :=
  ⟨"bone",
    [⟨.fin true 16777219 0, .ofNat 0⟩, ⟨.fin true 3 2, .ofNat 1⟩, ⟨.fin false 8 0, .ofNat 2⟩],
    [], []⟩

/-- One track from time `-1` to time `3` at `ticks = 1/8`, not looping, with blend `1`. -/
def steepTracks : ArrayList animframes_t :=
  ⟨[⟨.fin true 1 0, .fin false 3 0, .fin false 1 3, false, .fin false 1 0⟩], 1, 1⟩

/-- A scene of three nodes `root`, `hip` (child of `root`) and `knee` (child of `hip`)
with natural numbers for matrices, one animation with the channel `hipChannel`. -/
def legScene : aiScene Nat Nat :=
  ⟨.mk "root" 2 [.mk "hip" 3 [.mk "knee" 5 []]], [⟨[hipChannel]⟩]⟩

/-- Bone fields for `legScene`: the bones `knee` (index 0, offset 7) and `hip` (index 1,
offset 11). -/
def legBones : SubMeshBones Nat Nat :=
  ⟨some legScene, 2, ⟨[⟨"knee", 7⟩, ⟨"hip", 11⟩], 2, 2⟩, [("knee", 0), ("hip", 1)]⟩

/-- The scene `legScene` without its animation. -/
def stillScene : aiScene Nat Nat :=
  ⟨.mk "root" 2 [.mk "hip" 3 [.mk "knee" 5 []]], []⟩

/-- Bone fields for `stillScene`. -/
def stillBones : SubMeshBones Nat Nat :=
  ⟨some stillScene, 2, ⟨[⟨"knee", 7⟩, ⟨"hip", 11⟩], 2, 2⟩, [("knee", 0), ("hip", 1)]⟩

/-- A channel for the node `hip` with three rotation keys at the times `0, 1, 4` and only
two scaling keys. -/
def shortChannel : aiNodeAnim Nat :=
  ⟨"hip",
    [⟨.fin false 0 0, .ofNat 0⟩],
    [⟨.fin false 0 0, 17⟩, ⟨.fin false 1 0, 23⟩, ⟨.fin false 4 0, 29⟩],
    [⟨.fin false 0 0, .ofNat 1⟩, ⟨.fin false 2 0, .ofNat 1⟩]⟩

/-- The scene `legScene` with the channel `shortChannel` in place of `hipChannel`. -/
def shortScene : aiScene Nat Nat :=
  ⟨.mk "root" 2 [.mk "hip" 3 [.mk "knee" 5 []]], [⟨[shortChannel]⟩]⟩

/-- Bone fields for `shortScene`. -/
def shortBones : SubMeshBones Nat Nat :=
  ⟨some shortScene, 2, ⟨[⟨"knee", 7⟩, ⟨"hip", 11⟩], 2, 2⟩, [("knee", 0), ("hip", 1)]⟩

/-! ## Theorems -/

section Evaluation

theorem sort_eval : (ArrayList.mk [3, 1, 2, 0] 3 4).sort natLess = .ok ⟨[1, 2, 3], 3, 3⟩ := rfl

theorem push_eval :
    (ArrayList.mk [3, 1, 2, 9] 4 4).push (.object 7) = .ok ⟨[3, 1, 2, 9, 7, 0, 0, 0], 5, 8⟩ := rfl

theorem insertAndRearrange_eval :
    (ArrayList.mk [3, 1, 2, 9] 3 4).insertAndRearrange (.object 7) 1 = .ok ⟨[3, 7, 1, 2], 4, 4⟩ := rfl

theorem insert_eval :
    (ArrayList.mk [3, 1, 2, 9] 3 4).insert (.object 7) 1 = .ok ⟨[3, 7, 2, 1], 4, 4⟩ := rfl

theorem remove_eval :
    (ArrayList.mk [3, 1, 2, 9] 4 4).remove 1 = .ok (1, ⟨[3, 9, 2, 9], 3, 4⟩) := rfl

theorem removeAndRearrange_eval :
    (ArrayList.mk [3, 1, 2, 9] 4 4).removeAndRearrange 1 = .ok (1, ⟨[3, 2, 9, 9], 3, 4⟩) := rfl

theorem resize_eval :
    (ArrayList.mk [3, 1, 2, 9] 3 4).resize 6 = .ok ⟨[3, 1, 2, 0, 0, 0], 6, 6⟩ := rfl

theorem findAdjacentIndex_eval :
    findAdjacentIndex ⟨[⟨[0, 1, 2]⟩, ⟨[2, 1, 3]⟩]⟩ 1 2 0 = .ok 3 ∧
    findAdjacentIndex ⟨[⟨[0, 1, 2]⟩, ⟨[2, 1, 3]⟩]⟩ 0 1 2 = .ok 2 := ⟨rfl, rfl⟩

end Evaluation

section Basics

variable {T : Type}

theorem ok_bind {α β : Type} (a : α) (f : α → Except Fault β) :
    (Except.ok a >>= f) = f a := rfl

theorem set_getElem_same (arr : List T) (i : Nat) (h : i < arr.length) :
    arr.set i arr[i] = arr := by
  apply List.ext_getElem?
  intro j
  by_cases hj : i = j
  · subst hj
    rw [List.getElem?_set_self h, List.getElem?_eq_getElem h]
  · rw [List.getElem?_set_ne hj]

theorem load_of_getElem? {arr : List T} {c : Nat} {v : T} (h : arr[c]? = some v) :
    load arr c = .ok v := by
  simp [load, h]

theorem store_of_lt {arr : List T} {c : Nat} (v : T) (h : c < arr.length) :
    store arr c v = .ok (arr.set c v) := by
  simp [store, h]

theorem shiftDown_spec (n : Nat) : ∀ (c : Nat) (arr : List T), c + n < arr.length →
    ∃ arr', shiftDown n c arr = .ok arr' ∧ arr'.length = arr.length ∧
      ∀ i, arr'[i]? = if c ≤ i ∧ i < c + n then arr[i + 1]? else arr[i]? := by
  induction n with
  | zero =>
    intro c arr _
    exact ⟨arr, rfl, rfl, fun i => by rw [if_neg]; omega⟩
  | succ n ih =>
    intro c arr h
    have h1 : c + 1 < arr.length := by omega
    obtain ⟨arr', he, hl, hg⟩ := ih (c + 1) (arr.set c arr[c + 1]) (by simp; omega)
    refine ⟨arr', ?_, by simpa using hl, fun i => ?_⟩
    · simp only [shiftDown]
      rw [load_of_getElem? (List.getElem?_eq_getElem h1)]
      simp only [bind, Except.bind]
      rw [store_of_lt _ (by omega)]
      exact he
    · rw [hg i]
      by_cases hi : i = c
      · subst hi
        have h0 : i < arr.length := by omega
        simp [List.getElem?_eq_getElem h1, List.getElem?_set_self h0]
      · simp only [List.getElem?_set]
        split_ifs <;> first | rfl | omega

theorem shiftUp_spec (n : Nat) : ∀ (c : Nat) (arr : List T), n ≤ c → c < arr.length →
    ∃ arr', shiftUp n c arr = .ok arr' ∧ arr'.length = arr.length ∧
      ∀ i, arr'[i]? = if c - n < i ∧ i ≤ c then arr[i - 1]? else arr[i]? := by
  induction n with
  | zero =>
    intro c arr _ _
    exact ⟨arr, rfl, rfl, fun i => by rw [if_neg]; omega⟩
  | succ n ih =>
    intro c arr hn h
    have h1 : c - 1 < arr.length := by omega
    obtain ⟨arr', he, hl, hg⟩ := ih (c - 1) (arr.set c arr[c - 1]) (by omega) (by simp; omega)
    refine ⟨arr', ?_, by simpa using hl, fun i => ?_⟩
    · simp only [shiftUp]
      rw [load_of_getElem? (List.getElem?_eq_getElem h1)]
      simp only [bind, Except.bind]
      rw [store_of_lt _ h]
      exact he
    · rw [hg i]
      by_cases hi : i = c
      · subst hi
        rw [if_neg (by omega), if_pos (by omega), List.getElem?_set_self h,
          List.getElem?_eq_getElem h1]
      · simp only [List.getElem?_set]
        split_ifs <;> first | rfl | omega

theorem allocCopy_spec (arr : List T) (n : Nat) : ∀ (c : Nat) (newArr : List T),
    c + n ≤ arr.length → c + n ≤ newArr.length →
    ∃ r, allocCopy arr n c newArr = .ok r ∧ r.length = newArr.length ∧
      ∀ i, r[i]? = if c ≤ i ∧ i < c + n then arr[i]? else newArr[i]? := by
  induction n with
  | zero =>
    intro c newArr _ _
    exact ⟨newArr, rfl, rfl, fun i => by rw [if_neg]; omega⟩
  | succ n ih =>
    intro c newArr h h'
    have h1 : c < arr.length := by omega
    have h2 : c < newArr.length := by omega
    obtain ⟨r, he, hl, hg⟩ := ih (c + 1) (newArr.set c arr[c]) (by omega) (by simp; omega)
    refine ⟨r, ?_, by simpa using hl, fun i => ?_⟩
    · simp only [allocCopy]
      rw [load_of_getElem? (List.getElem?_eq_getElem h1)]
      simp only [bind, Except.bind]
      rw [store_of_lt _ h2]
      exact he
    · rw [hg i]
      by_cases hi : i = c
      · subst hi
        simp [List.getElem?_eq_getElem h1, List.getElem?_set_self h2]
      · simp only [List.getElem?_set]
        split_ifs <;> first | rfl | omega

theorem resizeFill_spec [Inhabited T] (n : Nat) : ∀ (c : Nat) (arr : List T),
    c + n ≤ arr.length →
    ∃ r, resizeFill n c arr = .ok r ∧ r.length = arr.length ∧
      ∀ i, r[i]? = if c ≤ i ∧ i < c + n then some default else arr[i]? := by
  induction n with
  | zero =>
    intro c arr _
    exact ⟨arr, rfl, rfl, fun i => by rw [if_neg]; omega⟩
  | succ n ih =>
    intro c arr h
    have h2 : c < arr.length := by omega
    obtain ⟨r, he, hl, hg⟩ := ih (c + 1) (arr.set c default) (by simp; omega)
    refine ⟨r, ?_, by simpa using hl, fun i => ?_⟩
    · simp only [resizeFill]
      rw [store_of_lt _ h2]
      exact he
    · rw [hg i]
      by_cases hi : i = c
      · subst hi
        simp [List.getElem?_set_self h2]
      · simp only [List.getElem?_set]
        split_ifs <;> first | rfl | omega

theorem subscript_of_getElem? {l : ArrayList T} {i : Nat} {x : T} (hi : i < l.size)
    (h : l.arr[i]? = some x) : l.subscript i = .ok x := by
  simp only [ArrayList.subscript, hi, not_true_eq_false, if_false]
  exact load_of_getElem? h

theorem subscript_eq_of_getElem?_eq {l r : ArrayList T} {i : Nat} (hl : i < l.size)
    (hr : i < r.size) (h : r.arr[i]? = l.arr[i]?) : r.subscript i = l.subscript i := by
  simp [ArrayList.subscript, hl, hr, load, h]

theorem subscript_defined {l : ArrayList T} (hwf : l.wf) {i : Nat} (hi : i < l.size) :
    ∃ x, l.arr[i]? = some x ∧ l.subscript i = .ok x := by
  have h : i < l.arr.length := by have := hwf.1; have := hwf.2.1; omega
  exact ⟨l.arr[i], List.getElem?_eq_getElem h, subscript_of_getElem? hi (List.getElem?_eq_getElem h)⟩

theorem alloc_spec [Inhabited T] (l : ArrayList T) (len : Nat) (h : l.size ≤ l.arr.length) :
    ∃ r, l.alloc len = .ok r ∧ r.size = min len l.size ∧ r.maxSize = len ∧
      r.arr.length = len ∧
      ∀ i, r.arr[i]? = if i < min l.size len then l.arr[i]?
        else if i < len then some default else none := by
  by_cases hlen : len = 0
  · subst hlen
    refine ⟨⟨[], 0, 0⟩, by simp [ArrayList.alloc]; rfl, by simp, rfl, rfl, fun i => by simp⟩
  · obtain ⟨r, he, hlr, hg⟩ := allocCopy_spec l.arr (min l.size len) 0
      (List.replicate len default) (by omega) (by simp)
    refine ⟨⟨r, min len l.size, len⟩, ?_, rfl, rfl, by simpa using hlr, fun i => ?_⟩
    · simp only [ArrayList.alloc, ne_eq, hlen, not_false_eq_true, if_true, he]
      rfl
    · simp only [hg i, List.getElem?_replicate]
      split_ifs <;> first | rfl | omega

theorem grow_spec [Inhabited T] (l : ArrayList T) (hwf : l.wf)
    (h : l.size < l.maxSize ∨ l.size < 2147483648) :
    ∃ r, l.grow = .ok r ∧ r.wf ∧ r.size = l.size ∧ r.size < r.maxSize ∧
      (∀ i, i < l.size → r.arr[i]? = l.arr[i]?) ∧
      (l.size < l.maxSize → r = l) ∧
      (l.size = l.maxSize → r.maxSize = max (l.size * 2) 4) := by
  obtain ⟨h1, h2, h3⟩ := hwf
  by_cases hfull : l.size = l.maxSize
  · have hs : l.size < 2147483648 := by omega
    obtain ⟨r, he, hsz, hmax, hlen, hg⟩ :=
      alloc_spec l (max ((l.size * 2) % 4294967296) 4) (by omega)
    have hm : (l.size * 2) % 4294967296 = l.size * 2 := Nat.mod_eq_of_lt (by omega)
    rw [hm] at he hsz hmax hlen hg
    refine ⟨r, by simp only [ArrayList.grow, hfull, if_true]; rw [← hfull, hm]; exact he,
      ⟨by omega, by omega, by omega⟩, by omega, by omega, fun i hi => ?_, by omega,
      fun _ => hmax⟩
    rw [hg i, if_pos (by omega)]
  · refine ⟨l, by simp [ArrayList.grow, hfull]; rfl, ⟨h1, h2, h3⟩, rfl, by omega,
      fun _ _ => rfl, fun _ => rfl, fun hf => absurd hf hfull⟩

theorem push_arr_spec [Inhabited T] (l : ArrayList T) (v : T) (hwf : l.wf)
    (h : l.size < l.maxSize ∨ l.size < 2147483648) :
    ∃ r, l.push (.object v) = .ok r ∧ r.wf ∧ r.size = l.size + 1 ∧
      (l.size < l.maxSize → r.maxSize = l.maxSize) ∧
      ∀ i, i < r.size → r.arr[i]? =
        if i < l.size then l.arr[i]? else if i = l.size then some v else l.arr[i - 1]? := by
  obtain ⟨g, he, hgwf, hgs, hglt, hgel, hsame, _⟩ := grow_spec l hwf h
  obtain ⟨h1, h2, h3⟩ := hgwf
  have hm1 : (g.size + 1) % 4294967296 = g.size + 1 := Nat.mod_eq_of_lt (by omega)
  have hm2 : (g.size + 1 + 4294967296 - 1) % 4294967296 = g.size := by omega
  have hlt : g.size < g.arr.length := by omega
  refine ⟨⟨g.arr.set g.size v, g.size + 1, g.maxSize⟩, ?_, ⟨by simpa using h1, by
    simp only; omega, h3⟩, by simp only; omega, fun hl => by rw [hsame hl], fun i hi => ?_⟩
  · simp only [ArrayList.push, Ref.read, he, bind, Except.bind, hm1, hm2, store_of_lt v hlt]
    rfl
  · simp only at hi ⊢
    by_cases hil : i < l.size
    · rw [if_pos hil, List.getElem?_set_ne (by omega), hgel i hil]
    · have : i = g.size := by omega
      subst this
      rw [if_neg hil, if_pos hgs, List.getElem?_set_self hlt]

theorem grow_overflow [Inhabited T] (l : ArrayList T) (hwf : l.wf) (hfull : l.size = l.maxSize)
    (hbig : 2147483648 ≤ l.size) :
    ∃ r, l.grow = .ok r ∧ r.size = r.maxSize ∧ r.arr.length = r.maxSize ∧
      4 ≤ r.maxSize ∧ r.maxSize < 4294967295 ∧ r.size ≤ l.size := by
  obtain ⟨h1, h2, h3⟩ := hwf
  obtain ⟨r, he, hsz, hmax, hlen, _⟩ :=
    alloc_spec l (max ((l.size * 2) % 4294967296) 4) (by omega)
  refine ⟨r, by simp only [ArrayList.grow, hfull, if_true]; rw [← hfull]; exact he,
    by omega, by omega, by omega, by omega, by omega⟩

theorem push_overflow [Inhabited T] (l : ArrayList T) (v : T) (hwf : l.wf)
    (hfull : l.size = l.maxSize) (hbig : 2147483648 ≤ l.size) :
    l.push (.object v) = .error Fault.outOfBounds := by
  obtain ⟨r, he, hsz, hlen, h4, hlt⟩ := grow_overflow l hwf hfull hbig
  have hm : ((r.size + 1) % 4294967296 + 4294967296 - 1) % 4294967296 = r.size := by omega
  simp only [ArrayList.push, Ref.read, he, bind, Except.bind, hm, store]
  rw [if_neg (by omega)]

theorem push_of_get? [Inhabited T] (l : ArrayList T) (val : Ref T) (v : T)
    (hv : val.get? l.arr = some v) (hal : ∀ k, val = .cell k → l.size < l.maxSize) :
    l.push val = l.push (.object v) := by
  cases val with
  | object w =>
    simp only [Ref.get?, Option.some.injEq] at hv
    rw [hv]
  | cell k =>
    have hne : l.size ≠ l.maxSize := Nat.ne_of_lt (hal k rfl)
    simp only [Ref.get?] at hv
    simp only [ArrayList.push, ArrayList.grow, Ref.read, hne, if_false, decide_False,
      load_of_getElem? hv, pure, Except.pure, bind, Except.bind, Bool.false_eq_true]

theorem push_freed [Inhabited T] (l : ArrayList T) (k : Nat) (hwf : l.wf)
    (hfull : l.size = l.maxSize) (hsize : l.size < 2147483648) :
    l.push (.cell k) = .error Fault.useAfterFree := by
  obtain ⟨g, he, _⟩ := grow_spec l hwf (Or.inr hsize)
  simp only [ArrayList.push, Ref.read, he, hfull, decide_True, if_true, bind, Except.bind]

theorem fullList_wf : fullList.wf := by
  refine ⟨?_, Nat.le_refl _, ?_⟩
  · show (List.replicate 2147483648 0).length = 2147483648
    exact List.length_replicate _ _
  · show 2147483648 < 4294967296
    decide

end Basics

section Push

variable {T : Type} [Inhabited T]

theorem push_spec (l : ArrayList T) (v : T) (hwf : l.wf)
    (hsize : l.size < l.maxSize ∨ l.size < 2147483648) :
    ∃ r, l.push (.object v) = .ok r ∧ r.wf ∧ r.getSize = l.getSize + 1 ∧
      r.subscript (r.getSize - 1) = .ok v ∧
      (∀ i, i < l.getSize → ∃ x, l.subscript i = .ok x ∧ r.subscript i = .ok x) ∧
      (l.size = l.maxSize → r.getMaxSize = max (l.size * 2) 4) ∧
      (l.size < l.maxSize → r.getMaxSize = l.getMaxSize) := by
  obtain ⟨g, he, hgwf, hgs, hglt, hgel, hsame, hfull⟩ := grow_spec l hwf hsize
  have hg3 := hgwf.2.2
  have hm1 : (g.size + 1) % 4294967296 = g.size + 1 := Nat.mod_eq_of_lt (by omega)
  have hm2 : (g.size + 1 + 4294967296 - 1) % 4294967296 = g.size := by omega
  have hlt : g.size < g.arr.length := by have := hgwf.1; omega
  refine ⟨⟨g.arr.set g.size v, g.size + 1, g.maxSize⟩, ?_, ?_, ?_, ?_, ?_, ?_, ?_⟩
  · simp only [ArrayList.push, Ref.read, he, bind, Except.bind, hm1, hm2, store_of_lt v hlt]
    rfl
  · obtain ⟨h1, h2, h3⟩ := hgwf
    exact ⟨by simpa using h1, by simp only; omega, h3⟩
  · simp only [ArrayList.getSize]; omega
  · apply subscript_of_getElem?
    · simp [ArrayList.getSize]
    · simp [ArrayList.getSize, List.getElem?_set_self hlt]
  · intro i hi
    simp only [ArrayList.getSize] at hi
    obtain ⟨x, hx, hsx⟩ := subscript_defined hwf hi
    refine ⟨x, hsx, subscript_of_getElem? (by simp only; omega) ?_⟩
    simp only
    rw [List.getElem?_set_ne (by omega), hgel i hi, hx]
  · exact hfull
  · intro hl; rw [hsame hl]; rfl

/-- C3 (counterexample): on the full list `[3, 1, 2, 9]` the call `push(list[0])` passes a
reference into the heap block; the growth step deletes that block before `val` is read
in `arr[size-1] = val`, so the push does not produce a list whose last element is `3`. -/
theorem C3_push_counterexample :
    (ArrayList.mk [3, 1, 2, 9] 4 4).wf ∧ (ArrayList.mk [3, 1, 2, 9] 4 4).size < 2147483648 ∧
    (ArrayList.mk [3, 1, 2, 9] 4 4).subscript 0 = .ok 3 ∧
    (Ref.cell 0).get? (ArrayList.mk [3, 1, 2, 9] 4 4).arr = some 3 ∧
    (ArrayList.mk [3, 1, 2, 9] 4 4).push (.cell 0) = .error Fault.useAfterFree :=
  ⟨by decide, by decide, rfl, rfl, rfl⟩

/-- C3 (amended): on a well-formed list with fewer than `2^31` elements, for a value `v`
that is passed from outside the heap block of the list, or from a cell of the block
while the list has spare capacity, `push(v)` succeeds, `getSize()` grows by one, the
element at the last index is `v`, and every element below the old size is unchanged;
when the list was full the block is reallocated with `max(2*size, 4)` cells. -/
theorem C3_push (l : ArrayList T) (val : Ref T) (v : T) (hwf : l.wf)
    (hsize : l.size < 2147483648) (hv : val.get? l.arr = some v)
    (hal : ∀ k, val = .cell k → l.size < l.maxSize) :
    ∃ r, l.push val = .ok r ∧ r.wf ∧ r.getSize = l.getSize + 1 ∧
      r.subscript (r.getSize - 1) = .ok v ∧
      (∀ i, i < l.getSize → ∃ x, l.subscript i = .ok x ∧ r.subscript i = .ok x) ∧
      (l.size = l.maxSize → r.getMaxSize = max (l.size * 2) 4) ∧
      (l.size < l.maxSize → r.getMaxSize = l.getMaxSize) := by
  rw [push_of_get? l val v hv hal]
  exact push_spec l v hwf (Or.inr hsize)

/-- C3 at a full list of four elements, where the push of the outside value `7`
reallocates to eight cells, and at the list `[3, 1, 2]` in a block of four cells, where
the push of its own element `list[0]` appends `3`. -/
theorem C3_push_witness :
    ((ArrayList.mk [3, 1, 2, 9] 4 4).wf ∧ (ArrayList.mk [3, 1, 2, 9] 4 4).size < 2147483648 ∧
      ∃ r, (ArrayList.mk [3, 1, 2, 9] 4 4).push (.object 7) = .ok r ∧ r.wf ∧
        r.getSize = 4 + 1 ∧ r.subscript (r.getSize - 1) = .ok 7 ∧
        (∀ i, i < 4 → ∃ x, (ArrayList.mk [3, 1, 2, 9] 4 4).subscript i = .ok x ∧
          r.subscript i = .ok x) ∧
        ((4 : Nat) = 4 → r.getMaxSize = max (4 * 2) 4) ∧
        ((4 : Nat) < 4 → r.getMaxSize = 4)) ∧
    ((ArrayList.mk [3, 1, 2, 9] 3 4).wf ∧ (Ref.cell 0).get? [3, 1, 2, 9] = some 3 ∧
      ∃ r, (ArrayList.mk [3, 1, 2, 9] 3 4).push (.cell 0) = .ok r ∧ r.getSize = 3 + 1 ∧
        r.subscript (r.getSize - 1) = .ok 3) :=
  ⟨⟨by decide, by decide,
      C3_push ⟨[3, 1, 2, 9], 4, 4⟩ (.object 7) 7 (by decide) (by decide) rfl
        (fun _ h => Ref.noConfusion h)⟩,
    by decide, rfl,
    match C3_push ⟨[3, 1, 2, 9], 3, 4⟩ (.cell 0) 3 (by decide) (by decide) rfl
      (fun _ _ => by decide) with
    | ⟨r, hr, _, hs, hlast, _⟩ => ⟨r, hr, hs, hlast⟩⟩

end Push

section Pop

variable {T : Type}

theorem pop_spec (l : ArrayList T) (hwf : l.wf) (h : 0 < l.size) :
    ∃ x, l.arr[l.size - 1]? = some x ∧ l.pop = .ok (x, ⟨l.arr, l.size - 1, l.maxSize⟩) := by
  obtain ⟨h1, h2, h3⟩ := hwf
  have hm : (l.size + 4294967296 - 1) % 4294967296 = l.size - 1 := by omega
  have hlt : l.size - 1 < l.arr.length := by omega
  refine ⟨l.arr[l.size - 1], List.getElem?_eq_getElem hlt, ?_⟩
  simp only [ArrayList.pop, gt_iff_lt, h, not_true_eq_false, if_false, hm,
    load_of_getElem? (List.getElem?_eq_getElem hlt)]
  rfl

theorem pop_empty (l : ArrayList T) (h : l.size = 0) : l.pop = .error Fault.assertion := by
  simp [ArrayList.pop, h]
  rfl

/-- C4 (counterexample): on the full list of `2^31` zeros `push(7)` followed by `pop()`
does not return: the doubled capacity wraps to `0`, the block is reallocated with four
cells and the push writes past its end. And on the full list `[3, 1, 2, 9]` the call
`push(list[0])` followed by `pop()` does not return `3`: the growth step deletes the
block that `val` refers to before `val` is read. -/
theorem C4_push_pop_counterexample :
    (fullList.wf ∧ 0 < fullList.size ∧
      (fullList.push (.object 7) >>= fun r => r.pop) = .error Fault.outOfBounds) ∧
    ((ArrayList.mk [3, 1, 2, 9] 4 4).wf ∧ (ArrayList.mk [3, 1, 2, 9] 4 4).subscript 0 = .ok 3 ∧
      ((ArrayList.mk [3, 1, 2, 9] 4 4).push (.cell 0) >>= fun r => r.pop) =
        .error Fault.useAfterFree) := by
  refine ⟨⟨fullList_wf, by decide, ?_⟩, by decide, rfl, rfl⟩
  rw [push_overflow fullList 7 fullList_wf rfl (by decide)]
  rfl

/-- C4 (amended): on a well-formed non-empty list `pop()` returns the element at index
`size-1`, decreases `getSize()` by exactly one and leaves `getMaxSize()` and the
remaining elements unchanged; on an empty list the assertion fails; and on a list that
has spare capacity or fewer than `2^31` elements, for a value `v` that is passed from
outside the heap block of the list, or from a cell of the block while the list has spare
capacity, `push(v)` followed by `pop()` returns `v` and restores the previous size and
elements. -/
theorem C4_pop [Inhabited T] (l : ArrayList T) (hwf : l.wf) :
    (0 < l.size → ∃ x r, l.subscript (l.size - 1) = .ok x ∧ l.pop = .ok (x, r) ∧ r.wf ∧
      r.getSize + 1 = l.getSize ∧ r.getMaxSize = l.getMaxSize ∧ r.arr = l.arr ∧
      ∀ i, i < r.getSize → ∃ y, l.subscript i = .ok y ∧ r.subscript i = .ok y) ∧
    (l.size = 0 → l.pop = .error Fault.assertion) ∧
    (l.size < l.maxSize ∨ l.size < 2147483648 →
      ∀ val v, val.get? l.arr = some v → (∀ k, val = .cell k → l.size < l.maxSize) →
        ∃ r r', l.push val = .ok r ∧ r.pop = .ok (v, r') ∧
          r'.getSize = l.getSize ∧ r'.contents = l.contents ∧
          ∀ i, i < l.getSize → ∃ y, l.subscript i = .ok y ∧ r'.subscript i = .ok y) := by
  refine ⟨fun h => ?_, pop_empty l, fun h val v hv hal => ?_⟩
  · obtain ⟨x, hx, hp⟩ := pop_spec l hwf h
    obtain ⟨h1, h2, h3⟩ := hwf
    refine ⟨x, _, subscript_of_getElem? (by omega) hx, hp, ⟨h1, by simp only; omega, h3⟩, ?_,
      rfl, rfl, fun i hi => ?_⟩
    · simp only [ArrayList.getSize]; omega
    · simp only [ArrayList.getSize] at hi
      obtain ⟨y, hy, hsy⟩ := subscript_defined ⟨h1, h2, h3⟩ (show i < l.size by omega)
      exact ⟨y, hsy, subscript_of_getElem? hi hy⟩
  · rw [push_of_get? l val v hv hal]
    obtain ⟨r, hr, hrwf, hrs, _, hel⟩ := push_arr_spec l v hwf h
    obtain ⟨x, hx, hp⟩ := pop_spec r hrwf (by omega)
    have hxv : x = v := by
      rw [hel (r.size - 1) (by omega), if_neg (by omega), if_pos (by omega)] at hx
      exact (Option.some.inj hx).symm
    subst hxv
    have hsz : r.size - 1 = l.size := by omega
    refine ⟨r, _, hr, hp, hsz, ?_, fun i hi => ?_⟩
    · apply List.ext_getElem?
      intro i
      simp only [ArrayList.contents, List.getElem?_take, hsz]
      by_cases hi : i < l.size
      · rw [if_pos hi, if_pos hi, hel i (by omega), if_pos hi]
      · rw [if_neg hi, if_neg hi]
    · simp only [ArrayList.getSize] at hi
      obtain ⟨y, hy, hsy⟩ := subscript_defined hwf hi
      refine ⟨y, hsy, subscript_of_getElem? (by simp only; omega) ?_⟩
      simp only
      rw [hel i (by omega), if_pos hi, hy]

/-- C4 at the list `[3, 1, 2]` held in a block of four cells: `pop()`, and the push of its
own element `list[0]` followed by `pop()`, which returns `3` and leaves `[3, 1, 2]`. -/
theorem C4_pop_witness :
    (ArrayList.mk [3, 1, 2, 9] 3 4).wf ∧
    (∃ x r, (ArrayList.mk [3, 1, 2, 9] 3 4).pop = .ok (x, r) ∧
      (ArrayList.mk [3, 1, 2, 9] 3 4).subscript 2 = .ok x ∧ r.getSize + 1 = 3 ∧
      r.getMaxSize = 4) ∧
    (Ref.cell 0).get? [3, 1, 2, 9] = some 3 ∧
    ∃ r r', (ArrayList.mk [3, 1, 2, 9] 3 4).push (.cell 0) = .ok r ∧ r.pop = .ok (3, r') ∧
      r'.getSize = 3 ∧ r'.contents = [3, 1, 2] :=
  ⟨by decide,
    match (C4_pop ⟨[3, 1, 2, 9], 3, 4⟩ (by decide)).1 (by decide) with
    | ⟨x, r, hx, hp, _, hs, hm, _, _⟩ => ⟨x, r, hp, hx, hs, hm⟩,
    rfl,
    match (C4_pop ⟨[3, 1, 2, 9], 3, 4⟩ (by decide)).2.2 (Or.inl (by decide)) (.cell 0) 3 rfl
      (fun _ _ => by decide) with
    | ⟨r, r', hr, hp, hs, hc, _⟩ => ⟨r, r', hr, hp, hs, hc⟩⟩

end Pop

section Remove

variable {T : Type}

/-- C5: on a well-formed list and `pos < size`, `removeAndRearrange(pos)` returns the old
element at `pos`, decreases the size by one, leaves the elements below `pos` unchanged
and moves every later element one index down. -/
theorem C5_removeAndRearrange (l : ArrayList T) (pos : Nat) (hwf : l.wf) (hpos : pos < l.size) :
    ∃ x r, l.subscript pos = .ok x ∧ l.removeAndRearrange pos = .ok (x, r) ∧ r.wf ∧
      r.getSize + 1 = l.getSize ∧
      (∀ i, i < pos → ∃ y, l.subscript i = .ok y ∧ r.subscript i = .ok y) ∧
      (∀ i, pos ≤ i → i < r.getSize →
        ∃ y, l.subscript (i + 1) = .ok y ∧ r.subscript i = .ok y) := by
  obtain ⟨h1, h2, h3⟩ := hwf
  have hm : (l.size + 4294967296 - 1) % 4294967296 = l.size - 1 := by omega
  obtain ⟨x, hx, hsx⟩ := subscript_defined ⟨h1, h2, h3⟩ hpos
  obtain ⟨arr', he, hlen, hg⟩ := shiftDown_spec (l.size - 1 - pos) pos l.arr (by omega)
  refine ⟨x, ⟨arr', l.size - 1, l.maxSize⟩, hsx, ?_, ⟨by simpa [h1] using hlen, by
    simp only; omega, h3⟩, by simp only [ArrayList.getSize]; omega, fun i hi => ?_,
    fun i hi hi' => ?_⟩
  · simp only [ArrayList.removeAndRearrange, gt_iff_lt, hpos, not_true_eq_false, if_false,
      hm, load_of_getElem? hx, he]
    rfl
  · obtain ⟨y, hy, hsy⟩ := subscript_defined ⟨h1, h2, h3⟩ (show i < l.size by omega)
    refine ⟨y, hsy, subscript_of_getElem? (by simp only; omega) ?_⟩
    simp only
    rw [hg i, if_neg (by omega), hy]
  · simp only [ArrayList.getSize] at hi'
    obtain ⟨y, hy, hsy⟩ := subscript_defined ⟨h1, h2, h3⟩ (show i + 1 < l.size by omega)
    refine ⟨y, hsy, subscript_of_getElem? hi' ?_⟩
    simp only
    rw [hg i, if_pos (by omega), hy]

/-- C5 at the list `[3, 1, 2, 9]`, removing index `1`. -/
theorem C5_removeAndRearrange_witness :
    (ArrayList.mk [3, 1, 2, 9] 4 4).wf ∧ 1 < (ArrayList.mk [3, 1, 2, 9] 4 4).size ∧
    ∃ x r, (ArrayList.mk [3, 1, 2, 9] 4 4).subscript 1 = .ok x ∧
      (ArrayList.mk [3, 1, 2, 9] 4 4).removeAndRearrange 1 = .ok (x, r) ∧ r.wf ∧
      r.getSize + 1 = 4 ∧
      (∀ i, i < 1 → ∃ y, (ArrayList.mk [3, 1, 2, 9] 4 4).subscript i = .ok y ∧
        r.subscript i = .ok y) ∧
      (∀ i, 1 ≤ i → i < r.getSize →
        ∃ y, (ArrayList.mk [3, 1, 2, 9] 4 4).subscript (i + 1) = .ok y ∧
          r.subscript i = .ok y) :=
  ⟨by decide, by decide, C5_removeAndRearrange ⟨[3, 1, 2, 9], 4, 4⟩ 1 (by decide) (by decide)⟩

/-- C6: on a well-formed list and `pos < size`, `remove(pos)` returns the old element at
`pos`, decreases the size by one, puts the old last element at `pos` when `pos` is not
the last index, and leaves every other index below the new size unchanged. -/
theorem C6_remove (l : ArrayList T) (pos : Nat) (hwf : l.wf) (hpos : pos < l.size) :
    ∃ x r, l.subscript pos = .ok x ∧ l.remove pos = .ok (x, r) ∧ r.wf ∧
      r.getSize + 1 = l.getSize ∧ r.getMaxSize = l.getMaxSize ∧
      (pos ≠ l.getSize - 1 →
        ∃ y, l.subscript (l.getSize - 1) = .ok y ∧ r.subscript pos = .ok y) ∧
      (∀ i, i < r.getSize → i ≠ pos → ∃ y, l.subscript i = .ok y ∧ r.subscript i = .ok y) := by
  obtain ⟨h1, h2, h3⟩ := hwf
  have hm : (l.size + 4294967296 - 1) % 4294967296 = l.size - 1 := by omega
  obtain ⟨x, hx, hsx⟩ := subscript_defined ⟨h1, h2, h3⟩ hpos
  obtain ⟨z, hz, hsz⟩ := subscript_defined ⟨h1, h2, h3⟩ (show l.size - 1 < l.size by omega)
  have hlt : pos < l.arr.length := by omega
  refine ⟨x, ⟨l.arr.set pos z, l.size - 1, l.maxSize⟩, hsx, ?_, ⟨by simpa using h1, by
    simp only; omega, h3⟩, by simp only [ArrayList.getSize]; omega, rfl, fun hne => ?_,
    fun i hi hne => ?_⟩
  · simp only [ArrayList.remove, gt_iff_lt, hpos, not_true_eq_false, if_false,
      hm, load_of_getElem? hx, load_of_getElem? hz, bind, Except.bind, store_of_lt z hlt]
    rfl
  · simp only [ArrayList.getSize] at hne
    refine ⟨z, hsz, subscript_of_getElem? (by simp only; omega) ?_⟩
    simp only
    rw [List.getElem?_set_self hlt]
  · simp only [ArrayList.getSize] at hi
    obtain ⟨y, hy, hsy⟩ := subscript_defined ⟨h1, h2, h3⟩ (show i < l.size by omega)
    refine ⟨y, hsy, subscript_of_getElem? hi ?_⟩
    simp only
    rw [List.getElem?_set_ne (Ne.symm hne), hy]

/-- C6 at the list `[3, 1, 2, 9]`, removing index `1`. -/
theorem C6_remove_witness :
    (ArrayList.mk [3, 1, 2, 9] 4 4).wf ∧ 1 < (ArrayList.mk [3, 1, 2, 9] 4 4).size ∧
    ∃ x r, (ArrayList.mk [3, 1, 2, 9] 4 4).subscript 1 = .ok x ∧
      (ArrayList.mk [3, 1, 2, 9] 4 4).remove 1 = .ok (x, r) ∧ r.wf ∧
      r.getSize + 1 = 4 ∧ r.getMaxSize = 4 ∧
      ((1 : Nat) ≠ 4 - 1 →
        ∃ y, (ArrayList.mk [3, 1, 2, 9] 4 4).subscript (4 - 1) = .ok y ∧
          r.subscript 1 = .ok y) ∧
      (∀ i, i < r.getSize → i ≠ 1 →
        ∃ y, (ArrayList.mk [3, 1, 2, 9] 4 4).subscript i = .ok y ∧ r.subscript i = .ok y) :=
  ⟨by decide, by decide, C6_remove ⟨[3, 1, 2, 9], 4, 4⟩ 1 (by decide) (by decide)⟩

end Remove

section Insert

variable {T : Type} [Inhabited T]

theorem insertAndRearrange_spec (l : ArrayList T) (v : T) (pos : Nat) (hwf : l.wf)
    (h : l.size < l.maxSize ∨ l.size < 2147483648) (hpos : pos ≤ l.size) :
    ∃ r, l.insertAndRearrange (.object v) pos = .ok r ∧ r.wf ∧ r.size = l.size + 1 ∧
      (l.size < l.maxSize → r.maxSize = l.maxSize) ∧
      ∀ i, i < r.size → r.arr[i]? =
        if i < pos then l.arr[i]? else if i = pos then some v else l.arr[i - 1]? := by
  obtain ⟨g, he, hgwf, hgs, hglt, hgel, hsame, _⟩ := grow_spec l hwf h
  obtain ⟨h1, h2, h3⟩ := hgwf
  have hm1 : (g.size + 1) % 4294967296 = g.size + 1 := Nat.mod_eq_of_lt (by omega)
  have hm2 : (g.size + 1 + 4294967296 - 1) % 4294967296 = g.size := by omega
  obtain ⟨arr1, hs, hlen, hg⟩ := shiftUp_spec (g.size - pos) g.size g.arr (by omega) (by omega)
  have hlt : pos < arr1.length := by omega
  refine ⟨⟨arr1.set pos v, g.size + 1, g.maxSize⟩, ?_, ⟨by simp only [List.length_set]; omega,
    by simp only; omega, h3⟩, by simp only; omega, fun hl => by rw [hsame hl], fun i hi => ?_⟩
  · simp only [ArrayList.insertAndRearrange, Ref.read, hpos, not_true_eq_false, if_false, he, bind,
      Except.bind, hm1, hm2, hs, store_of_lt v hlt]
    rfl
  · simp only at hi ⊢
    by_cases hip : i = pos
    · subst hip
      rw [List.getElem?_set_self hlt, if_neg (by omega), if_pos rfl]
    · rw [List.getElem?_set_ne (Ne.symm hip), hg i]
      by_cases hlt' : i < pos
      · rw [if_neg (by omega), if_pos hlt', hgel i (by omega)]
      · rw [if_pos (by omega), if_neg hlt', if_neg hip, hgel (i - 1) (by omega)]

theorem insertAndRearrange_overflow (l : ArrayList T) (v : T) (pos : Nat) (hwf : l.wf)
    (hfull : l.size = l.maxSize) (hbig : 2147483648 ≤ l.size) (hpos : pos ≤ l.size) :
    l.insertAndRearrange (.object v) pos = .error Fault.outOfBounds := by
  obtain ⟨r, he, hsz, hlen, h4, hlt⟩ := grow_overflow l hwf hfull hbig
  have hm : ((r.size + 1) % 4294967296 + 4294967296 - 1) % 4294967296 = r.size := by omega
  simp only [ArrayList.insertAndRearrange, Ref.read, hpos, not_true_eq_false, if_false, he, bind,
    Except.bind, hm]
  by_cases hp : r.size - pos = 0
  · simp only [hp, shiftUp, store]
    rw [if_neg (by omega)]
    rfl
  · obtain ⟨n, hn⟩ := Nat.exists_eq_succ_of_ne_zero hp
    have hl : r.size - 1 < r.arr.length := by omega
    simp only [hn, shiftUp, load_of_getElem? (List.getElem?_eq_getElem hl), bind,
      Except.bind, store]
    rw [if_neg (by omega)]
    rfl

theorem insertAndRearrange_of_get? (l : ArrayList T) (val : Ref T) (v : T) (pos : Nat)
    (hwf : l.wf) (hpos : pos ≤ l.size) (hv : val.get? l.arr = some v)
    (hal : ∀ k, val = .cell k → l.size < l.maxSize ∧ (k ≤ pos ∨ l.size < k)) :
    l.insertAndRearrange val pos = l.insertAndRearrange (.object v) pos := by
  cases val with
  | object w =>
    simp only [Ref.get?, Option.some.injEq] at hv
    rw [hv]
  | cell k =>
    obtain ⟨hcap, hk⟩ := hal k rfl
    obtain ⟨h1, h2, h3⟩ := hwf
    have hne : l.size ≠ l.maxSize := Nat.ne_of_lt hcap
    have hm2 : ((l.size + 1) % 4294967296 + 4294967296 - 1) % 4294967296 = l.size := by omega
    obtain ⟨arr1, hs, _, hg⟩ := shiftUp_spec (l.size - pos) l.size l.arr (by omega) (by omega)
    simp only [Ref.get?] at hv
    have hk1 : arr1[k]? = some v := by
      rw [hg k, if_neg (by omega), hv]
    simp only [ArrayList.insertAndRearrange, ArrayList.grow, Ref.read, hpos, hne,
      not_true_eq_false, if_false, decide_False, pure, Except.pure, bind, Except.bind, hm2, hs,
      load_of_getElem? hk1, Bool.false_eq_true]

/-- C7 (counterexample): on the full list of `2^31` zeros `insertAndRearrange(7, 0)` does
not produce a list of `2^31 + 1` elements: the doubled capacity wraps to `0`, the block
is reallocated with four cells and the shifting loop writes past its end. On the list
`[3, 1, 2]` in a block of four cells `insertAndRearrange(list[1], 0)` does not put the
value `1` of `list[1]` at index `0`: `val` is read after the shifting loop, when the cell
it refers to holds the old `list[0]`, so the list becomes `[3, 3, 1, 2]`. And on the full
list `[3, 1, 2, 9]` the call `insertAndRearrange(list[0], 1)` reads `val` after the
growth step has deleted the block it refers to. -/
theorem C7_insertAndRearrange_counterexample :
    (fullList.wf ∧ 0 ≤ fullList.size ∧
      fullList.insertAndRearrange (.object 7) 0 = .error Fault.outOfBounds) ∧
    ((ArrayList.mk [3, 1, 2, 9] 3 4).wf ∧ (ArrayList.mk [3, 1, 2, 9] 3 4).subscript 1 = .ok 1 ∧
      (ArrayList.mk [3, 1, 2, 9] 3 4).insertAndRearrange (.cell 1) 0 =
        .ok ⟨[3, 3, 1, 2], 4, 4⟩ ∧
      (ArrayList.mk [3, 3, 1, 2] 4 4).subscript 0 = .ok 3) ∧
    ((ArrayList.mk [3, 1, 2, 9] 4 4).wf ∧ (ArrayList.mk [3, 1, 2, 9] 4 4).subscript 0 = .ok 3 ∧
      (ArrayList.mk [3, 1, 2, 9] 4 4).insertAndRearrange (.cell 0) 1 =
        .error Fault.useAfterFree) :=
  ⟨⟨fullList_wf, by decide,
      insertAndRearrange_overflow fullList 7 0 fullList_wf rfl (by decide) (by decide)⟩,
    ⟨by decide, rfl, rfl, rfl⟩, by decide, rfl, rfl⟩

/-- C7 (amended): on a well-formed list that has spare capacity or fewer than `2^31`
elements, for `pos <= size` and a value `v` that is passed from outside the heap block
of the list, or from a cell of the block outside the shifted range `pos < index <= size`
while the list has spare capacity, `insertAndRearrange(v, pos)` makes the size the old
size plus one, puts `v` at `pos`, leaves the elements below `pos` unchanged and moves
every element from `pos` on one index forward. -/
theorem C7_insertAndRearrange (l : ArrayList T) (val : Ref T) (v : T) (pos : Nat) (hwf : l.wf)
    (hsize : l.size < l.maxSize ∨ l.size < 2147483648) (hpos : pos ≤ l.size)
    (hv : val.get? l.arr = some v)
    (hal : ∀ k, val = .cell k → l.size < l.maxSize ∧ (k ≤ pos ∨ l.size < k)) :
    ∃ r, l.insertAndRearrange val pos = .ok r ∧ r.wf ∧ r.getSize = l.getSize + 1 ∧
      r.subscript pos = .ok v ∧
      (∀ i, i < pos → ∃ y, l.subscript i = .ok y ∧ r.subscript i = .ok y) ∧
      (∀ i, pos < i → i ≤ l.getSize →
        ∃ y, l.subscript (i - 1) = .ok y ∧ r.subscript i = .ok y) := by
  rw [insertAndRearrange_of_get? l val v pos hwf hpos hv hal]
  obtain ⟨r, he, hrwf, hrs, _, hel⟩ := insertAndRearrange_spec l v pos hwf hsize hpos
  refine ⟨r, he, hrwf, hrs, subscript_of_getElem? (by omega) ?_, fun i hi => ?_,
    fun i hi hi' => ?_⟩
  · rw [hel pos (by omega), if_neg (by omega), if_pos rfl]
  · obtain ⟨y, hy, hsy⟩ := subscript_defined hwf (show i < l.size by omega)
    refine ⟨y, hsy, subscript_of_getElem? (by omega) ?_⟩
    rw [hel i (by omega), if_pos hi, hy]
  · simp only [ArrayList.getSize] at hi'
    obtain ⟨y, hy, hsy⟩ := subscript_defined hwf (show i - 1 < l.size by omega)
    refine ⟨y, hsy, subscript_of_getElem? (by omega) ?_⟩
    rw [hel i (by omega), if_neg (by omega), if_neg (by omega), hy]

/-- C7 at the full list `[3, 1, 2, 9]`, inserting the outside value `7` at index `1`, and
at the list `[3, 1, 2]` in a block of four cells, inserting its own element `list[0]` at
index `1`. -/
theorem C7_insertAndRearrange_witness :
    ((ArrayList.mk [3, 1, 2, 9] 4 4).wf ∧
      ((ArrayList.mk [3, 1, 2, 9] 4 4).size < (ArrayList.mk [3, 1, 2, 9] 4 4).maxSize ∨
        (ArrayList.mk [3, 1, 2, 9] 4 4).size < 2147483648) ∧
      1 ≤ (ArrayList.mk [3, 1, 2, 9] 4 4).size ∧
      ∃ r, (ArrayList.mk [3, 1, 2, 9] 4 4).insertAndRearrange (.object 7) 1 = .ok r ∧ r.wf ∧
        r.getSize = 4 + 1 ∧ r.subscript 1 = .ok 7 ∧
        (∀ i, i < 1 → ∃ y, (ArrayList.mk [3, 1, 2, 9] 4 4).subscript i = .ok y ∧
          r.subscript i = .ok y) ∧
        (∀ i, 1 < i → i ≤ 4 →
          ∃ y, (ArrayList.mk [3, 1, 2, 9] 4 4).subscript (i - 1) = .ok y ∧
            r.subscript i = .ok y)) ∧
    ((ArrayList.mk [3, 1, 2, 9] 3 4).wf ∧ (Ref.cell 0).get? [3, 1, 2, 9] = some 3 ∧
      ∃ r, (ArrayList.mk [3, 1, 2, 9] 3 4).insertAndRearrange (.cell 0) 1 = .ok r ∧
        r.getSize = 3 + 1 ∧ r.subscript 1 = .ok 3) :=
  ⟨⟨by decide, by decide, by decide,
      C7_insertAndRearrange ⟨[3, 1, 2, 9], 4, 4⟩ (.object 7) 7 1 (by decide) (by decide)
        (by decide) rfl (fun _ h => Ref.noConfusion h)⟩,
    by decide, rfl,
    match C7_insertAndRearrange ⟨[3, 1, 2, 9], 3, 4⟩ (.cell 0) 3 1 (by decide) (by decide)
      (by decide) rfl
      (fun k h => ⟨by decide, Or.inl (by have := Ref.cell.inj h; omega)⟩) with
    | ⟨r, hr, _, hs, hv, _⟩ => ⟨r, hr, hs, hv⟩⟩

theorem insert_overflow (l : ArrayList T) (v : T) (pos : Nat) (hwf : l.wf)
    (hfull : l.size = l.maxSize) (hbig : 2147483648 ≤ l.size) (hpos : pos ≤ l.size) :
    l.insert (.object v) pos = .error Fault.outOfBounds := by
  obtain ⟨r, he, hsz, hlen, h4, hlt, _⟩ := grow_overflow l hwf hfull hbig
  have hm : ((r.size + 1) % 4294967296 + 4294967296 - 1) % 4294967296 = r.size := by omega
  simp only [ArrayList.insert, Ref.read, hpos, not_true_eq_false, if_false, he, bind, Except.bind, hm]
  by_cases hp : pos < r.arr.length
  · simp only [load_of_getElem? (List.getElem?_eq_getElem hp), store]
    rw [if_neg (by omega)]
    rfl
  · simp only [load, List.getElem?_eq_none (show r.arr.length ≤ pos by omega)]
    rfl

theorem insert_of_get? (l : ArrayList T) (val : Ref T) (v : T) (pos : Nat)
    (hwf : l.wf) (hpos : pos ≤ l.size) (hv : val.get? l.arr = some v)
    (hal : ∀ k, val = .cell k → l.size < l.maxSize ∧ k ≠ l.size) :
    l.insert val pos = l.insert (.object v) pos := by
  cases val with
  | object w =>
    simp only [Ref.get?, Option.some.injEq] at hv
    rw [hv]
  | cell k =>
    obtain ⟨hcap, hk⟩ := hal k rfl
    obtain ⟨h1, h2, h3⟩ := hwf
    have hne : l.size ≠ l.maxSize := Nat.ne_of_lt hcap
    have hm2 : ((l.size + 1) % 4294967296 + 4294967296 - 1) % 4294967296 = l.size := by omega
    have hp : pos < l.arr.length := by omega
    have hlt : l.size < l.arr.length := by omega
    simp only [Ref.get?] at hv
    have hk1 : (l.arr.set l.size l.arr[pos])[k]? = some v := by
      rw [List.getElem?_set_ne (Ne.symm hk), hv]
    simp only [ArrayList.insert, ArrayList.grow, Ref.read, hpos, hne, not_true_eq_false,
      if_false, decide_False, pure, Except.pure, bind, Except.bind, hm2,
      load_of_getElem? (List.getElem?_eq_getElem hp), store_of_lt _ hlt,
      load_of_getElem? hk1, Bool.false_eq_true]

theorem insert_at_size_eq_push (l : ArrayList T) (val : Ref T) (hwf : l.wf)
    (h : (l.size < l.maxSize ∨ l.size < 2147483648) ∨ ∃ v, val = .object v) :
    l.insert val l.size = l.push val := by
  cases val with
  | object v =>
    by_cases h' : l.size < l.maxSize ∨ l.size < 2147483648
    · obtain ⟨g, he, hgwf, hgs, hglt, _, _, _⟩ := grow_spec l hwf h'
      obtain ⟨h1, h2, h3⟩ := hgwf
      have hm1 : (g.size + 1) % 4294967296 = g.size + 1 := Nat.mod_eq_of_lt (by omega)
      have hm2 : (g.size + 1 + 4294967296 - 1) % 4294967296 = g.size := by omega
      have hlt : g.size < g.arr.length := by omega
      simp only [ArrayList.insert, ArrayList.push, Ref.read, le_refl, not_true_eq_false,
        if_false, he, bind, Except.bind, hm1, hm2, ← hgs,
        load_of_getElem? (List.getElem?_eq_getElem hlt),
        store_of_lt _ hlt, store_of_lt v (show g.size < (g.arr.set g.size g.arr[g.size]).length
          by simpa using hlt), List.set_set]
      rfl
    · have hfull : l.size = l.maxSize := by have := hwf.2.1; omega
      have hbig : 2147483648 ≤ l.size := by omega
      rw [push_overflow l v hwf hfull hbig, insert_overflow l v l.size hwf hfull hbig le_rfl]
  | cell k =>
    have h' : l.size < l.maxSize ∨ l.size < 2147483648 := by
      rcases h with h | ⟨v, hv⟩
      · exact h
      · exact Ref.noConfusion hv
    obtain ⟨g, he, hgwf, hgs, hglt, _, hsame, _⟩ := grow_spec l hwf h'
    obtain ⟨h1, h2, h3⟩ := hgwf
    have hm1 : (g.size + 1) % 4294967296 = g.size + 1 := Nat.mod_eq_of_lt (by omega)
    have hm2 : (g.size + 1 + 4294967296 - 1) % 4294967296 = g.size := by omega
    have hlt : g.size < g.arr.length := by omega
    by_cases hfull : l.size = l.maxSize
    · have hd : decide (g.size = l.maxSize) = true := decide_eq_true (hgs.trans hfull)
      simp only [ArrayList.insert, ArrayList.push, Ref.read, le_refl, not_true_eq_false,
        if_false, he, bind, Except.bind, hm1, hm2, ← hgs, hd, if_true,
        load_of_getElem? (List.getElem?_eq_getElem hlt), store_of_lt _ hlt]
      rfl
    · have hd : decide (g.size = l.maxSize) = false :=
        decide_eq_false (fun hg => hfull (hgs.symm.trans hg))
      simp only [ArrayList.insert, ArrayList.push, Ref.read, le_refl, not_true_eq_false,
        if_false, he, bind, Except.bind, hm1, hm2, ← hgs, hd,
        load_of_getElem? (List.getElem?_eq_getElem hlt), store_of_lt _ hlt,
        set_getElem_same g.arr g.size hlt, Bool.false_eq_true]
      rfl

/-- C8 (counterexample): on the full list of `2^31` zeros `insert(7, 0)` does not produce
a list of `2^31 + 1` elements: the doubled capacity wraps to `0`, the block is
reallocated with four cells and the displaced element is written past its end. On the
full list `[3, 1, 2, 9]` the call `insert(list[0], 1)` does not put `3` at index `1`: the
growth step deletes the block that `val` refers to before `val` is read in
`arr[pos] = val`. And on the list `[3, 1, 2]` in the block `[3, 1, 2, 9]` a `val` bound
to the spare cell `arr[3]`, which holds `9`, is overwritten by `arr[size-1] = arr[pos]`
before it is read: the element at `pos = 1` is `1` afterwards, not `9`. -/
theorem C8_insert_counterexample :
    (fullList.wf ∧ 0 < fullList.size ∧
      fullList.insert (.object 7) 0 = .error Fault.outOfBounds) ∧
    ((ArrayList.mk [3, 1, 2, 9] 4 4).wf ∧ (ArrayList.mk [3, 1, 2, 9] 4 4).subscript 0 = .ok 3 ∧
      (ArrayList.mk [3, 1, 2, 9] 4 4).insert (.cell 0) 1 = .error Fault.useAfterFree) ∧
    ((ArrayList.mk [3, 1, 2, 9] 3 4).wf ∧
      (Ref.cell 3).get? (ArrayList.mk [3, 1, 2, 9] 3 4).arr = some 9 ∧
      (ArrayList.mk [3, 1, 2, 9] 3 4).insert (.cell 3) 1 = .ok ⟨[3, 1, 2, 1], 4, 4⟩ ∧
      (ArrayList.mk [3, 1, 2, 1] 4 4).subscript 1 = .ok 1) :=
  ⟨⟨fullList_wf, by decide,
      insert_overflow fullList 7 0 fullList_wf rfl (by decide) (by decide)⟩,
    ⟨by decide, rfl, rfl⟩, by decide, rfl, rfl, rfl⟩

/-- C8 (amended): on a well-formed list that has spare capacity or fewer than `2^31`
elements, for a value `v` that is passed from outside the heap block of the list, or from
a cell other than `arr[size]` while the list has spare capacity, and `pos < size`,
`insert(v, pos)` makes the size the old size plus one, puts `v` at `pos` and the old
element of `pos` at the last index, and leaves every other index below the old size
unchanged; and on such a list, or for a value from outside the block, `insert(v, size)`
behaves exactly like `push(v)`. -/
theorem C8_insert (l : ArrayList T) (val : Ref T) (hwf : l.wf) :
    (l.size < l.maxSize ∨ l.size < 2147483648 → ∀ v, val.get? l.arr = some v →
      (∀ k, val = .cell k → l.size < l.maxSize ∧ k ≠ l.size) → ∀ pos, pos < l.size →
      ∃ r, l.insert val pos = .ok r ∧ r.wf ∧ r.getSize = l.getSize + 1 ∧
        r.subscript pos = .ok v ∧
        (∃ x, l.subscript pos = .ok x ∧ r.subscript (r.getSize - 1) = .ok x) ∧
        (∀ i, i < l.getSize → i ≠ pos → ∃ y, l.subscript i = .ok y ∧ r.subscript i = .ok y)) ∧
    ((l.size < l.maxSize ∨ l.size < 2147483648) ∨ (∃ v, val = .object v) →
      l.insert val l.size = l.push val) := by
  refine ⟨fun hsize v hv hal pos hpos => ?_, insert_at_size_eq_push l val hwf⟩
  rw [insert_of_get? l val v pos hwf (Nat.le_of_lt hpos) hv hal]
  obtain ⟨g, he, hgwf, hgs, hglt, hgel, _, _⟩ := grow_spec l hwf hsize
  obtain ⟨h1, h2, h3⟩ := hgwf
  have hm1 : (g.size + 1) % 4294967296 = g.size + 1 := Nat.mod_eq_of_lt (by omega)
  have hm2 : (g.size + 1 + 4294967296 - 1) % 4294967296 = g.size := by omega
  obtain ⟨x, hx, hsx⟩ := subscript_defined hwf hpos
  have hgx : g.arr[pos]? = some x := by rw [hgel pos hpos, hx]
  have hlt : g.size < g.arr.length := by omega
  have hlt' : pos < (g.arr.set g.size x).length := by simp only [List.length_set]; omega
  refine ⟨⟨(g.arr.set g.size x).set pos v, g.size + 1, g.maxSize⟩, ?_,
    ⟨by simp only [List.length_set]; omega, by simp only; omega, h3⟩,
    by simp only [ArrayList.getSize]; omega, subscript_of_getElem? (by simp only; omega) ?_,
    ⟨x, hsx, subscript_of_getElem? (by simp [ArrayList.getSize]) ?_⟩, fun i hi hne => ?_⟩
  · simp only [ArrayList.insert, Ref.read, Nat.le_of_lt hpos, not_true_eq_false, if_false, he,
      bind, Except.bind, hm1, hm2, load_of_getElem? hgx, store_of_lt x hlt, store_of_lt v hlt']
    rfl
  · simp only
    rw [List.getElem?_set_self hlt']
  · simp only [ArrayList.getSize, Nat.add_sub_cancel]
    rw [List.getElem?_set_ne (by omega), List.getElem?_set_self hlt]
  · simp only [ArrayList.getSize] at hi
    obtain ⟨y, hy, hsy⟩ := subscript_defined hwf hi
    refine ⟨y, hsy, subscript_of_getElem? (by simp only; omega) ?_⟩
    simp only
    rw [List.getElem?_set_ne (Ne.symm hne), List.getElem?_set_ne (by omega), hgel i hi, hy]

/-- C8 at the full list `[3, 1, 2, 9]`, inserting the outside value `7` at index `1`, and
at the list `[3, 1, 2]` in a block of four cells, inserting its own element `list[0]` at
index `1`. -/
theorem C8_insert_witness :
    ((ArrayList.mk [3, 1, 2, 9] 4 4).wf ∧
      ∃ r, (ArrayList.mk [3, 1, 2, 9] 4 4).insert (.object 7) 1 = .ok r ∧ r.getSize = 4 + 1 ∧
        r.subscript 1 = .ok 7 ∧ r.subscript (r.getSize - 1) = .ok 1) ∧
    ((ArrayList.mk [3, 1, 2, 9] 3 4).wf ∧ (Ref.cell 0).get? [3, 1, 2, 9] = some 3 ∧
      ∃ r, (ArrayList.mk [3, 1, 2, 9] 3 4).insert (.cell 0) 1 = .ok r ∧ r.getSize = 3 + 1 ∧
        r.subscript 1 = .ok 3) :=
  ⟨⟨by decide,
    match (C8_insert ⟨[3, 1, 2, 9], 4, 4⟩ (.object 7) (by decide)).1 (by decide) 7 rfl
      (fun _ h => Ref.noConfusion h) 1 (by decide) with
    | ⟨r, hr, _, hs, hv, ⟨x, hx, hlast⟩, _⟩ =>
      ⟨r, hr, hs, hv, by
        have h1 : (ArrayList.mk [3, 1, 2, 9] 4 4).subscript 1 = .ok 1 := rfl
        rw [h1] at hx
        rw [hlast, ← Except.ok.inj hx]⟩⟩,
    by decide, rfl,
    match (C8_insert ⟨[3, 1, 2, 9], 3, 4⟩ (.cell 0) (by decide)).1 (by decide) 3 rfl
      (fun k h => ⟨by decide, by have hk := Ref.cell.inj h; subst hk; decide⟩) 1 (by decide)
      with
    | ⟨r, hr, _, hs, hv, _⟩ => ⟨r, hr, hs, hv⟩⟩

end Insert

section Resize

variable {T : Type} [Inhabited T]

theorem resize_spec (l : ArrayList T) (len : Nat) (hwf : l.wf) (hlen : len < 4294967296) :
    ∃ r, l.resize len = .ok r ∧ r.wf ∧ r.getSize = len ∧
      r.getMaxSize = max l.getMaxSize len ∧
      (∀ i, i < min l.getSize len → ∃ y, l.subscript i = .ok y ∧ r.subscript i = .ok y) ∧
      (∀ i, l.getSize ≤ i → i < len → r.subscript i = .ok default) := by
  obtain ⟨h1, h2, h3⟩ := hwf
  have hstep : ∃ g : ArrayList T, (if len > l.maxSize then l.alloc len else pure l) = .ok g ∧
      g.size = l.size ∧ g.maxSize = max l.maxSize len ∧ g.arr.length = g.maxSize ∧
      ∀ i, i < l.size → g.arr[i]? = l.arr[i]? := by
    by_cases hgt : len > l.maxSize
    · obtain ⟨g, he, hsz, hmax, hl, hg⟩ := alloc_spec l len (by omega)
      refine ⟨g, by rw [if_pos hgt]; exact he, by omega, by omega, by omega, fun i hi => ?_⟩
      rw [hg i, if_pos (by omega)]
    · exact ⟨l, by rw [if_neg hgt]; rfl, rfl, by omega, h1, fun _ _ => rfl⟩
  obtain ⟨g, he, hgs, hgmax, hglen, hgel⟩ := hstep
  have hfill : ∃ arr : List T,
      (if len > g.size then resizeFill (len - g.size) g.size g.arr else pure g.arr) = .ok arr ∧
      arr.length = g.arr.length ∧
      ∀ i, arr[i]? = if g.size ≤ i ∧ i < len then some default else g.arr[i]? := by
    by_cases hgt : len > g.size
    · obtain ⟨arr, hr, hl, hg⟩ := resizeFill_spec (len - g.size) g.size g.arr (by omega)
      refine ⟨arr, by rw [if_pos hgt]; exact hr, hl, fun i => ?_⟩
      rw [hg i, show g.size + (len - g.size) = len by omega]
    · exact ⟨g.arr, by rw [if_neg hgt]; rfl, rfl, fun i => by rw [if_neg (by omega)]⟩
  obtain ⟨arr, hr, harr, hael⟩ := hfill
  refine ⟨⟨arr, len, g.maxSize⟩, ?_, ⟨by simp only; omega, by simp only; omega, by
    simp only; omega⟩, rfl, hgmax, fun i hi => ?_, fun i hi hi' => ?_⟩
  · unfold ArrayList.resize
    rw [he, ok_bind, hr]
    rfl
  · simp only [ArrayList.getSize] at hi
    obtain ⟨y, hy, hsy⟩ := subscript_defined ⟨h1, h2, h3⟩ (show i < l.size by omega)
    refine ⟨y, hsy, subscript_of_getElem? (by simp only; omega) ?_⟩
    simp only
    rw [hael i, if_neg (by omega), hgel i (by omega), hy]
  · simp only [ArrayList.getSize] at hi
    refine subscript_of_getElem? hi' ?_
    simp only
    rw [hael i, if_pos (by omega)]

/-- C9: on a well-formed list and a `Uint32` length `len`, `resize(len)` succeeds with
`getSize() == len` and `getMaxSize() == max(old maxSize, len)`, keeps every element below
`min(old size, len)` and sets every element at an index `old size <= i < len` to `T()`. -/
theorem C9_resize (l : ArrayList T) (len : Nat) (hwf : l.wf) (hlen : len < 4294967296) :
    ∃ r, l.resize len = .ok r ∧ r.wf ∧ r.getSize = len ∧
      r.getMaxSize = max l.getMaxSize len ∧
      (∀ i, i < min l.getSize len → ∃ y, l.subscript i = .ok y ∧ r.subscript i = .ok y) ∧
      (∀ i, l.getSize ≤ i → i < len → r.subscript i = .ok default) :=
  resize_spec l len hwf hlen

/-- C9 at the list `[3, 1, 2]` held in four cells, resized to six elements. -/
theorem C9_resize_witness :
    (ArrayList.mk [3, 1, 2, 9] 3 4).wf ∧ (6 : Nat) < 4294967296 ∧
    ∃ r, (ArrayList.mk [3, 1, 2, 9] 3 4).resize 6 = .ok r ∧ r.wf ∧ r.getSize = 6 ∧
      r.getMaxSize = max 4 6 ∧
      (∀ i, i < min 3 6 → ∃ y, (ArrayList.mk [3, 1, 2, 9] 3 4).subscript i = .ok y ∧
        r.subscript i = .ok y) ∧
      (∀ i, 3 ≤ i → i < 6 → r.subscript i = .ok default) :=
  ⟨by decide, by decide, C9_resize ⟨[3, 1, 2, 9], 3, 4⟩ 6 (by decide) (by decide)⟩

end Resize

section SortProofs

variable {T : Type}

theorem contents_of_inserted {l r : ArrayList T} {x : T} {j : Nat} (hl : l.wf)
    (hsz : r.size = l.size + 1) (hj : j ≤ l.size)
    (hel : ∀ i, i < r.size → r.arr[i]? =
      if i < j then l.arr[i]? else if i = j then some x else l.arr[i - 1]?) :
    r.contents = l.contents.take j ++ x :: l.contents.drop j := by
  have hll : l.size ≤ l.arr.length := by have := hl.1; have := hl.2.1; omega
  have hlen : ((l.arr.take l.size).take j).length = j := by
    simp only [List.length_take]; omega
  apply List.ext_getElem?
  intro i
  simp only [ArrayList.contents, List.getElem?_take]
  by_cases hi : i < r.size
  · rw [if_pos hi, hel i hi]
    by_cases hij : i < j
    · rw [if_pos hij, List.getElem?_append_left (by omega), List.getElem?_take,
        if_pos hij, List.getElem?_take, if_pos (by omega)]
    · rw [if_neg hij, List.getElem?_append_right (by omega), hlen, List.getElem?_cons]
      by_cases hij' : i = j
      · rw [if_pos hij', if_pos (by omega)]
      · rw [if_neg hij', if_neg (by omega), List.getElem?_drop, List.getElem?_take,
          if_pos (by omega), show j + (i - j - 1) = i - 1 by omega]
  · rw [if_neg hi, eq_comm, List.getElem?_eq_none]
    simp only [List.length_append, List.length_cons, List.length_drop, List.length_take,
      ArrayList.contents]
    omega

theorem sortPlace_spec [Inhabited T] (fn : T → T → Bool) (arr : List T) (c : Nat) (result : ArrayList T)
    (x : T) (hx : arr[c]? = some x) (hwf : result.wf) (hcap : result.size < result.maxSize)
    (hint : result.size ≤ 2147483647) (n : Nat) : ∀ i, i + n = result.size →
    (∃ j b r, i ≤ j ∧ j < result.size ∧ result.arr[j]? = some b ∧ fn x b = true ∧
      (∀ k, i ≤ k → k < j → ∀ y, result.arr[k]? = some y → fn x y = false) ∧
      result.insertAndRearrange (.object x) j = .ok r ∧
      sortPlace fn arr c result n i = .ok (some r)) ∨
    ((∀ k, i ≤ k → k < result.size → ∀ y, result.arr[k]? = some y → fn x y = false) ∧
      sortPlace fn arr c result n i = .ok none) := by
  induction n with
  | zero =>
    intro i hi
    exact Or.inr ⟨fun k h1 h2 => by omega, rfl⟩
  | succ n ih =>
    intro i hi
    have hlt : i < result.size := by omega
    obtain ⟨b, hb, hsb⟩ := subscript_defined hwf hlt
    by_cases hfn : fn x b = true
    · obtain ⟨r, hr, _⟩ := insertAndRearrange_spec result x i hwf (Or.inl hcap) (by omega)
      refine Or.inl ⟨i, b, r, le_rfl, hlt, hb, hfn, fun k h1 h2 => by omega, hr, ?_⟩
      simp only [sortPlace, load_of_getElem? hx, hsb, bind, Except.bind, hfn, if_true, hr]
      rfl
    · have hfn' : fn x b = false := by simpa using hfn
      have hstep : sortPlace fn arr c result (n + 1) i = sortPlace fn arr c result n (i + 1) := by
        simp only [sortPlace, load_of_getElem? hx, hsb, bind, Except.bind, hfn']
        rw [if_neg (by simp), if_neg (by omega)]
      rw [hstep]
      rcases ih (i + 1) (by omega) with ⟨j, b', r, h1, h2, h3, h4, h5, h6, h7⟩ | ⟨h1, h2⟩
      · refine Or.inl ⟨j, b', r, by omega, h2, h3, h4, fun k hk1 hk2 y hy => ?_, h6, h7⟩
        by_cases hki : k = i
        · subst hki
          rw [hb] at hy
          rw [← Option.some.inj hy]; exact hfn'
        · exact h5 k (by omega) hk2 y hy
      · refine Or.inr ⟨fun k hk1 hk2 y hy => ?_, h2⟩
        by_cases hki : k = i
        · subst hki
          rw [hb] at hy
          rw [← Option.some.inj hy]; exact hfn'
        · exact h1 k (by omega) hk2 y hy

theorem sortLoop_step [Inhabited T] (fn : T → T → Bool) (arr : List T) (c : Nat) (result : ArrayList T)
    (x : T) (hx : arr[c]? = some x) (hwf : result.wf) (hcap : result.size < result.maxSize)
    (hint : result.size ≤ 2147483647) :
    ∃ r : ArrayList T, r.wf ∧ r.size = result.size + 1 ∧ r.maxSize = result.maxSize ∧
      (∃ pre post, result.contents = pre ++ post ∧ r.contents = pre ++ x :: post ∧
        (∀ a, a ∈ pre → fn x a = false) ∧ (∀ b, post.head? = some b → fn x b = true)) ∧
      ∀ n, sortLoop fn arr (n + 1) c result =
        if c + 1 > 2147483647 then .error Fault.signedOverflow
        else sortLoop fn arr n (c + 1) r := by
  have hll : result.size ≤ result.arr.length := by have := hwf.1; have := hwf.2.1; omega
  have key : ∀ (r : ArrayList T) (j : Nat), j ≤ result.size → r.wf →
      r.size = result.size + 1 →
      (∀ i, i < r.size → r.arr[i]? =
        if i < j then result.arr[i]? else if i = j then some x else result.arr[i - 1]?) →
      (∀ k, k < j → ∀ y, result.arr[k]? = some y → fn x y = false) →
      (∀ b, result.contents[j]? = some b → fn x b = true) →
      ∃ pre post, result.contents = pre ++ post ∧ r.contents = pre ++ x :: post ∧
        (∀ a, a ∈ pre → fn x a = false) ∧ (∀ b, post.head? = some b → fn x b = true) := by
    intro r j hj hrwf hrs hel hbefore hat
    refine ⟨result.contents.take j, result.contents.drop j, (List.take_append_drop _ _).symm,
      contents_of_inserted hwf hrs hj hel, fun a ha => ?_, fun b hb => ?_⟩
    · obtain ⟨k, hk⟩ := List.mem_iff_getElem?.1 ha
      simp only [ArrayList.contents, List.getElem?_take] at hk
      by_cases hkj : k < j
      · rw [if_pos hkj, if_pos (by omega)] at hk
        exact hbefore k hkj a hk
      · rw [if_neg hkj] at hk
        exact absurd hk (by simp)
    · rw [List.head?_drop] at hb
      exact hat b hb
  rcases sortPlace_spec fn arr c result x hx hwf hcap hint result.size 0 (by omega) with
    ⟨j, b, r, _, h2, h3, h4, h5, h6, h7⟩ | ⟨h1, h2⟩
  · obtain ⟨r', hr', hrwf, hrs, hrm, hel⟩ :=
      insertAndRearrange_spec result x j hwf (Or.inl hcap) (by omega)
    rw [h6] at hr'
    have hrr : r' = r := (Except.ok.inj hr').symm
    subst hrr
    refine ⟨r', hrwf, hrs, hrm hcap, key r' j (by omega) hrwf hrs hel
      (fun k hk y hy => h5 k (by omega) hk y hy) (fun b' hb' => ?_), fun n => ?_⟩
    · simp only [ArrayList.contents, List.getElem?_take, if_pos h2] at hb'
      rw [h3] at hb'
      rw [← Option.some.inj hb']; exact h4
    · simp only [sortLoop, ArrayList.getSize, h7, bind, Except.bind]
      rfl
  · obtain ⟨r, hr, hrwf, hrs, hrm, hel⟩ := push_arr_spec result x hwf (Or.inl hcap)
    refine ⟨r, hrwf, hrs, hrm hcap, key r result.size le_rfl hrwf hrs hel
      (fun k hk y hy => h1 k (by omega) hk y hy) (fun b' hb' => ?_), fun n => ?_⟩
    · simp only [ArrayList.contents, List.getElem?_take, lt_irrefl, if_false] at hb'
      exact absurd hb' (by simp)
    · simp only [sortLoop, ArrayList.getSize, h2, bind, Except.bind, load_of_getElem? hx, hr]
      rfl

theorem pairwise_insert_place (fn : T → T → Bool) (hfn : StrictWeakOrdering fn) (x : T)
    (pre post : List T) (hsorted : (pre ++ post).Pairwise (fun a b => fn b a = false))
    (hpre : ∀ a, a ∈ pre → fn x a = false) (hpost : ∀ b, post.head? = some b → fn x b = true) :
    (pre ++ x :: post).Pairwise (fun a b => fn b a = false) := by
  obtain ⟨hirr, htrans, _⟩ := hfn
  obtain ⟨h1, h2, h3⟩ := List.pairwise_append.1 hsorted
  refine List.pairwise_append.2 ⟨h1, List.pairwise_cons.2 ⟨fun b hb => ?_, h2⟩,
    fun a ha b hb => ?_⟩
  · cases post with
    | nil => exact absurd hb (List.not_mem_nil b)
    | cons h t =>
      have hxh : fn x h = true := hpost h rfl
      by_contra hcon
      have hbx : fn b x = true := by simpa using hcon
      have hbh : fn b h = true := htrans b x h hbx hxh
      rcases List.mem_cons.1 hb with rfl | hbt
      · rw [hirr b] at hbh; exact Bool.false_ne_true hbh
      · have := (List.pairwise_cons.1 h2).1 b hbt
        rw [this] at hbh; exact Bool.false_ne_true hbh
  · rcases List.mem_cons.1 hb with rfl | hbt
    · exact hpre a ha
    · exact h3 a ha b hbt

theorem sortLoop_spec [Inhabited T] (fn : T → T → Bool) (arr : List T) (N : Nat) (hN : N ≤ 2147483647)
    (harr : N ≤ arr.length) (n : Nat) : ∀ (c : Nat) (result : ArrayList T),
    c + n = N → result.wf → result.size = c → result.maxSize = N →
    ∃ r, sortLoop fn arr n c result = .ok r ∧ r.wf ∧ r.size = N ∧ r.maxSize = N ∧
      r.contents.Perm (result.contents ++ (arr.drop c).take n) ∧
      (StrictWeakOrdering fn → result.contents.Pairwise (fun a b => fn b a = false) →
        r.contents.Pairwise (fun a b => fn b a = false)) := by
  induction n with
  | zero =>
    intro c result hc hwf hs hm
    exact ⟨result, rfl, hwf, by omega, hm, by simp, fun _ h => h⟩
  | succ n ih =>
    intro c result hc hwf hs hm
    have hlt : c < arr.length := by omega
    obtain ⟨r1, hwf1, hs1, hm1, ⟨pre, post, hres, hr1, hpre, hpost⟩, hstep⟩ :=
      sortLoop_step fn arr c result arr[c] (List.getElem?_eq_getElem hlt) hwf (by omega)
        (by omega)
    obtain ⟨r, he, hrwf, hrs, hrm, hperm, hsorted⟩ :=
      ih (c + 1) r1 (by omega) hwf1 (by omega) (by omega)
    refine ⟨r, ?_, hrwf, hrs, hrm, ?_, fun hfn hp => ?_⟩
    · rw [hstep n, if_neg (by omega)]
      exact he
    · have hdrop : (arr.drop c).take (n + 1) = arr[c] :: (arr.drop (c + 1)).take n := by
        rw [List.drop_eq_getElem_cons hlt, List.take_succ_cons]
      rw [hdrop, hres]
      refine hperm.trans ?_
      rw [hr1]
      have h1 : (pre ++ arr[c] :: post).Perm (arr[c] :: (pre ++ post)) := List.perm_middle
      have h2 : ((pre ++ post) ++ arr[c] :: (arr.drop (c + 1)).take n).Perm
          (arr[c] :: ((pre ++ post) ++ (arr.drop (c + 1)).take n)) := List.perm_middle
      exact (h1.append_right _).trans h2.symm
    · apply hsorted hfn
      rw [hr1]
      exact pairwise_insert_place fn hfn arr[c] pre post (hres ▸ hp) hpre hpost

theorem sortLoop_overflow [Inhabited T] (fn : T → T → Bool) (arr : List T) (N : Nat)
    (hN : 2147483648 ≤ N) (harr : N ≤ arr.length) (n : Nat) :
    ∀ (c : Nat) (result : ArrayList T),
    c + n = N → c ≤ 2147483647 → result.wf → result.size = c → result.maxSize = N →
    sortLoop fn arr n c result = .error Fault.signedOverflow := by
  induction n with
  | zero =>
    intro c result hc hle
    omega
  | succ n ih =>
    intro c result hc hle hwf hs hm
    have hlt : c < arr.length := by omega
    obtain ⟨r1, hwf1, hs1, hm1, _, hstep⟩ :=
      sortLoop_step fn arr c result arr[c] (List.getElem?_eq_getElem hlt) hwf (by omega)
        (by omega)
    rw [hstep n]
    by_cases hc1 : c + 1 > 2147483647
    · rw [if_pos hc1]
    · rw [if_neg hc1]
      exact ih (c + 1) r1 (by omega) (by omega) hwf1 (by omega) (by omega)

theorem sort_start [Inhabited T] (l : ArrayList T) (hwf : l.wf) :
    ∃ r0 : ArrayList T, (ArrayList.empty : ArrayList T).alloc l.size = .ok r0 ∧ r0.wf ∧
      r0.size = 0 ∧ r0.maxSize = l.size ∧ r0.contents = [] := by
  obtain ⟨r0, he, hs, hm, hl, _⟩ := alloc_spec (ArrayList.empty : ArrayList T) l.size
    (by simp [ArrayList.empty])
  have hs0 : r0.size = 0 := by simpa [ArrayList.empty] using hs
  have := hwf.2.1
  have := hwf.2.2
  exact ⟨r0, he, ⟨by omega, by omega, by omega⟩, hs0, hm, by simp [ArrayList.contents, hs0]⟩

theorem sort_spec [Inhabited T] (l : ArrayList T) (fn : T → T → Bool) (hwf : l.wf)
    (hsize : l.size < 2147483648) :
    ∃ r, l.sort fn = .ok r ∧ r.wf ∧ r.size = l.size ∧ r.contents.Perm l.contents ∧
      (StrictWeakOrdering fn → r.contents.Pairwise (fun a b => fn b a = false)) := by
  obtain ⟨r0, he0, hwf0, hs0, hm0, hc0⟩ := sort_start l hwf
  have harr : l.size ≤ l.arr.length := by have := hwf.1; have := hwf.2.1; omega
  obtain ⟨r, he, hrwf, hrs, _, hperm, hsorted⟩ :=
    sortLoop_spec fn l.arr l.size (by omega) harr l.size 0 r0 (by omega) hwf0 hs0 hm0
  refine ⟨r, ?_, hrwf, hrs, ?_, fun hfn => hsorted hfn (by rw [hc0]; exact List.Pairwise.nil)⟩
  · simp only [ArrayList.sort, he0, bind, Except.bind, he, ArrayList.swap]
    rfl
  · rw [hc0] at hperm
    simpa [ArrayList.contents] using hperm

theorem sort_overflow [Inhabited T] (l : ArrayList T) (fn : T → T → Bool) (hwf : l.wf)
    (hsize : 2147483648 ≤ l.size) : l.sort fn = .error Fault.signedOverflow := by
  obtain ⟨r0, he0, hwf0, hs0, hm0, _⟩ := sort_start l hwf
  have harr : l.size ≤ l.arr.length := by have := hwf.1; have := hwf.2.1; omega
  have := sortLoop_overflow fn l.arr l.size hsize harr l.size 0 r0 (by omega) (by omega)
    hwf0 hs0 hm0
  simp only [ArrayList.sort, he0, bind, Except.bind, this]

theorem hugeList_wf : hugeList.wf := by
  refine ⟨?_, Nat.le_refl _, ?_⟩
  · show (List.replicate 2147483649 0).length = 2147483649
    exact List.length_replicate _ _
  · show 2147483649 < 4294967296
    decide

theorem natLess_strictWeakOrdering : StrictWeakOrdering natLess := by
  refine ⟨fun a => by simp [natLess], fun a b c h1 h2 => ?_, fun a b c h1 h2 h3 h4 => ?_⟩
  · simp only [natLess, decide_eq_true_eq] at *; omega
  · simp only [natLess, decide_eq_false_iff_not, not_lt] at *
    exact ⟨by omega, by omega⟩

theorem subscript_contents {r : ArrayList T} {i : Nat} (hi : i < r.contents.length) :
    r.subscript i = .ok r.contents[i] := by
  have h1 : r.contents[i]? = some r.contents[i] := List.getElem?_eq_getElem hi
  have hlt : i < r.size := by
    simp only [ArrayList.contents, List.length_take] at hi; omega
  simp only [ArrayList.contents, List.getElem?_take, if_pos hlt] at h1
  exact subscript_of_getElem? hlt h1

theorem contents_length {r : ArrayList T} (hwf : r.wf) : r.contents.length = r.size := by
  have := hwf.1
  have := hwf.2.1
  simp only [ArrayList.contents, List.length_take]; omega

/-- C1 (counterexample): on the full list of `2^31 + 1` zeros `sort` with the strict weak
ordering `<` does not return a sorted list: the `int` counter `c` cannot reach the size. -/
theorem C1_sort_counterexample :
    StrictWeakOrdering natLess ∧ hugeList.wf ∧
    hugeList.sort natLess = .error Fault.signedOverflow :=
  ⟨natLess_strictWeakOrdering, hugeList_wf,
    sort_overflow hugeList natLess hugeList_wf (by decide)⟩

/-- C1 (amended): on a well-formed list with fewer than `2^31` elements and a strict weak
ordering `fn`, `sort(fn)` succeeds and leaves no indices `i < j` with `fn(list[j], list[i])`
true. -/
theorem C1_sort_sorted [Inhabited T] (l : ArrayList T) (fn : T → T → Bool) (hwf : l.wf)
    (hsize : l.size < 2147483648) (hfn : StrictWeakOrdering fn) :
    ∃ r, l.sort fn = .ok r ∧ r.wf ∧
      ∀ i j, i < j → j < r.getSize →
        ∃ a b, r.subscript i = .ok a ∧ r.subscript j = .ok b ∧ fn b a = false := by
  obtain ⟨r, he, hrwf, _, _, hsorted⟩ := sort_spec l fn hwf hsize
  refine ⟨r, he, hrwf, fun i j hij hj => ?_⟩
  have hlen := contents_length hrwf
  simp only [ArrayList.getSize] at hj
  have hj' : j < r.contents.length := by omega
  have hi' : i < r.contents.length := by omega
  exact ⟨r.contents[i], r.contents[j], subscript_contents hi', subscript_contents hj',
    List.pairwise_iff_getElem.1 (hsorted hfn) i j hi' hj' hij⟩

/-- C1 at the list `[3, 1, 2]` held in four cells, sorted by `<`. -/
theorem C1_sort_sorted_witness :
    (ArrayList.mk [3, 1, 2, 0] 3 4).wf ∧ (ArrayList.mk [3, 1, 2, 0] 3 4).size < 2147483648 ∧
    StrictWeakOrdering natLess ∧
    ∃ r, (ArrayList.mk [3, 1, 2, 0] 3 4).sort natLess = .ok r ∧ r.wf ∧
      ∀ i j, i < j → j < r.getSize →
        ∃ a b, r.subscript i = .ok a ∧ r.subscript j = .ok b ∧ natLess b a = false :=
  ⟨by decide, by decide, natLess_strictWeakOrdering,
    C1_sort_sorted ⟨[3, 1, 2, 0], 3, 4⟩ natLess (by decide) (by decide)
      natLess_strictWeakOrdering⟩

/-- C2 (counterexample): on the full list of `2^31 + 1` zeros `sort` with the function
that is always false does not return a permutation: the `int` counter `c` cannot reach
the size. -/
theorem C2_sort_counterexample :
    hugeList.wf ∧ hugeList.sort (fun _ _ => false) = .error Fault.signedOverflow :=
  ⟨hugeList_wf, sort_overflow hugeList (fun _ _ => false) hugeList_wf (by decide)⟩

/-- C2 (amended): on a well-formed list with fewer than `2^31` elements and any `fn`,
`sort(fn)` succeeds, `getSize()` is unchanged and the elements afterwards are a
permutation of the elements before (every value occurs the same number of times). -/
theorem C2_sort_perm [Inhabited T] (l : ArrayList T) (fn : T → T → Bool) (hwf : l.wf)
    (hsize : l.size < 2147483648) :
    ∃ r, l.sort fn = .ok r ∧ r.wf ∧ r.getSize = l.getSize ∧ r.contents.Perm l.contents ∧
      ∀ p : T → Bool, r.contents.countP p = l.contents.countP p := by
  obtain ⟨r, he, hrwf, hrs, hperm, _⟩ := sort_spec l fn hwf hsize
  exact ⟨r, he, hrwf, hrs, hperm, fun p => hperm.countP_eq p⟩

/-- C2 at the list `[3, 1, 2]` held in four cells, with the function that is always
true. -/
theorem C2_sort_perm_witness :
    (ArrayList.mk [3, 1, 2, 0] 3 4).wf ∧ (ArrayList.mk [3, 1, 2, 0] 3 4).size < 2147483648 ∧
    ∃ r, (ArrayList.mk [3, 1, 2, 0] 3 4).sort (fun _ _ => true) = .ok r ∧ r.wf ∧
      r.getSize = 3 ∧ r.contents.Perm [3, 1, 2] ∧
      ∀ p : Nat → Bool, r.contents.countP p = [3, 1, 2].countP p :=
  ⟨by decide, by decide,
    C2_sort_perm ⟨[3, 1, 2, 0], 3, 4⟩ (fun _ _ => true) (by decide) (by decide)⟩

end SortProofs


section Adjacency

theorem findAdjacentEdge_step (f : aiFace) (h3 : f.mNumIndices = 3)
    (index1 index2 index3 n edge : Nat) (he : edge < 3) :
    findAdjacentEdge f.mIndices index1 index2 index3 (n + 1) edge =
      if f.adjacentAt edge index1 index2 index3 then .ok (some (f.corner (edge + 2)))
      else findAdjacentEdge f.mIndices index1 index2 index3 n (edge + 1) := by
  obtain ⟨idx⟩ := f
  simp only [aiFace.mNumIndices] at h3
  match idx, h3 with
  | [a, b, c], _ =>
    have hcases : edge = 0 ∨ edge = 1 ∨ edge = 2 := by omega
    rcases hcases with rfl | rfl | rfl <;>
      simp [findAdjacentEdge, load, aiFace.adjacentAt, aiFace.corner, bind, Except.bind, pure,
        Except.pure]


theorem findAdjacentEdge_spec (f : aiFace) (h3 : f.mNumIndices = 3)
    (index1 index2 index3 : Nat) (n : Nat) : ∀ edge, edge + n = 3 →
    (∃ e, edge ≤ e ∧ e < 3 ∧ f.adjacentAt e index1 index2 index3 ∧
      (∀ e', edge ≤ e' → e' < e → ¬ f.adjacentAt e' index1 index2 index3) ∧
      findAdjacentEdge f.mIndices index1 index2 index3 n edge = .ok (some (f.corner (e + 2)))) ∨
    ((∀ e', edge ≤ e' → e' < 3 → ¬ f.adjacentAt e' index1 index2 index3) ∧
      findAdjacentEdge f.mIndices index1 index2 index3 n edge = .ok none) := by
  induction n with
  | zero =>
    intro edge he
    exact Or.inr ⟨fun e' h1 h2 => by omega, rfl⟩
  | succ n ih =>
    intro edge he
    rw [findAdjacentEdge_step f h3 index1 index2 index3 n edge (by omega)]
    by_cases hadj : f.adjacentAt edge index1 index2 index3
    · rw [if_pos hadj]
      exact Or.inl ⟨edge, le_rfl, by omega, hadj, fun e' h1 h2 => by omega, rfl⟩
    · rw [if_neg hadj]
      rcases ih (edge + 1) (by omega) with ⟨e, h1, h2, h3', h4, h5⟩ | ⟨h1, h2⟩
      · refine Or.inl ⟨e, by omega, h2, h3', fun e' h6 h7 => ?_, h5⟩
        by_cases hee : e' = edge
        · rw [hee]; exact hadj
        · exact h4 e' (by omega) h7
      · refine Or.inr ⟨fun e' h6 h7 => ?_, h2⟩
        by_cases hee : e' = edge
        · rw [hee]; exact hadj
        · exact h1 e' (by omega) h7

theorem findAdjacentFace_spec (mesh : aiMesh) (htri : mesh.triangulated)
    (index1 index2 index3 : Nat) (n : Nat) : ∀ i, i + n = mesh.mNumFaces →
    (∃ j e f, i ≤ j ∧ mesh.mFaces[j]? = some f ∧ e < 3 ∧
      f.adjacentAt e index1 index2 index3 ∧
      (∀ j' e' f', i ≤ j' → j' < j ∨ (j' = j ∧ e' < e) → e' < 3 →
        mesh.mFaces[j']? = some f' → ¬ f'.adjacentAt e' index1 index2 index3) ∧
      findAdjacentFace mesh index1 index2 index3 n i = .ok (some (f.corner (e + 2)))) ∨
    ((∀ j' e' f', i ≤ j' → e' < 3 → mesh.mFaces[j']? = some f' →
        ¬ f'.adjacentAt e' index1 index2 index3) ∧
      findAdjacentFace mesh index1 index2 index3 n i = .ok none) := by
  induction n with
  | zero =>
    intro i hi
    refine Or.inr ⟨fun j' e' f' h1 _ h3 => ?_, rfl⟩
    have hlt : j' < mesh.mFaces.length := by
      rcases Nat.lt_or_ge j' mesh.mFaces.length with h | h
      · exact h
      · rw [List.getElem?_eq_none h] at h3; exact absurd h3 (by simp)
    simp only [aiMesh.mNumFaces] at hi
    omega
  | succ n ih =>
    intro i hi
    simp only [aiMesh.mNumFaces] at hi
    have hlt : i < mesh.mFaces.length := by omega
    have hf : mesh.mFaces[i]? = some mesh.mFaces[i] := List.getElem?_eq_getElem hlt
    have hf3 : mesh.mFaces[i].mNumIndices = 3 := htri _ (List.getElem_mem hlt)
    rcases findAdjacentEdge_spec mesh.mFaces[i] hf3 index1 index2 index3 3 0 rfl with
      ⟨e, _, h2, h3, h4, h5⟩ | ⟨h1, h2⟩
    · refine Or.inl ⟨i, e, mesh.mFaces[i], le_rfl, hf, h2, h3, fun j' e' f' h6 h7 h8 h9 => ?_, ?_⟩
      · rcases h7 with h7 | ⟨h7, h7'⟩
        · omega
        · subst h7
          rw [hf] at h9
          rw [← Option.some.inj h9]
          exact h4 e' (by omega) h7'
      · simp only [findAdjacentFace, load_of_getElem? hf, h5, bind, Except.bind]
        rfl
    · have hstep : findAdjacentFace mesh index1 index2 index3 (n + 1) i =
          findAdjacentFace mesh index1 index2 index3 n (i + 1) := by
        simp only [findAdjacentFace, load_of_getElem? hf, h2, bind, Except.bind]
      rw [hstep]
      have hhere : ∀ e' f', e' < 3 → mesh.mFaces[i]? = some f' →
          ¬ f'.adjacentAt e' index1 index2 index3 := by
        intro e' f' h6 h7
        rw [hf] at h7
        rw [← Option.some.inj h7]
        exact h1 e' (by omega) h6
      rcases ih (i + 1) (by simp only [aiMesh.mNumFaces]; omega) with
        ⟨j, e, f, k1, k2, k3, k4, k5, k6⟩ | ⟨k1, k2⟩
      · refine Or.inl ⟨j, e, f, by omega, k2, k3, k4, fun j' e' f' h6 h7 h8 h9 => ?_, k6⟩
        by_cases hji : j' = i
        · subst hji; exact hhere e' f' h8 h9
        · exact k5 j' e' f' (by omega) h7 h8 h9
      · refine Or.inr ⟨fun j' e' f' h6 h8 h9 => ?_, k2⟩
        by_cases hji : j' = i
        · subst hji; exact hhere e' f' h8 h9
        · exact k1 j' e' f' (by omega) h8 h9

theorem corner_mem (f : aiFace) (h3 : f.mNumIndices = 3) (k : Nat) :
    f.corner k ∈ f.mIndices := by
  obtain ⟨idx⟩ := f
  simp only [aiFace.mNumIndices] at h3
  match idx, h3 with
  | [a, b, c], _ =>
    have hcases : k % 3 = 0 ∨ k % 3 = 1 ∨ k % 3 = 2 := by omega
    rcases hcases with h | h | h <;> simp [aiFace.corner, h]

/-- C10: on a triangulated mesh `findAdjacentIndex(mesh, index1, index2, index3)` returns
the opposite vertex of the first face and edge (in face order, then edge order 0, 1, 2)
whose edge joins `index1` and `index2` in either direction and whose opposite vertex
differs from `index3`, and `index3` when there is none; so the result is `index3` or a
vertex of a face that also contains `index1` and `index2`. -/
theorem C10_findAdjacentIndex (mesh : aiMesh) (index1 index2 index3 : Nat)
    (htri : mesh.triangulated) :
    ∃ res, findAdjacentIndex mesh index1 index2 index3 = .ok res ∧
      ((∃ i e : Nat, ∃ f : aiFace, mesh.mFaces[i]? = some f ∧ e < 3 ∧ f.adjacentAt e index1 index2 index3 ∧
          res = f.corner (e + 2) ∧
          ∀ i' e' : Nat, ∀ f' : aiFace, i' < i ∨ (i' = i ∧ e' < e) → e' < 3 → mesh.mFaces[i']? = some f' →
            ¬ f'.adjacentAt e' index1 index2 index3) ∨
        (res = index3 ∧ ∀ i' e' : Nat, ∀ f' : aiFace, e' < 3 → mesh.mFaces[i']? = some f' →
            ¬ f'.adjacentAt e' index1 index2 index3)) ∧
      (res = index3 ∨
        ∃ f : aiFace, f ∈ mesh.mFaces ∧ res ∈ f.mIndices ∧ index1 ∈ f.mIndices ∧ index2 ∈ f.mIndices) := by
  rcases findAdjacentFace_spec mesh htri index1 index2 index3 mesh.mNumFaces 0 (by omega) with
    ⟨j, e, f, _, h2, h3, h4, h5, h6⟩ | ⟨h1, h2⟩
  · have hmem : f ∈ mesh.mFaces := List.mem_iff_getElem?.2 ⟨j, h2⟩
    have hf3 := htri f hmem
    refine ⟨f.corner (e + 2), ?_, Or.inl ⟨j, e, f, h2, h3, h4, rfl,
      fun i' e' f' k1 k2 k3 => h5 i' e' f' (Nat.zero_le i') k1 k2 k3⟩, Or.inr ⟨f, hmem,
      corner_mem f hf3 _, ?_, ?_⟩⟩
    · simp only [findAdjacentIndex, h6, bind, Except.bind]
      rfl
    · rcases h4.1 with ⟨k1, _⟩ | ⟨k1, _⟩
      · rw [← k1]; exact corner_mem f hf3 _
      · rw [← k1]; exact corner_mem f hf3 _
    · rcases h4.1 with ⟨_, k2⟩ | ⟨_, k2⟩
      · rw [← k2]; exact corner_mem f hf3 _
      · rw [← k2]; exact corner_mem f hf3 _
  · refine ⟨index3, ?_, Or.inr ⟨rfl, fun i' e' f' k1 k2 => h1 i' e' f' (Nat.zero_le i') k1 k2⟩,
      Or.inl rfl⟩
    simp only [findAdjacentIndex, h2, bind, Except.bind]
    rfl

/-- C10 at two triangles that share the edge `(1, 2)`: the vertex adjacent to face
`(0, 1, 2)` across that edge is `3`. -/
theorem C10_findAdjacentIndex_witness :
    (aiMesh.mk [⟨[0, 1, 2]⟩, ⟨[2, 1, 3]⟩]).triangulated ∧
    findAdjacentIndex ⟨[⟨[0, 1, 2]⟩, ⟨[2, 1, 3]⟩]⟩ 1 2 0 = .ok 3 ∧
    ∃ res, findAdjacentIndex ⟨[⟨[0, 1, 2]⟩, ⟨[2, 1, 3]⟩]⟩ 1 2 0 = .ok res ∧
      (res = 0 ∨ ∃ f : aiFace, f ∈ (aiMesh.mk [⟨[0, 1, 2]⟩, ⟨[2, 1, 3]⟩]).mFaces ∧ res ∈ f.mIndices ∧
        1 ∈ f.mIndices ∧ 2 ∈ f.mIndices) :=
  ⟨by decide, rfl,
    match C10_findAdjacentIndex ⟨[⟨[0, 1, 2]⟩, ⟨[2, 1, 3]⟩]⟩ 1 2 0 (by decide) with
    | ⟨res, h1, _, h3⟩ => ⟨res, h1, h3⟩⟩

end Adjacency

section IndexBuffer

theorem tetrahedron_eval : SubMesh.SubMesh tetrahedron =
    .ok ⟨24, [0, 3, 1, 3, 2, 3, 0, 2, 3, 2, 1, 2, 1, 0, 3, 0, 2, 0, 2, 1, 3, 1, 0, 1]⟩ := rfl

theorem tetrahedron_edgesShared : tetrahedron.edgesShared := by decide

theorem corner_getElem? (f : aiFace) (h3 : f.mNumIndices = 3) (k : Nat) (hk : k < 3) :
    f.mIndices[k]? = some (f.corner k) := by
  obtain ⟨idx⟩ := f
  simp only [aiFace.mNumIndices] at h3
  match idx, h3 with
  | [a, b, c], _ =>
    have hcases : k = 0 ∨ k = 1 ∨ k = 2 := by omega
    rcases hcases with rfl | rfl | rfl <;> simp [aiFace.corner]

theorem corner_add_three (f : aiFace) (k : Nat) : f.corner (k + 3) = f.corner k := by
  simp [aiFace.corner]

theorem findAdjacentIndex_ok (mesh : aiMesh) (htri : mesh.triangulated) (a b c : Nat) :
    ∃ x, findAdjacentIndex mesh a b c = .ok x ∧
      ((∃ j e : Nat, ∃ f : aiFace, mesh.mFaces[j]? = some f ∧ e < 3 ∧ f.adjacentAt e a b c ∧
          x = f.corner (e + 2)) ∨
        (x = c ∧ ∀ j e : Nat, ∀ f : aiFace, e < 3 → mesh.mFaces[j]? = some f →
          ¬ f.adjacentAt e a b c)) := by
  rcases findAdjacentFace_spec mesh htri a b c mesh.mNumFaces 0 (by omega) with
    ⟨j, e, f, _, h2, h3, h4, _, h6⟩ | ⟨h1, h2⟩
  · refine ⟨f.corner (e + 2), ?_, Or.inl ⟨j, e, f, h2, h3, h4, rfl⟩⟩
    simp only [findAdjacentIndex, h6, bind, Except.bind]
    rfl
  · refine ⟨c, ?_, Or.inr ⟨rfl, fun j e f k1 k2 => h1 j e f (Nat.zero_le j) k1 k2⟩⟩
    simp only [findAdjacentIndex, h2, bind, Except.bind]
    rfl

theorem load_set_ne {α : Type} (l : List α) (a k : Nat) (v : α) (h : a ≠ k) :
    load (l.set a v) k = load l k := by
  simp [load, List.getElem?_set_ne h]

theorem load_set_self {α : Type} (l : List α) (k : Nat) (v : α) (h : k < l.length) :
    load (l.set k v) k = .ok v := by
  simp [load, List.getElem?_set_self h]

theorem assert_of {c : Prop} [Decidable c] (h : c) : assert c = .ok () := by
  simp [assert, h]

/-- One round of the face loop as a list update: the six cells of face `i`. -/
theorem sixCells_spec (indices : List Nat) (base c0 c1 c2 x1 x3 x5 : Nat)
    (hlen : base + 6 ≤ indices.length) :
    let r := (((((indices.set base c0).set (base + 2) c1).set (base + 4) c2).set (base + 1)
      x1).set (base + 3) x3).set (base + 5) x5
    r.length = indices.length ∧
    (∀ k, k < base ∨ base + 6 ≤ k → r[k]? = indices[k]?) ∧
    r[base]? = some c0 ∧ r[base + 1]? = some x1 ∧ r[base + 2]? = some c1 ∧
    r[base + 3]? = some x3 ∧ r[base + 4]? = some c2 ∧ r[base + 5]? = some x5 := by
  intro r
  refine ⟨by simp [r], fun k hk => ?_, ?_, ?_, ?_, ?_, ?_, ?_⟩
  · simp only [r]
    repeat rw [List.getElem?_set_ne (by omega)]
  all_goals
    simp only [r]
    repeat rw [List.getElem?_set_ne (by omega)]
    rw [List.getElem?_set_self (by first | omega | (simp only [List.length_set]; omega))]

theorem fillIndices_step (mesh : aiMesh) (htri : mesh.triangulated)
    (hF : 6 * mesh.mNumFaces < 4294967296) (i : Nat) (f : aiFace)
    (hf : mesh.mFaces[i]? = some f) (indices : List Nat)
    (hlen : indices.length = 6 * mesh.mNumFaces) :
    ∃ x1 x3 x5 r,
      findAdjacentIndex mesh (f.corner 0) (f.corner 1) (f.corner 2) = .ok x1 ∧
      findAdjacentIndex mesh (f.corner 1) (f.corner 2) (f.corner 0) = .ok x3 ∧
      findAdjacentIndex mesh (f.corner 2) (f.corner 0) (f.corner 1) = .ok x5 ∧
      r.length = indices.length ∧
      (∀ k, k < 6 * i ∨ 6 * i + 6 ≤ k → r[k]? = indices[k]?) ∧
      r[6 * i]? = some (f.corner 0) ∧ r[6 * i + 1]? = some x1 ∧
      r[6 * i + 2]? = some (f.corner 1) ∧ r[6 * i + 3]? = some x3 ∧
      r[6 * i + 4]? = some (f.corner 2) ∧ r[6 * i + 5]? = some x5 ∧
      ∀ n, SubMesh.fillIndices mesh (n + 1) i indices = SubMesh.fillIndices mesh n (i + 1) r := by
  have hi : i < mesh.mFaces.length := by
    rcases Nat.lt_or_ge i mesh.mFaces.length with h | h
    · exact h
    · rw [List.getElem?_eq_none h] at hf; exact absurd hf (by simp)
  have hiF : i < mesh.mNumFaces := hi
  have hf3 : f.mNumIndices = 3 := htri f (List.mem_iff_getElem?.2 ⟨i, hf⟩)
  obtain ⟨x1, hx1, _⟩ := findAdjacentIndex_ok mesh htri (f.corner 0) (f.corner 1) (f.corner 2)
  obtain ⟨x3, hx3, _⟩ := findAdjacentIndex_ok mesh htri (f.corner 1) (f.corner 2) (f.corner 0)
  obtain ⟨x5, hx5, _⟩ := findAdjacentIndex_ok mesh htri (f.corner 2) (f.corner 0) (f.corner 1)
  have hm0 : (i * 6) % 4294967296 = 6 * i := by omega
  have hm1 : (i * 6 + 1) % 4294967296 = 6 * i + 1 := by omega
  have hm2 : (i * 6 + 2) % 4294967296 = 6 * i + 2 := by omega
  have hm3 : (i * 6 + 3) % 4294967296 = 6 * i + 3 := by omega
  have hm4 : (i * 6 + 4) % 4294967296 = 6 * i + 4 := by omega
  have hm5 : (i * 6 + 5) % 4294967296 = 6 * i + 5 := by omega
  obtain ⟨h1, h2, h3, h4, h5, h6, h7, h8⟩ := sixCells_spec indices (6 * i) (f.corner 0)
    (f.corner 1) (f.corner 2) x1 x3 x5 (by omega)
  refine ⟨x1, x3, x5, _, hx1, hx3, hx5, h1, h2, h3, h4, h5, h6, h7, h8, fun n => ?_⟩
  have l0 := load_of_getElem? (corner_getElem? f hf3 0 (by omega))
  have l1 := load_of_getElem? (corner_getElem? f hf3 1 (by omega))
  have l2 := load_of_getElem? (corner_getElem? f hf3 2 (by omega))
  rw [SubMesh.fillIndices]
  simp (disch := first | omega | (simp only [List.length_set]; omega)) only
    [load_of_getElem? hf, assert_of hf3, l0, l1, l2, hm0, hm1, hm2, hm3, hm4, hm5, bind,
      Except.bind, store_of_lt, load_set_ne, load_set_self, hx1, hx3, hx5]

theorem fillIndices_spec (mesh : aiMesh) (htri : mesh.triangulated)
    (hF : 6 * mesh.mNumFaces < 4294967296) (n : Nat) :
    ∀ (i : Nat) (indices : List Nat), i + n = mesh.mNumFaces →
    indices.length = 6 * mesh.mNumFaces →
    ∃ r, SubMesh.fillIndices mesh n i indices = .ok r ∧ r.length = 6 * mesh.mNumFaces ∧
      (∀ k, k < 6 * i → r[k]? = indices[k]?) ∧
      ∀ j f, i ≤ j → mesh.mFaces[j]? = some f → SubMesh.faceCells mesh r j f := by
  induction n with
  | zero =>
    intro i indices hi hlen
    refine ⟨indices, rfl, hlen, fun _ _ => rfl, fun j f hj hf => ?_⟩
    have hlt : j < mesh.mFaces.length := by
      rcases Nat.lt_or_ge j mesh.mFaces.length with h | h
      · exact h
      · rw [List.getElem?_eq_none h] at hf; exact absurd hf (by simp)
    simp only [aiMesh.mNumFaces] at hi
    omega
  | succ n ih =>
    intro i indices hi hlen
    have hlt : i < mesh.mFaces.length := by simp only [aiMesh.mNumFaces] at hi; omega
    obtain ⟨x1, x3, x5, r1, hx1, hx3, hx5, hl1, hout, c0, c1, c2, c3, c4, c5, hstep⟩ :=
      fillIndices_step mesh htri hF i mesh.mFaces[i] (List.getElem?_eq_getElem hlt) indices hlen
    obtain ⟨r, he, hrl, hkeep, hcells⟩ := ih (i + 1) r1 (by omega) (by omega)
    refine ⟨r, by rw [hstep n]; exact he, hrl, fun k hk => ?_, fun j f hj hf => ?_⟩
    · rw [hkeep k (by omega), hout k (Or.inl hk)]
    · by_cases hji : j = i
      · subst hji
        rw [List.getElem?_eq_getElem hlt] at hf
        have hfe : mesh.mFaces[j] = f := Option.some.inj hf
        subst hfe
        refine ⟨by rw [hkeep _ (by omega)]; exact c0, by rw [hkeep _ (by omega)]; exact c2,
          by rw [hkeep _ (by omega)]; exact c4, fun e he3 => ?_⟩
        have hcases : e = 0 ∨ e = 1 ∨ e = 2 := by omega
        rcases hcases with rfl | rfl | rfl
        · exact ⟨x1, hx1, by rw [hkeep _ (by omega)]; exact c1⟩
        · exact ⟨x3, hx3, by rw [hkeep _ (by omega)]; exact c3⟩
        · exact ⟨x5, hx5, by rw [hkeep _ (by omega)]; exact c5⟩
      · exact hcells j f (by omega) hf

theorem opposite_unique (f : aiFace) (h3 : f.mNumIndices = 3) (e1 e2 a b : Nat)
    (h1 : f.joinsAt e1 a b) (h2 : f.joinsAt e2 a b) :
    f.corner (e1 + 2) = f.corner (e2 + 2) := by
  obtain ⟨idx⟩ := f
  simp only [aiFace.mNumIndices] at h3
  match idx, h3 with
  | [p, q, r], _ =>
    have hc1 : e1 % 3 = 0 ∨ e1 % 3 = 1 ∨ e1 % 3 = 2 := by omega
    have hc2 : e2 % 3 = 0 ∨ e2 % 3 = 1 ∨ e2 % 3 = 2 := by omega
    simp only [aiFace.joinsAt, aiFace.corner, Nat.add_mod e1, Nat.add_mod e2] at h1 h2 ⊢
    rcases hc1 with h | h | h <;> rcases hc2 with k | k | k <;>
      simp [h, k] at h1 h2 ⊢ <;> omega

theorem face_of_getElem? (mesh : aiMesh) (j : Nat) (g : aiFace)
    (h : mesh.mFaces[j]? = some g) : mesh.face j = g ∧ j < mesh.mNumFaces := by
  have hlt : j < mesh.mFaces.length := by
    rcases Nat.lt_or_ge j mesh.mFaces.length with h' | h'
    · exact h'
    · rw [List.getElem?_eq_none h'] at h; exact absurd h (by simp)
  refine ⟨?_, hlt⟩
  simp [aiMesh.face, List.getD, h]

theorem getElem?_face (mesh : aiMesh) (j : Nat) (h : j < mesh.mNumFaces) :
    mesh.mFaces[j]? = some (mesh.face j) := by
  have hlt : j < mesh.mFaces.length := h
  simp [aiMesh.face, List.getD, List.getElem?_eq_getElem hlt]

theorem adjacent_of_shared (mesh : aiMesh) (htri : mesh.triangulated) (i e j x : Nat)
    (hi : i < mesh.mNumFaces) (hj : j < mesh.mNumFaces) (hs : mesh.sharesEdge i e j)
    (hx : findAdjacentIndex mesh ((mesh.face i).corner e) ((mesh.face i).corner (e + 1))
      ((mesh.face i).corner (e + 2)) = .ok x) :
    ∀ e', e' < 3 →
      (mesh.face j).joinsAt e' ((mesh.face i).corner e) ((mesh.face i).corner (e + 1)) →
      x = (mesh.face j).corner (e' + 2) := by
  intro e' he' hjoin
  obtain ⟨hne, _, hopp, hthird⟩ := hs
  have hfi : (mesh.face i).mNumIndices = 3 :=
    htri _ (List.mem_iff_getElem?.2 ⟨i, getElem?_face mesh i hi⟩)
  have hfj : (mesh.face j).mNumIndices = 3 :=
    htri _ (List.mem_iff_getElem?.2 ⟨j, getElem?_face mesh j hj⟩)
  obtain ⟨y, hy, hcase⟩ := findAdjacentIndex_ok mesh htri ((mesh.face i).corner e)
    ((mesh.face i).corner (e + 1)) ((mesh.face i).corner (e + 2))
  rw [hx] at hy
  have hxy : x = y := Except.ok.inj hy
  subst hxy
  rcases hcase with ⟨k, e0, g, hg, he0, hadj, hval⟩ | ⟨_, hnone⟩
  · obtain ⟨hgk, hk⟩ := face_of_getElem? mesh k g hg
    subst hgk
    by_cases hki : k = i
    · subst hki
      have hself : (mesh.face k).joinsAt e ((mesh.face k).corner e)
          ((mesh.face k).corner (e + 1)) := Or.inl ⟨rfl, rfl⟩
      exact absurd (opposite_unique _ hfi e0 e _ _ hadj.1 hself) hadj.2
    · by_cases hkj : k = j
      · subst hkj
        rw [hval]
        exact opposite_unique _ hfj e0 e' _ _ hadj.1 hjoin
      · exact absurd hadj.1 (hthird k hk hki hkj e0 he0)
  · exact absurd ⟨hjoin, hopp e' he' hjoin⟩ (hnone j e' _ he' (getElem?_face mesh j hj))

theorem SubMesh_spec (mesh : aiMesh) (htri : mesh.triangulated)
    (hF : 6 * mesh.mNumFaces < 4294967296) :
    ∃ sm, SubMesh.SubMesh mesh = .ok sm ∧ sm.elementCount = 6 * mesh.mNumFaces ∧
      sm.indices.length = 6 * mesh.mNumFaces ∧
      ∀ i f, mesh.mFaces[i]? = some f → SubMesh.faceCells mesh sm.indices i f := by
  have hm : (mesh.mNumFaces * 3 * 2) % 4294967296 = 6 * mesh.mNumFaces := by omega
  by_cases hfaces : mesh.mNumFaces > 0
  · obtain ⟨r, he, hl, _, hcells⟩ := fillIndices_spec mesh htri hF mesh.mNumFaces 0
      (List.replicate (6 * mesh.mNumFaces) 0) (by omega) (by simp)
    refine ⟨⟨6 * mesh.mNumFaces, r⟩, ?_, rfl, hl, fun i f hf => hcells i f (Nat.zero_le i) hf⟩
    simp only [SubMesh.SubMesh, hm, aiMesh.HasFaces, hfaces, decide_True, if_true, he, bind,
      Except.bind]
    rfl
  · have h0 : mesh.mNumFaces = 0 := by omega
    refine ⟨⟨0, []⟩, ?_, by simp only; omega, by simp [h0], fun i f hf => ?_⟩
    · simp only [SubMesh.SubMesh, aiMesh.HasFaces, h0]
      rfl
    · have := (face_of_getElem? mesh i f hf).2
      omega

theorem fillIndices_overflow (mesh : aiMesh) (f : aiFace) (hf : mesh.mFaces[0]? = some f)
    (hf3 : f.mNumIndices = 3) (indices : List Nat) (hlen : indices.length = 2) (n : Nat) :
    SubMesh.fillIndices mesh (n + 1) 0 indices = .error Fault.outOfBounds := by
  have l0 := load_of_getElem? (corner_getElem? f hf3 0 (by omega))
  have l1 := load_of_getElem? (corner_getElem? f hf3 1 (by omega))
  have s0 : store indices (0 * 6 % 4294967296) (f.corner 0) =
      .ok (indices.set 0 (f.corner 0)) := by simp [store, hlen]
  have s1 : store (indices.set 0 (f.corner 0)) ((0 * 6 + 2) % 4294967296) (f.corner 1) =
      .error Fault.outOfBounds := by simp [store, hlen]
  rw [SubMesh.fillIndices, load_of_getElem? hf, ok_bind, assert_of hf3, ok_bind, l0, ok_bind,
    s0, ok_bind, l1, ok_bind, s1]
  rfl

theorem manyFaces_length : manyFaces.mNumFaces = 715827883 := by
  show (List.replicate 715827883 (aiFace.mk [0, 1, 2])).length = 715827883
  exact List.length_replicate _ _

theorem manyFaces_triangulated : manyFaces.triangulated := by
  intro f hf
  have hf' : f ∈ List.replicate 715827883 (aiFace.mk [0, 1, 2]) := hf
  rw [List.eq_of_mem_replicate hf']
  rfl

/-- C11 (counterexample): on a triangulated mesh of `715827883` faces the `unsigned int`
product `mNumFaces * 3 * 2` wraps to `2`, so `elementCount` is not six times the number
of faces and the face loop writes past the two-cell block. -/
theorem C11_indexBuffer_counterexample :
    manyFaces.triangulated ∧ manyFaces.mNumFaces = 715827883 ∧
    (manyFaces.mNumFaces * 3 * 2) % 4294967296 = 2 ∧
    SubMesh.SubMesh manyFaces = .error Fault.outOfBounds := by
  have hlen := manyFaces_length
  have hf : manyFaces.mFaces[0]? = some (aiFace.mk [0, 1, 2]) := by
    show (List.replicate 715827883 (aiFace.mk [0, 1, 2]))[0]? = some (aiFace.mk [0, 1, 2])
    exact List.getElem?_replicate_of_lt (by decide)
  refine ⟨manyFaces_triangulated, hlen, by rw [hlen], ?_⟩
  have hfill := fillIndices_overflow manyFaces _ hf rfl (List.replicate 2 0) rfl 715827882
  simp only [SubMesh.SubMesh, aiMesh.HasFaces, hlen, hfill]
  rfl

/-- C11 (amended): for a triangulated mesh with `F` faces and `6 * F < 2^32` the
constructor builds an index buffer of `6 * F` entries with `elementCount == 6 * F`;
entries `6i`, `6i+2`, `6i+4` are the three vertex indices of face `i` in order; and when
every undirected edge is shared by exactly two faces whose opposite vertices differ,
entry `6i + 2e + 1` is the opposite vertex of the other face that shares edge `e` of
face `i`. -/
theorem C11_indexBuffer (mesh : aiMesh) (htri : mesh.triangulated)
    (hF : 6 * mesh.mNumFaces < 4294967296) :
    ∃ sm, SubMesh.SubMesh mesh = .ok sm ∧ sm.elementCount = 6 * mesh.mNumFaces ∧
      sm.indices.length = 6 * mesh.mNumFaces ∧
      (∀ i, i < mesh.mNumFaces →
        sm.indices[6 * i]? = some ((mesh.face i).corner 0) ∧
        sm.indices[6 * i + 2]? = some ((mesh.face i).corner 1) ∧
        sm.indices[6 * i + 4]? = some ((mesh.face i).corner 2)) ∧
      (mesh.edgesShared → ∀ i, i < mesh.mNumFaces → ∀ e, e < 3 →
        ∀ j, j < mesh.mNumFaces → j ≠ i → ∀ e', e' < 3 →
        (mesh.face j).joinsAt e' ((mesh.face i).corner e) ((mesh.face i).corner (e + 1)) →
        sm.indices[6 * i + 2 * e + 1]? = some ((mesh.face j).corner (e' + 2))) := by
  obtain ⟨sm, he, hec, hlen, hcells⟩ := SubMesh_spec mesh htri hF
  refine ⟨sm, he, hec, hlen, fun i hi => ?_, fun hshared i hi e he3 j hj hji e' he' hjoin => ?_⟩
  · obtain ⟨c0, c1, c2, _⟩ := hcells i _ (getElem?_face mesh i hi)
    exact ⟨c0, c1, c2⟩
  · obtain ⟨_, _, _, hadj⟩ := hcells i _ (getElem?_face mesh i hi)
    obtain ⟨x, hx, hcell⟩ := hadj e he3
    obtain ⟨j0, hj0, hs⟩ := hshared i hi e he3
    have hjj : j = j0 := by
      by_contra hne
      exact hs.2.2.2 j hj hji hne e' he' hjoin
    subst hjj
    rw [hcell, adjacent_of_shared mesh htri i e j x hi hj hs hx e' he' hjoin]

/-- C11 at the tetrahedron: 24 entries, and the entry after corner 0 of face 0 is the
vertex 3 of face 1, which shares the edge `(0, 1)`. -/
theorem C11_indexBuffer_witness :
    tetrahedron.triangulated ∧ 6 * tetrahedron.mNumFaces < 4294967296 ∧
    tetrahedron.edgesShared ∧
    ∃ sm, SubMesh.SubMesh tetrahedron = .ok sm ∧ sm.elementCount = 24 ∧
      sm.indices.length = 24 ∧ sm.indices[6 * 0 + 2 * 0 + 1]? = some 3 :=
  ⟨by decide, by decide, tetrahedron_edgesShared,
    match C11_indexBuffer tetrahedron (by decide) (by decide) with
    | ⟨sm, he, hec, hlen, _, hadj⟩ =>
      ⟨sm, he, hec, hlen,
        hadj tetrahedron_edgesShared 0 (by decide) 0 (by decide) 1 (by decide) (by decide) 2
          (by decide) (by decide)⟩⟩

end IndexBuffer

section FloatOrder

theorem fp_eval :
    Fp.round binary32 false 1 3 = .fin false 11184811 25 ∧
    Fp.round binary32 false 1 10 = .fin false 13421773 27 ∧
    (Fp.fin false 16777217 0).toFloat = .fin false 16777216 0 ∧
    (Fp.fin false 16777219 0).toFloat = .fin false 16777220 0 ∧
    (Fp.fin false 33554433 0).toFloat = .fin false 33554432 0 ∧
    (Fp.fin true (2 ^ 200) 0).toFloat = .inf true ∧
    (Fp.fin false (2 ^ 128 - 2 ^ 103) 0).toFloat = .inf false ∧
    (Fp.fin false (2 ^ 128 - 2 ^ 103 - 1) 0).toFloat = .fin false (2 ^ 128 - 2 ^ 104) 0 ∧
    (Fp.fin false 1 150).toFloat = .fin false 0 0 ∧
    (Fp.fin false 3 151).toFloat = .fin false 1 149 ∧
    Fp.add binary32 (.fin false 1 0) (.fin false 1 24) = .fin false 1 0 ∧
    Fp.add binary32 (.fin false 1 0) (.fin false 3 25) = .fin false 8388609 23 ∧
    Fp.div binary32 (.fin false 2 0) (.fin false 3 0) = .fin false 11184811 24 ∧
    Fp.mul binary32 (.fin false 3 1) (.fin true 5 2) = .fin true 15 3 ∧
    Fp.fmod (.fin false 11 1) (.fin false 2 0) = .fin false 3 1 ∧
    Fp.fmod (.fin true 7 0) (.fin false 4 0) = .fin true 3 0 ∧
    Fp.sub binary64 (.fin false 16777219 0) (.fin false 16777217 0) = .fin false 2 0 := by
  decide

theorem cross_lt (n m k j : Nat) : n * 2 ^ j < m * 2 ^ k ↔ (n : ℚ) / 2 ^ k < (m : ℚ) / 2 ^ j := by
  rw [div_lt_div_iff₀ (by positivity) (by positivity)]
  exact_mod_cast Iff.rfl

theorem cross_le (n m k j : Nat) : n * 2 ^ j ≤ m * 2 ^ k ↔ (n : ℚ) / 2 ^ k ≤ (m : ℚ) / 2 ^ j := by
  rw [div_le_div_iff₀ (by positivity) (by positivity)]
  exact_mod_cast Iff.rfl

theorem cross_nonneg (n k : Nat) : (0 : ℚ) ≤ (n : ℚ) / 2 ^ k := by positivity

theorem cross_zero (n k : Nat) : (n : ℚ) / 2 ^ k = 0 ↔ n = 0 := by
  rw [div_eq_zero_iff]
  constructor
  · rintro (h | h)
    · exact_mod_cast h
    · exact absurd h (by positivity)
  · intro h
    left
    exact_mod_cast h

theorem Fp.round_isNaN (fmt : FloatFormat) (s : Bool) (a b : Nat) :
    (Fp.round fmt s a b).isNaN = false := by
  unfold Fp.round
  split_ifs <;> rfl

theorem Fp.toFloat_isNaN (x : Fp) : x.toFloat.isNaN = x.isNaN := by
  cases x with
  | nan => rfl
  | inf s => rfl
  | fin s n k => exact Fp.round_isNaN binary32 s n (2 ^ k)

theorem Fp.lt_isNaN {a b : Fp} (h : Fp.lt a b = true) : a.isNaN = false ∧ b.isNaN = false := by
  cases a <;> cases b <;> simp_all [Fp.lt, Fp.isNaN]

theorem Fp.le_isNaN {a b : Fp} (h : Fp.le a b = true) : a.isNaN = false ∧ b.isNaN = false := by
  cases a <;> cases b <;> simp_all [Fp.le, Fp.isNaN]

theorem Fp.lt_iff_ord {a b : Fp} (ha : a.isNaN = false) (hb : b.isNaN = false) :
    Fp.lt a b = true ↔ a.ord < b.ord := by
  cases a with
  | nan => simp [Fp.isNaN] at ha
  | inf s =>
    cases b with
    | nan => simp [Fp.isNaN] at hb
    | inf t => cases s <;> cases t <;> simp [Fp.lt, Fp.ord]
    | fin t m j => cases s <;> simp [Fp.lt, Fp.ord]
  | fin s n k =>
    cases b with
    | nan => simp [Fp.isNaN] at hb
    | inf t =>
      cases t
      · simp only [Fp.lt, Fp.ord, Bool.not_false, true_iff]
        exact WithBot.coe_lt_coe.2 (WithTop.coe_lt_top _)
      · simp [Fp.lt, Fp.ord]
    | fin t m j =>
      cases s <;> cases t
      · simp only [Fp.lt, Fp.ord, Fp.toRat, decide_eq_true_eq, WithBot.coe_lt_coe,
          WithTop.coe_lt_coe]
        exact cross_lt n m k j
      · simp only [Fp.lt, Fp.ord, Fp.toRat, WithBot.coe_lt_coe, WithTop.coe_lt_coe]
        have h1 := cross_nonneg n k
        have h2 := cross_nonneg m j
        constructor
        · intro h; exact absurd h (by simp)
        · intro h; linarith
      · simp only [Fp.lt, Fp.ord, Fp.toRat, decide_eq_true_eq, WithBot.coe_lt_coe,
          WithTop.coe_lt_coe]
        have h1 := cross_nonneg n k
        have h2 := cross_nonneg m j
        have z1 := cross_zero n k
        have z2 := cross_zero m j
        constructor
        · intro h
          rcases h with h | h
          · have : (n : ℚ) / 2 ^ k ≠ 0 := fun e => h (z1.1 e)
            have : 0 < (n : ℚ) / 2 ^ k := lt_of_le_of_ne h1 (Ne.symm this)
            linarith
          · have : (m : ℚ) / 2 ^ j ≠ 0 := fun e => h (z2.1 e)
            have : 0 < (m : ℚ) / 2 ^ j := lt_of_le_of_ne h2 (Ne.symm this)
            linarith
        · intro h
          by_contra hc
          push_neg at hc
          rw [z1.2 hc.1, z2.2 hc.2] at h
          simp at h
      · simp only [Fp.lt, Fp.ord, Fp.toRat, decide_eq_true_eq, WithBot.coe_lt_coe,
          WithTop.coe_lt_coe, neg_lt_neg_iff]
        exact cross_lt m n j k

theorem Fp.le_iff_ord {a b : Fp} (ha : a.isNaN = false) (hb : b.isNaN = false) :
    Fp.le a b = true ↔ a.ord ≤ b.ord := by
  cases a with
  | nan => simp [Fp.isNaN] at ha
  | inf s =>
    cases b with
    | nan => simp [Fp.isNaN] at hb
    | inf t => cases s <;> cases t <;> simp [Fp.le, Fp.ord]
    | fin t m j => cases s <;> simp [Fp.le, Fp.ord]
  | fin s n k =>
    cases b with
    | nan => simp [Fp.isNaN] at hb
    | inf t => cases t <;> simp [Fp.le, Fp.ord]
    | fin t m j =>
      cases s <;> cases t
      · simp only [Fp.le, Fp.ord, Fp.toRat, decide_eq_true_eq, WithBot.coe_le_coe,
          WithTop.coe_le_coe]
        exact cross_le n m k j
      · simp only [Fp.le, Fp.ord, Fp.toRat, decide_eq_true_eq, WithBot.coe_le_coe,
          WithTop.coe_le_coe]
        have h1 := cross_nonneg n k
        have h2 := cross_nonneg m j
        have z1 := cross_zero n k
        have z2 := cross_zero m j
        constructor
        · intro h
          rw [z1.2 h.1, z2.2 h.2]
          simp
        · intro h
          have e1 : (n : ℚ) / 2 ^ k = 0 := by linarith
          have e2 : (m : ℚ) / 2 ^ j = 0 := by linarith
          exact ⟨z1.1 e1, z2.1 e2⟩
      · simp only [Fp.le, Fp.ord, Fp.toRat, WithBot.coe_le_coe, WithTop.coe_le_coe, true_iff]
        have h1 := cross_nonneg n k
        have h2 := cross_nonneg m j
        linarith
      · simp only [Fp.le, Fp.ord, Fp.toRat, decide_eq_true_eq, WithBot.coe_le_coe,
          WithTop.coe_le_coe, neg_le_neg_iff]
        exact cross_le m n j k

theorem Fp.le_of_not_lt {a b : Fp} (ha : a.isNaN = false) (hb : b.isNaN = false)
    (h : Fp.lt a b = false) : Fp.le b a = true := by
  rw [Fp.le_iff_ord hb ha]
  have := (Fp.lt_iff_ord ha hb).not.1 (by simp [h])
  exact not_lt.1 this

theorem Fp.not_le_of_lt {a b : Fp} (h : Fp.lt a b = true) : Fp.le b a = false := by
  obtain ⟨ha, hb⟩ := Fp.lt_isNaN h
  have h1 := (Fp.lt_iff_ord ha hb).1 h
  cases hle : Fp.le b a with
  | false => rfl
  | true => exact absurd ((Fp.le_iff_ord hb ha).1 hle) (not_le.2 h1)

theorem Fp.le_lt_trans {a b c : Fp} (h1 : Fp.le a b = true) (h2 : Fp.lt b c = true) :
    Fp.lt a c = true := by
  obtain ⟨ha, hb⟩ := Fp.le_isNaN h1
  obtain ⟨_, hc⟩ := Fp.lt_isNaN h2
  rw [Fp.lt_iff_ord ha hc]
  exact lt_of_le_of_lt ((Fp.le_iff_ord ha hb).1 h1) ((Fp.lt_iff_ord hb hc).1 h2)

theorem Fp.lt_le_trans {a b c : Fp} (h1 : Fp.lt a b = true) (h2 : Fp.le b c = true) :
    Fp.lt a c = true := by
  obtain ⟨ha, hb⟩ := Fp.lt_isNaN h1
  obtain ⟨_, hc⟩ := Fp.le_isNaN h2
  rw [Fp.lt_iff_ord ha hc]
  exact lt_of_lt_of_le ((Fp.lt_iff_ord ha hb).1 h1) ((Fp.le_iff_ord hb hc).1 h2)

theorem Fp.le_le_trans {a b c : Fp} (h1 : Fp.le a b = true) (h2 : Fp.le b c = true) :
    Fp.le a c = true := by
  obtain ⟨ha, hb⟩ := Fp.le_isNaN h1
  obtain ⟨_, hc⟩ := Fp.le_isNaN h2
  rw [Fp.le_iff_ord ha hc]
  exact le_trans ((Fp.le_iff_ord ha hb).1 h1) ((Fp.le_iff_ord hb hc).1 h2)

theorem Fp.le_self {a : Fp} (ha : a.isNaN = false) : Fp.le a a = true := by
  rw [Fp.le_iff_ord ha ha]

theorem Fp.le_of_lt {a b : Fp} (h : Fp.lt a b = true) : Fp.le a b = true := by
  obtain ⟨ha, hb⟩ := Fp.lt_isNaN h
  rw [Fp.le_iff_ord ha hb]
  exact ((Fp.lt_iff_ord ha hb).1 h).le

end FloatOrder

section Rounding

theorem bitLength_step (n c L : Nat)
    (h : 2 ^ (L - 1) ≤ n / 2 ^ c ∧ n / 2 ^ c < 2 ^ L ∧ 1 ≤ L) :
    2 ^ (L + c - 1) ≤ n ∧ n < 2 ^ (L + c) ∧ 1 ≤ L + c := by
  obtain ⟨h1, h2, h3⟩ := h
  have hpos : 0 < 2 ^ c := Nat.pow_pos (by norm_num)
  refine ⟨?_, ?_, by omega⟩
  · have : L + c - 1 = (L - 1) + c := by omega
    rw [this, pow_add]
    exact (Nat.le_div_iff_mul_le hpos).1 h1
  · rw [pow_add]
    exact (Nat.div_lt_iff_lt_mul hpos).1 h2

theorem bitLength_spec : ∀ (fuel n acc : Nat), n < 2 ^ fuel → n ≠ 0 →
    ∃ L, bitLength fuel n acc = acc + L ∧ 2 ^ (L - 1) ≤ n ∧ n < 2 ^ L ∧ 1 ≤ L := by
  intro fuel
  induction fuel with
  | zero =>
    intro n acc h hn
    simp at h
    exact absurd h hn
  | succ fuel ih =>
    intro n acc h hn
    have key : ∀ c, 1 ≤ c → 2 ^ c ≤ n →
        ∃ L, bitLength fuel (n / 2 ^ c) (acc + c) = acc + L ∧ 2 ^ (L - 1) ≤ n ∧ n < 2 ^ L ∧
          1 ≤ L := by
      intro c hc1 hc
      have hpos : 0 < 2 ^ c := Nat.pow_pos (by norm_num)
      have hlt : n / 2 ^ c < 2 ^ fuel := by
        rw [Nat.div_lt_iff_lt_mul hpos]
        calc n < 2 ^ (fuel + 1) := h
          _ = 2 ^ fuel * 2 ^ 1 := by rw [pow_succ]; norm_num
          _ ≤ 2 ^ fuel * 2 ^ c :=
            Nat.mul_le_mul_left _ (Nat.pow_le_pow_right (by norm_num) hc1)
      have hne : n / 2 ^ c ≠ 0 := by
        have := (Nat.le_div_iff_mul_le hpos).2 (show 1 * 2 ^ c ≤ n by omega)
        omega
      obtain ⟨L, hL, h1, h2, h3⟩ := ih (n / 2 ^ c) (acc + c) hlt hne
      obtain ⟨k1, k2, k3⟩ := bitLength_step n c L ⟨h1, h2, h3⟩
      exact ⟨L + c, by rw [hL]; omega, k1, k2, k3⟩
    have e64 : (18446744073709551616 : Nat) = 2 ^ 64 := by norm_num
    have e32 : (4294967296 : Nat) = 2 ^ 32 := by norm_num
    have e16 : (65536 : Nat) = 2 ^ 16 := by norm_num
    have e8 : (256 : Nat) = 2 ^ 8 := by norm_num
    have e4 : (16 : Nat) = 2 ^ 4 := by norm_num
    have e2 : (4 : Nat) = 2 ^ 2 := by norm_num
    have e1 : (2 : Nat) = 2 ^ 1 := by norm_num
    unfold bitLength
    rw [if_neg hn]
    by_cases h64 : 18446744073709551616 ≤ n
    · rw [if_pos h64, e64]; exact key 64 (by norm_num) (by omega)
    rw [if_neg h64]
    by_cases h32 : 4294967296 ≤ n
    · rw [if_pos h32, e32]; exact key 32 (by norm_num) (by omega)
    rw [if_neg h32]
    by_cases h16 : 65536 ≤ n
    · rw [if_pos h16, e16]; exact key 16 (by norm_num) (by omega)
    rw [if_neg h16]
    by_cases h8 : 256 ≤ n
    · rw [if_pos h8, e8]; exact key 8 (by norm_num) (by omega)
    rw [if_neg h8]
    by_cases h4 : 16 ≤ n
    · rw [if_pos h4, e4]; exact key 4 (by norm_num) (by omega)
    rw [if_neg h4]
    by_cases h2 : 4 ≤ n
    · rw [if_pos h2, e2]; exact key 2 (by norm_num) (by omega)
    rw [if_neg h2]
    by_cases h1 : 2 ≤ n
    · rw [if_pos h1]
      have := key 1 (by norm_num) (by omega)
      simpa using this
    rw [if_neg h1]
    refine ⟨1, rfl, ?_, ?_, le_rfl⟩
    · simp; omega
    · simp; omega

theorem bitLength_self (n : Nat) (hn : n ≠ 0) :
    ∃ L, bitLength n n 0 = L ∧ 2 ^ (L - 1) ≤ n ∧ n < 2 ^ L ∧ 1 ≤ L := by
  obtain ⟨L, h, h1, h2, h3⟩ := bitLength_spec n n 0 (Nat.lt_two_pow n) hn
  exact ⟨L, by simpa using h, h1, h2, h3⟩

theorem geTwoPow_spec (a b : Nat) (hb : 0 < b) (d : Int) :
    geTwoPow a b d = true ↔ (2 : ℚ) ^ d ≤ (a : ℚ) / b := by
  unfold geTwoPow
  have hbq : (0 : ℚ) < b := by exact_mod_cast hb
  by_cases hd : 0 ≤ d
  · rw [if_pos hd, decide_eq_true_eq, le_div_iff₀ hbq]
    obtain ⟨k, rfl⟩ := Int.eq_ofNat_of_zero_le hd
    simp only [Int.toNat_ofNat, zpow_natCast]
    rw [mul_comm]
    exact_mod_cast Iff.rfl
  · rw [if_neg hd, decide_eq_true_eq, le_div_iff₀ hbq]
    obtain ⟨k, hk⟩ : ∃ k : Nat, d = -(k : Int) := ⟨(-d).toNat, by omega⟩
    subst hk
    simp only [neg_neg, Int.toNat_ofNat, zpow_neg, zpow_natCast]
    rw [inv_mul_le_iff₀ (by positivity)]
    rw [mul_comm]
    exact_mod_cast Iff.rfl

theorem two_zpow_pos (d : Int) : (0 : ℚ) < 2 ^ d := zpow_pos (by norm_num) d

theorem two_zpow_le {d e : Int} (h : d ≤ e) : (2 : ℚ) ^ d ≤ 2 ^ e :=
  zpow_le_zpow_right₀ (by norm_num) h

theorem two_zpow_lt_imp {d e : Int} (h : (2 : ℚ) ^ d < 2 ^ e) : d < e := by
  by_contra hc
  exact absurd (two_zpow_le (not_lt.1 hc)) (not_le.2 h)

theorem bitLength_rat (n : Nat) (hn : n ≠ 0) :
    (2 : ℚ) ^ ((bitLength n n 0 : Int) - 1) ≤ n ∧ (n : ℚ) < 2 ^ (bitLength n n 0 : Int) := by
  obtain ⟨L, hL, h1, h2, h3⟩ := bitLength_self n hn
  rw [hL]
  have e : ((L : Int) - 1) = ((L - 1 : Nat) : Int) := by omega
  rw [e, zpow_natCast, zpow_natCast]
  exact ⟨by exact_mod_cast h1, by exact_mod_cast h2⟩

theorem floorLog2_spec (a b : Nat) (ha : a ≠ 0) (hb : b ≠ 0) :
    (2 : ℚ) ^ floorLog2 a b ≤ (a : ℚ) / b ∧ (a : ℚ) / b < 2 ^ (floorLog2 a b + 1) := by
  have hbq : (0 : ℚ) < b := by exact_mod_cast Nat.pos_of_ne_zero hb
  obtain ⟨a1, a2⟩ := bitLength_rat a ha
  obtain ⟨b1, b2⟩ := bitLength_rat b hb
  unfold floorLog2
  generalize (bitLength a a 0 : Int) = La at a1 a2 ⊢
  generalize (bitLength b b 0 : Int) = Lb at b1 b2 ⊢
  by_cases hge : geTwoPow a b (La - Lb) = true
  · rw [if_pos hge]
    refine ⟨(geTwoPow_spec a b (Nat.pos_of_ne_zero hb) _).1 hge, ?_⟩
    rw [div_lt_iff₀ hbq]
    calc (a : ℚ) < 2 ^ La := a2
      _ = 2 ^ (La - Lb + 1) * 2 ^ (Lb - 1) := by
        rw [← zpow_add₀ (by norm_num : (2 : ℚ) ≠ 0)]; congr 1; ring
      _ ≤ 2 ^ (La - Lb + 1) * b := mul_le_mul_of_nonneg_left b1 (two_zpow_pos _).le
  · rw [if_neg hge]
    constructor
    · rw [le_div_iff₀ hbq]
      calc (2 : ℚ) ^ (La - Lb - 1) * b ≤ 2 ^ (La - Lb - 1) * 2 ^ Lb :=
          mul_le_mul_of_nonneg_left b2.le (two_zpow_pos _).le
        _ = 2 ^ (La - 1) := by
          rw [← zpow_add₀ (by norm_num : (2 : ℚ) ≠ 0)]; congr 1; ring
        _ ≤ a := a1
    · have := (geTwoPow_spec a b (Nat.pos_of_ne_zero hb) (La - Lb)).not.1 hge
      rw [show La - Lb - 1 + 1 = La - Lb by ring]
      exact not_le.1 this

theorem roundHalfEven_spec (num den : Nat) (hden : 0 < den) :
    2 * (den * roundHalfEven num den) ≤ 2 * num + den ∧
    2 * num ≤ 2 * (den * roundHalfEven num den) + den ∧
    (2 * (den * roundHalfEven num den) = 2 * num + den → roundHalfEven num den % 2 = 0) ∧
    (2 * num = 2 * (den * roundHalfEven num den) + den → roundHalfEven num den % 2 = 0) := by
  have hdm := Nat.div_add_mod num den
  have hm := Nat.mod_lt num hden
  have hexp : den * (num / den + 1) = den * (num / den) + den := by ring
  unfold roundHalfEven
  split_ifs with h1 h2 h3
  · generalize den * (num / den) = D at *
    omega
  · rw [hexp]
    generalize den * (num / den) = D at *
    omega
  · generalize den * (num / den) = D at *
    omega
  · rw [hexp]
    generalize den * (num / den) = D at *
    omega

theorem roundHalfEven_rat (num den : Nat) (hden : 0 < den) :
    (roundHalfEven num den : ℚ) ≤ (num : ℚ) / den + 1 / 2 ∧
    (num : ℚ) / den ≤ roundHalfEven num den + 1 / 2 ∧
    ((roundHalfEven num den : ℚ) = (num : ℚ) / den + 1 / 2 → roundHalfEven num den % 2 = 0) ∧
    ((num : ℚ) / den = roundHalfEven num den + 1 / 2 → roundHalfEven num den % 2 = 0) := by
  obtain ⟨h1, h2, h3, h4⟩ := roundHalfEven_spec num den hden
  generalize roundHalfEven num den = r at *
  have hd : (0 : ℚ) < den := by exact_mod_cast hden
  have q1 : (2 : ℚ) * (den * r) ≤ 2 * num + den := by exact_mod_cast h1
  have q2 : (2 : ℚ) * num ≤ 2 * (den * r) + den := by exact_mod_cast h2
  refine ⟨?_, ?_, fun h => h3 ?_, fun h => h4 ?_⟩
  · rw [div_add_div _ _ hd.ne' (by norm_num), le_div_iff₀ (by positivity)]
    linarith
  · rw [div_le_iff₀ hd]
    linarith
  · have : (2 : ℚ) * (den * r) = 2 * num + den := by
      rw [h]; field_simp; ring
    exact_mod_cast this
  · have : (2 : ℚ) * num = 2 * (den * r) + den := by
      have h' : (num : ℚ) = (r + 1 / 2) * den := by rw [← h]; field_simp
      rw [h']; ring
    exact_mod_cast this

theorem roundHalfEven_mono (n d n' d' : Nat) (hd : 0 < d) (hd' : 0 < d')
    (h : (n : ℚ) / d ≤ (n' : ℚ) / d') : roundHalfEven n d ≤ roundHalfEven n' d' := by
  obtain ⟨a1, _, a3, _⟩ := roundHalfEven_rat n d hd
  obtain ⟨_, b2, _, b4⟩ := roundHalfEven_rat n' d' hd'
  by_contra hc
  have hlt : roundHalfEven n' d' + 1 ≤ roundHalfEven n d := by omega
  have hq : ((roundHalfEven n' d' : ℚ)) + 1 ≤ roundHalfEven n d := by exact_mod_cast hlt
  have e1 : (roundHalfEven n d : ℚ) = (n : ℚ) / d + 1 / 2 := by linarith
  have e2 : (n' : ℚ) / d' = roundHalfEven n' d' + 1 / 2 := by linarith
  have e3 : (roundHalfEven n d : ℚ) = roundHalfEven n' d' + 1 := by linarith
  have e4 : roundHalfEven n d = roundHalfEven n' d' + 1 := by exact_mod_cast e3
  have p1 := a3 e1
  have p2 := b4 e2
  omega

theorem roundHalfEven_nat (k : Nat) : roundHalfEven k 1 = k := by
  simp [roundHalfEven, Nat.mod_one]

theorem roundHalfEven_le (num den k : Nat) (hden : 0 < den) (h : (num : ℚ) / den ≤ k) :
    roundHalfEven num den ≤ k := by
  have := roundHalfEven_mono num den k 1 hden Nat.one_pos (by simpa using h)
  rwa [roundHalfEven_nat] at this

theorem roundHalfEven_ge (num den k : Nat) (hden : 0 < den) (h : (k : ℚ) ≤ (num : ℚ) / den) :
    k ≤ roundHalfEven num den := by
  have := roundHalfEven_mono k 1 num den Nat.one_pos hden (by simpa using h)
  rwa [roundHalfEven_nat] at this

theorem significand_frac (a b : Nat) (hb : 0 < b) (q : Int) :
    ∃ num den, 0 < den ∧ Fp.significand a b q = roundHalfEven num den ∧
      (num : ℚ) / den = (a : ℚ) / b * 2 ^ (-q) := by
  have hbq : (b : ℚ) ≠ 0 := by exact_mod_cast hb.ne'
  unfold Fp.significand
  by_cases hq : 0 ≤ q
  · rw [if_pos hq]
    obtain ⟨k, rfl⟩ := Int.eq_ofNat_of_zero_le hq
    refine ⟨a, b * 2 ^ k, Nat.mul_pos hb (Nat.pow_pos (by norm_num)), rfl, ?_⟩
    simp only [Int.toNat_ofNat, zpow_neg, zpow_natCast]
    push_cast
    field_simp
  · rw [if_neg hq]
    obtain ⟨k, hk⟩ : ∃ k : Nat, q = -(k : Int) := ⟨(-q).toNat, by omega⟩
    subst hk
    refine ⟨a * 2 ^ k, b, hb, ?_, ?_⟩
    · simp
    · simp only [neg_neg, zpow_natCast]
      push_cast
      field_simp

theorem significand_mono (a b c d : Nat) (hb : 0 < b) (hd : 0 < d) (q : Int)
    (h : (a : ℚ) / b ≤ (c : ℚ) / d) : Fp.significand a b q ≤ Fp.significand c d q := by
  obtain ⟨n, m, hm, e1, f1⟩ := significand_frac a b hb q
  obtain ⟨n', m', hm', e2, f2⟩ := significand_frac c d hd q
  rw [e1, e2]
  apply roundHalfEven_mono n m n' m' hm hm'
  rw [f1, f2]
  exact mul_le_mul_of_nonneg_right h (two_zpow_pos _).le

theorem significand_le (a b : Nat) (hb : 0 < b) (q : Int) (k : Nat)
    (h : (a : ℚ) / b ≤ k * 2 ^ q) : Fp.significand a b q ≤ k := by
  obtain ⟨n, m, hm, e1, f1⟩ := significand_frac a b hb q
  rw [e1]
  apply roundHalfEven_le n m k hm
  rw [f1]
  calc (a : ℚ) / b * 2 ^ (-q) ≤ k * 2 ^ q * 2 ^ (-q) :=
      mul_le_mul_of_nonneg_right h (two_zpow_pos _).le
    _ = k := by
      rw [mul_assoc, ← zpow_add₀ (by norm_num : (2 : ℚ) ≠ 0)]; simp

theorem significand_ge (a b : Nat) (hb : 0 < b) (q : Int) (k : Nat)
    (h : (k : ℚ) * 2 ^ q ≤ (a : ℚ) / b) : k ≤ Fp.significand a b q := by
  obtain ⟨n, m, hm, e1, f1⟩ := significand_frac a b hb q
  rw [e1]
  apply roundHalfEven_ge n m k hm
  rw [f1]
  calc (k : ℚ) = k * 2 ^ q * 2 ^ (-q) := by
        rw [mul_assoc, ← zpow_add₀ (by norm_num : (2 : ℚ) ≠ 0)]; simp
    _ ≤ (a : ℚ) / b * 2 ^ (-q) := mul_le_mul_of_nonneg_right h (two_zpow_pos _).le

theorem reduce_spec : ∀ (k n : Nat),
    ((Fp.reduce n k).1 : ℚ) / 2 ^ (Fp.reduce n k).2 = (n : ℚ) / 2 ^ k := by
  intro k
  induction k with
  | zero => intro n; rfl
  | succ k ih =>
    intro n
    rw [Fp.reduce]
    by_cases h : n % 2 = 0
    · rw [if_pos h, ih]
      obtain ⟨m, rfl⟩ : ∃ m, n = 2 * m := ⟨n / 2, by omega⟩
      rw [Nat.mul_div_cancel_left m (by norm_num : 0 < 2), pow_succ]
      push_cast
      field_simp
      ring
    · rw [if_neg h]

theorem round_cases (fmt : FloatFormat) (a b : Nat) (ha : a ≠ 0) :
    (Fp.round fmt false a b = .inf false ∧
      (2 : ℚ) ^ ((fmt.emax : Int) + 1) ≤
        (Fp.significand a b (Fp.quantum fmt a b) : ℚ) * 2 ^ Fp.quantum fmt a b) ∨
    (∃ n k, Fp.round fmt false a b = .fin false n k ∧
      (n : ℚ) / 2 ^ k =
        (Fp.significand a b (Fp.quantum fmt a b) : ℚ) * 2 ^ Fp.quantum fmt a b ∧
      (Fp.significand a b (Fp.quantum fmt a b) : ℚ) * 2 ^ Fp.quantum fmt a b <
        2 ^ ((fmt.emax : Int) + 1)) := by
  unfold Fp.round
  rw [if_neg ha]
  generalize Fp.quantum fmt a b = q
  generalize Fp.significand a b q = N
  by_cases hN : N = 0
  · rw [if_pos hN]
    subst hN
    exact Or.inr ⟨0, 0, rfl, by simp, by simpa using two_zpow_pos _⟩
  · rw [if_neg hN]
    obtain ⟨l1, l2⟩ := bitLength_rat N hN
    generalize (bitLength N N 0 : Int) = L at l1 l2 ⊢
    by_cases hov : (fmt.emax : Int) < L - 1 + q
    · rw [if_pos hov]
      refine Or.inl ⟨rfl, ?_⟩
      calc (2 : ℚ) ^ ((fmt.emax : Int) + 1) ≤ 2 ^ (L - 1 + q) := two_zpow_le (by omega)
        _ = 2 ^ (L - 1) * 2 ^ q := zpow_add₀ (by norm_num) _ _
        _ ≤ N * 2 ^ q := mul_le_mul_of_nonneg_right l1 (two_zpow_pos _).le
    · rw [if_neg hov]
      have hlt : (N : ℚ) * 2 ^ q < 2 ^ ((fmt.emax : Int) + 1) := by
        calc (N : ℚ) * 2 ^ q < 2 ^ L * 2 ^ q := mul_lt_mul_of_pos_right l2 (two_zpow_pos _)
          _ = 2 ^ (L + q) := (zpow_add₀ (by norm_num) _ _).symm
          _ ≤ 2 ^ ((fmt.emax : Int) + 1) := two_zpow_le (by omega)
      by_cases hq : 0 ≤ q
      · rw [if_pos hq]
        obtain ⟨k, rfl⟩ := Int.eq_ofNat_of_zero_le hq
        refine Or.inr ⟨_, _, rfl, ?_, hlt⟩
        simp [zpow_natCast]
      · rw [if_neg hq]
        obtain ⟨k, hk⟩ : ∃ k : Nat, q = -(k : Int) := ⟨(-q).toNat, by omega⟩
        subst hk
        refine Or.inr ⟨_, _, rfl, ?_, hlt⟩
        simp only [neg_neg, Int.toNat_ofNat]
        rw [reduce_spec, zpow_neg, zpow_natCast]
        rfl

theorem round_value_mono (fmt : FloatFormat) (hp : 1 ≤ fmt.prec) (a b c d : Nat)
    (ha : a ≠ 0) (hb : b ≠ 0) (hc : c ≠ 0) (hd : d ≠ 0) (h : (a : ℚ) / b ≤ (c : ℚ) / d) :
    (Fp.significand a b (Fp.quantum fmt a b) : ℚ) * 2 ^ Fp.quantum fmt a b ≤
      (Fp.significand c d (Fp.quantum fmt c d) : ℚ) * 2 ^ Fp.quantum fmt c d := by
  obtain ⟨x1, x2⟩ := floorLog2_spec a b ha hb
  obtain ⟨y1, y2⟩ := floorLog2_spec c d hc hd
  have he : floorLog2 a b ≤ floorLog2 c d := by
    have := two_zpow_lt_imp (lt_of_le_of_lt (le_trans x1 h) y2)
    omega
  unfold Fp.quantum
  generalize floorLog2 a b = e at x1 x2 he ⊢
  generalize floorLog2 c d = e' at y1 y2 he ⊢
  generalize hq : max (e - ((fmt.prec : Int) - 1)) (2 - (fmt.emax : Int) - (fmt.prec : Int)) = q
  generalize hq' : max (e' - ((fmt.prec : Int) - 1)) (2 - (fmt.emax : Int) - (fmt.prec : Int)) = q'
  have hqq : q ≤ q' := by omega
  have hpow : ((2 ^ fmt.prec : Nat) : ℚ) = (2 : ℚ) ^ (fmt.prec : Int) := by
    rw [zpow_natCast]; push_cast; rfl
  have hN : Fp.significand a b q ≤ 2 ^ fmt.prec := by
    apply significand_le a b (Nat.pos_of_ne_zero hb) q
    rw [hpow, ← zpow_add₀ (by norm_num : (2 : ℚ) ≠ 0)]
    exact le_trans x2.le (two_zpow_le (by omega))
  have hNq : ((Fp.significand a b q : Nat) : ℚ) ≤ (2 : ℚ) ^ (fmt.prec : Int) := by
    rw [← hpow]; exact_mod_cast hN
  rcases eq_or_lt_of_le hqq with heq | hlt
  · subst heq
    have := significand_mono a b c d (Nat.pos_of_ne_zero hb) (Nat.pos_of_ne_zero hd) q h
    exact mul_le_mul_of_nonneg_right (by exact_mod_cast this) (two_zpow_pos _).le
  · have hq'e : q' = e' - ((fmt.prec : Int) - 1) := by omega
    have hpow' : ((2 ^ (fmt.prec - 1) : Nat) : ℚ) = (2 : ℚ) ^ ((fmt.prec : Int) - 1) := by
      have e1 : ((fmt.prec : Int) - 1) = ((fmt.prec - 1 : Nat) : Int) := by omega
      rw [e1, zpow_natCast]; push_cast; rfl
    have hN' : 2 ^ (fmt.prec - 1) ≤ Fp.significand c d q' := by
      apply significand_ge c d (Nat.pos_of_ne_zero hd) q'
      rw [hpow', ← zpow_add₀ (by norm_num : (2 : ℚ) ≠ 0)]
      exact le_trans (two_zpow_le (by omega)) y1
    have hNq' : (2 : ℚ) ^ ((fmt.prec : Int) - 1) ≤ ((Fp.significand c d q' : Nat) : ℚ) := by
      rw [← hpow']; exact_mod_cast hN'
    calc ((Fp.significand a b q : Nat) : ℚ) * 2 ^ q ≤ 2 ^ (fmt.prec : Int) * 2 ^ q :=
        mul_le_mul_of_nonneg_right hNq (two_zpow_pos _).le
      _ = 2 ^ ((fmt.prec : Int) + q) := (zpow_add₀ (by norm_num) _ _).symm
      _ ≤ 2 ^ ((fmt.prec : Int) - 1 + q') := two_zpow_le (by omega)
      _ = 2 ^ ((fmt.prec : Int) - 1) * 2 ^ q' := zpow_add₀ (by norm_num) _ _
      _ ≤ (Fp.significand c d q' : ℚ) * 2 ^ q' :=
        mul_le_mul_of_nonneg_right hNq' (two_zpow_pos _).le

theorem round_zero (fmt : FloatFormat) (s : Bool) (b : Nat) :
    Fp.round fmt s 0 b = .fin s 0 0 := by
  unfold Fp.round
  rw [if_pos rfl]

theorem round_nonneg (fmt : FloatFormat) (c d : Nat) :
    Fp.round fmt false c d = .inf false ∨ ∃ n k, Fp.round fmt false c d = .fin false n k := by
  unfold Fp.round
  split_ifs
  · exact Or.inr ⟨_, _, rfl⟩
  · exact Or.inr ⟨_, _, rfl⟩
  · exact Or.inl rfl
  · exact Or.inr ⟨_, _, rfl⟩
  · exact Or.inr ⟨_, _, rfl⟩

theorem Fp.round_mono (fmt : FloatFormat) (hp : 1 ≤ fmt.prec) (a b c d : Nat)
    (hb : b ≠ 0) (hd : d ≠ 0) (h : (a : ℚ) / b ≤ (c : ℚ) / d) :
    Fp.le (Fp.round fmt false a b) (Fp.round fmt false c d) = true := by
  by_cases ha : a = 0
  · subst ha
    rw [round_zero]
    rcases round_nonneg fmt c d with e | ⟨n, k, e⟩
    · rw [e]; rfl
    · rw [e]; simp [Fp.le]
  · have hbq : (0 : ℚ) < b := by exact_mod_cast Nat.pos_of_ne_zero hb
    have hdq : (0 : ℚ) < d := by exact_mod_cast Nat.pos_of_ne_zero hd
    have hc : c ≠ 0 := by
      intro hc
      subst hc
      have hpos : (0 : ℚ) < (a : ℚ) / b :=
        div_pos (by exact_mod_cast Nat.pos_of_ne_zero ha) hbq
      simp at h
      linarith
    have hv := round_value_mono fmt hp a b c d ha hb hc hd h
    rcases round_cases fmt a b ha with ⟨e1, v1⟩ | ⟨n, k, e1, v1, w1⟩ <;>
      rcases round_cases fmt c d hc with ⟨e2, v2⟩ | ⟨m, j, e2, v2, w2⟩
    · rw [e1, e2]; rfl
    · exact absurd (lt_of_le_of_lt (le_trans v1 hv) w2) (lt_irrefl _)
    · rw [e1, e2]; rfl
    · rw [e1, e2]
      simp only [Fp.le, decide_eq_true_eq]
      rw [cross_le, v1, v2]
      exact hv

theorem Fp.round_neg (fmt : FloatFormat) (a b : Nat) :
    Fp.round fmt true a b = (Fp.round fmt false a b).neg := by
  unfold Fp.round
  split_ifs <;> rfl

theorem Fp.le_neg_neg (x y : Fp) : Fp.le y.neg x.neg = Fp.le x y := by
  cases x with
  | nan => cases y <;> simp [Fp.le, Fp.neg]
  | inf s =>
    cases y with
    | nan => simp [Fp.le, Fp.neg]
    | inf t => cases s <;> cases t <;> rfl
    | fin t m j => cases s <;> cases t <;> rfl
  | fin s n k =>
    cases y with
    | nan => simp [Fp.le, Fp.neg]
    | inf t => cases s <;> cases t <;> rfl
    | fin t m j =>
      cases s <;> cases t <;> simp [Fp.le, Fp.neg, and_comm]

theorem Fp.toFloat_mono {x y : Fp} (h : Fp.le x y = true) :
    Fp.le x.toFloat y.toFloat = true := by
  have hp : 1 ≤ binary32.prec := by decide
  have h2 : ∀ k : Nat, (2 ^ k : Nat) ≠ 0 := fun k => (Nat.pow_pos (by norm_num)).ne'
  have hcast : ∀ k : Nat, (((2 ^ k : Nat) : ℚ)) = (2 : ℚ) ^ k := fun k => by push_cast; rfl
  have key : ∀ n k m j : Nat, n * 2 ^ j ≤ m * 2 ^ k →
      Fp.le (Fp.round binary32 false n (2 ^ k)) (Fp.round binary32 false m (2 ^ j)) = true := by
    intro n k m j hle
    apply Fp.round_mono binary32 hp n (2 ^ k) m (2 ^ j) (h2 k) (h2 j)
    rw [hcast, hcast]
    exact (cross_le n m k j).1 hle
  cases x with
  | nan => simp [Fp.le] at h
  | inf s =>
    cases y with
    | nan => simp [Fp.le] at h
    | inf t => exact h
    | fin t m j =>
      have hs : s = true := by simpa [Fp.le] using h
      subst hs
      simp only [Fp.toFloat]
      have := Fp.round_isNaN binary32 t m (2 ^ j)
      cases hr : Fp.round binary32 t m (2 ^ j) with
      | nan => rw [hr] at this; simp [Fp.isNaN] at this
      | inf u => rfl
      | fin u a b => rfl
  | fin s n k =>
    cases y with
    | nan => simp [Fp.le] at h
    | inf t =>
      have ht : t = false := by simpa [Fp.le] using h
      subst ht
      simp only [Fp.toFloat]
      have := Fp.round_isNaN binary32 s n (2 ^ k)
      cases hr : Fp.round binary32 s n (2 ^ k) with
      | nan => rw [hr] at this; simp [Fp.isNaN] at this
      | inf u => cases u <;> rfl
      | fin u a b => cases u <;> rfl
    | fin t m j =>
      cases s <;> cases t
      · simp only [Fp.le, decide_eq_true_eq] at h
        exact key n k m j h
      · simp only [Fp.le, decide_eq_true_eq] at h
        obtain ⟨rfl, rfl⟩ := h
        simp only [Fp.toFloat, round_zero]
        rfl
      · simp only [Fp.toFloat]
        rw [Fp.round_neg]
        rcases round_nonneg binary32 n (2 ^ k) with e1 | ⟨a, b, e1⟩ <;>
          rcases round_nonneg binary32 m (2 ^ j) with e2 | ⟨c, d, e2⟩ <;>
          rw [e1, e2] <;> rfl
      · simp only [Fp.le, decide_eq_true_eq] at h
        simp only [Fp.toFloat]
        rw [Fp.round_neg, Fp.round_neg binary32 m, Fp.le_neg_neg]
        exact key m j n k h

end Rounding

section Signs

theorem lt_zero_round (fmt : FloatFormat) (a b : Nat) :
    Fp.lt (Fp.round fmt false a b) (.fin false 0 0) = false := by
  rcases round_nonneg fmt a b with e | ⟨n, k, e⟩
  · rw [e]; rfl
  · rw [e]; simp [Fp.lt]

theorem sub_of_lt (fmt : FloatFormat) (a b : Fp) (h : Fp.lt a b = true) :
    Fp.sub fmt b a = .nan ∨ Fp.sub fmt b a = .inf false ∨
      ∃ c d, Fp.sub fmt b a = Fp.round fmt false c d ∨ Fp.sub fmt b a = .fin false c d := by
  cases a with
  | nan => simp [Fp.lt] at h
  | inf s =>
    cases b with
    | nan => simp [Fp.lt] at h
    | inf t =>
      cases s <;> cases t <;> simp [Fp.lt] at h
      exact Or.inr (Or.inl rfl)
    | fin t m j =>
      cases s <;> simp [Fp.lt] at h
      exact Or.inr (Or.inl rfl)
  | fin s n k =>
    cases b with
    | nan => simp [Fp.lt] at h
    | inf t =>
      cases t <;> simp [Fp.lt] at h
      exact Or.inr (Or.inl rfl)
    | fin t m j =>
      right; right
      cases s <;> cases t <;> simp only [Fp.lt, decide_eq_true_eq] at h
      · simp only [Fp.sub, Fp.neg, Fp.add, Bool.not_false]
        rw [if_neg (by decide), if_neg (by omega), if_pos h]
        exact ⟨_, _, Or.inl rfl⟩
      · exact absurd h (by simp)
      · simp only [Fp.sub, Fp.neg, Fp.add, Bool.not_true]
        rw [if_pos trivial]
        exact ⟨_, _, Or.inl rfl⟩
      · simp only [Fp.sub, Fp.neg, Fp.add, Bool.not_true]
        rw [if_neg (by decide), if_neg (by omega), if_neg (by omega)]
        exact ⟨_, _, Or.inl rfl⟩

theorem toFloat_of_nonneg (x : Fp)
    (h : x = .nan ∨ x = .inf false ∨
      ∃ c d, x = Fp.round binary64 false c d ∨ x = .fin false c d) :
    x.toFloat = .nan ∨ x.toFloat = .inf false ∨ ∃ n k, x.toFloat = .fin false n k := by
  have hfin : ∀ c d : Nat, (Fp.fin false c d).toFloat = .inf false ∨
      ∃ n k, (Fp.fin false c d).toFloat = .fin false n k :=
    fun c d => round_nonneg binary32 c (2 ^ d)
  rcases h with h | h | ⟨c, d, h | h⟩
  · rw [h]; exact Or.inl rfl
  · rw [h]; exact Or.inr (Or.inl rfl)
  · rw [h]
    rcases round_nonneg binary64 c d with e | ⟨n, k, e⟩
    · rw [e]; exact Or.inr (Or.inl rfl)
    · rw [e]; exact Or.inr (hfin n k)
  · rw [h]; exact Or.inr (hfin c d)

theorem lt_zero_sub (fmt : FloatFormat) (a b : Fp) (h : Fp.le a b = true) :
    Fp.lt (Fp.sub fmt b a) (.fin false 0 0) = false := by
  cases a with
  | nan => simp [Fp.le] at h
  | inf s =>
    cases b with
    | nan => simp [Fp.le] at h
    | inf t => cases s <;> cases t <;> simp [Fp.le] at h <;> rfl
    | fin t m j => cases s <;> cases t <;> simp [Fp.le] at h <;> rfl
  | fin s n k =>
    cases b with
    | nan => simp [Fp.le] at h
    | inf t => cases s <;> cases t <;> simp [Fp.le] at h <;> rfl
    | fin t m j =>
      cases s <;> cases t <;> simp only [Fp.le, decide_eq_true_eq] at h
      · simp only [Fp.sub, Fp.neg, Fp.add, Bool.not_false]
        rw [if_neg (by decide)]
        by_cases he : m * 2 ^ k = n * 2 ^ j
        · rw [if_pos he]; rfl
        · rw [if_neg he, if_pos (by omega)]
          exact lt_zero_round _ _ _
      · obtain ⟨rfl, rfl⟩ := h
        simp [Fp.sub, Fp.neg, Fp.add, round_zero, Fp.lt]
      · simp only [Fp.sub, Fp.neg, Fp.add, Bool.not_true]
        rw [if_pos trivial]
        exact lt_zero_round _ _ _
      · simp only [Fp.sub, Fp.neg, Fp.add, Bool.not_true]
        rw [if_neg (by decide)]
        by_cases he : m * 2 ^ k = n * 2 ^ j
        · rw [if_pos he]; rfl
        · rw [if_neg he, if_neg (by omega)]
          exact lt_zero_round _ _ _

theorem lt_zero_div (fmt : FloatFormat) (x y : Fp)
    (hx : Fp.lt x (.fin false 0 0) = false)
    (hy : y = .nan ∨ y = .inf false ∨ ∃ n k, y = .fin false n k) :
    Fp.lt (Fp.div fmt x y) (.fin false 0 0) = false := by
  rcases hy with rfl | rfl | ⟨m, j, rfl⟩
  · cases x <;> rfl
  · cases x with
    | nan => rfl
    | inf s => rfl
    | fin s n k => cases s <;> rfl
  · cases x with
    | nan => rfl
    | inf s =>
      cases s
      · rfl
      · simp [Fp.lt] at hx
    | fin s n k =>
      cases s
      · simp only [Fp.div, Bool.xor_false]
        split_ifs
        · rfl
        · rfl
        · exact lt_zero_round _ _ _
      · have hn : n = 0 := by simpa [Fp.lt] using hx
        subst hn
        simp only [Fp.div, Bool.xor_false]
        split_ifs
        · rfl
        · simp [round_zero, Fp.lt]

theorem factor_not_negative (timeCur keyCur keyNext : Fp)
    (hlt : Fp.lt keyCur keyNext = true) (hle : Fp.le keyCur.toFloat timeCur = true) :
    Fp.lt (Fp.div binary32 (Fp.sub binary32 timeCur keyCur.toFloat)
      (Fp.sub binary64 keyNext keyCur).toFloat) (.fin false 0 0) = false :=
  lt_zero_div _ _ _ (lt_zero_sub _ _ _ hle)
    (toFloat_of_nonneg _ (sub_of_lt binary64 _ _ hlt))

end Signs

section KeyFrames

variable {Q : Type}

theorem findPosition_eval :
    findPosition (.fin false 3 0) hipChannel = .ok 1 ∧
    findPosition (.fin false 9 0) hipChannel = .ok 2 ∧
    findPosition .nan hipChannel = .ok 2 ∧
    findPosition (.fin false 5 0) (aiNodeAnim.mk "bone" [] ([] : List (aiQuatKey Nat)) []) =
      .error Fault.outOfBounds := ⟨rfl, rfl, rfl, rfl⟩

theorem findKeyLoop_spec (t : Fp) (times : List Fp) (n : Nat) :
    ∀ i, i + n + 1 = times.length →
    (∃ r T, i ≤ r ∧ r + 1 < times.length ∧ times[r + 1]? = some T ∧
      Fp.lt t T.toFloat = true ∧
      (∀ j T', i < j → j ≤ r → times[j]? = some T' → Fp.lt t T'.toFloat = false) ∧
      findKeyLoop t times n i = .ok (some r)) ∨
    ((∀ j T', i < j → times[j]? = some T' → Fp.lt t T'.toFloat = false) ∧
      findKeyLoop t times n i = .ok none) := by
  induction n with
  | zero =>
    intro i hi
    refine Or.inr ⟨fun j T' hj hT => ?_, rfl⟩
    have hlt : j < times.length := by
      rcases Nat.lt_or_ge j times.length with h | h
      · exact h
      · rw [List.getElem?_eq_none h] at hT; exact absurd hT (by simp)
    omega
  | succ n ih =>
    intro i hi
    have hkey : times[i + 1]? = some times[i + 1] := List.getElem?_eq_getElem (by omega)
    by_cases hlt : Fp.lt t (times[i + 1]).toFloat = true
    · refine Or.inl ⟨i, _, le_rfl, by omega, hkey, hlt, fun j T' h1 h2 => by omega, ?_⟩
      simp only [findKeyLoop, load_of_getElem? hkey, bind, Except.bind, hlt, if_true]
      rfl
    · have hstep : findKeyLoop t times (n + 1) i = findKeyLoop t times n (i + 1) := by
        simp only [findKeyLoop, load_of_getElem? hkey, bind, Except.bind, hlt, if_false,
          Bool.false_eq_true]
      rw [hstep]
      have hhere : ∀ T', times[i + 1]? = some T' → Fp.lt t T'.toFloat = false := by
        intro T' hT
        rw [hkey] at hT
        rw [← Option.some.inj hT]
        simpa using hlt
      rcases ih (i + 1) (by omega) with ⟨r, T, h1, h2, h3, h4, h5, h6⟩ | ⟨h1, h2⟩
      · refine Or.inl ⟨r, T, by omega, h2, h3, h4, fun j T' k1 k2 k3 => ?_, h6⟩
        by_cases hji : j = i + 1
        · subst hji; exact hhere T' k3
        · exact h5 j T' (by omega) k2 k3
      · refine Or.inr ⟨fun j T' k1 k3 => ?_, h2⟩
        by_cases hji : j = i + 1
        · subst hji; exact hhere T' k3
        · exact h1 j T' (by omega) k3

theorem findKey_unfold (t : Fp) (times : List Fp) (last : Nat)
    (h : (times.length + 4294967296 - 1) % 4294967296 = last) :
    findKey t times =
      (findKeyLoop t times last 0 >>= fun found =>
        match found with
        | some i => pure i
        | none => pure last) := by
  subst h
  rfl

theorem findKey_spec (t : Fp) (times : List Fp) (hn : 1 ≤ times.length)
    (hn32 : times.length < 4294967296) :
    ∃ i, findKey t times = .ok i ∧ i < times.length ∧
      (i + 1 < times.length → ∃ T, times[i + 1]? = some T ∧ Fp.lt t T.toFloat = true) ∧
      (∀ j T, 1 ≤ j → j ≤ i → times[j]? = some T → Fp.lt t T.toFloat = false) := by
  have hlast : (times.length + 4294967296 - 1) % 4294967296 = times.length - 1 := by omega
  rcases findKeyLoop_spec t times (times.length - 1) 0 (by omega) with
    ⟨r, T, _, h2, h3, h4, h5, h6⟩ | ⟨h1, h2⟩
  · refine ⟨r, ?_, by omega, fun _ => ⟨T, h3, h4⟩, fun j T' hj1 hjr hT => h5 j T' (by omega) hjr hT⟩
    rw [findKey_unfold t times _ hlast, h6]
    rfl
  · refine ⟨times.length - 1, ?_, by omega, fun h => by omega,
      fun j T' hj1 _ hT => h1 j T' (by omega) hT⟩
    rw [findKey_unfold t times _ hlast, h2]
    rfl

theorem findKey_mono (t t' : Fp) (times : List Fp) (hn : 1 ≤ times.length)
    (hn32 : times.length < 4294967296) (hle : Fp.le t t' = true) (i i' : Nat)
    (hi : findKey t times = .ok i) (hi' : findKey t' times = .ok i') : i ≤ i' := by
  obtain ⟨r, hr, _, _, hbefore⟩ := findKey_spec t times hn hn32
  obtain ⟨r', hr', hlt', hnext', _⟩ := findKey_spec t' times hn hn32
  rw [hi] at hr
  rw [hi'] at hr'
  have e1 : i = r := Except.ok.inj hr
  have e2 : i' = r' := Except.ok.inj hr'
  subst e1 e2
  by_contra hc
  obtain ⟨T, hT, hltT⟩ := hnext' (by omega)
  have := hbefore (i' + 1) T (by omega) (by omega) hT
  rw [Fp.le_lt_trans hle hltT] at this
  exact absurd this (by simp)

theorem time?_eq (nodeAnim : aiNodeAnim Q) (j : Nat) :
    nodeAnim.time? j =
      ((nodeAnim.mPositionKeys.map (fun key => key.mTime))[j]?).map Fp.toFloat := by
  simp [aiNodeAnim.time?, List.getElem?_map, Option.map_map, Function.comp_def]

theorem time?_defined (nodeAnim : aiNodeAnim Q) (j : Nat) (h : j < nodeAnim.mNumPositionKeys) :
    ∃ key, nodeAnim.mPositionKeys[j]? = some key ∧
      (nodeAnim.mPositionKeys.map (fun key => key.mTime))[j]? = some key.mTime ∧
      nodeAnim.time? j = some key.mTime.toFloat := by
  have hlt : j < nodeAnim.mPositionKeys.length := h
  refine ⟨_, List.getElem?_eq_getElem hlt, ?_, ?_⟩
  · simp [List.getElem?_map, List.getElem?_eq_getElem hlt]
  · simp [aiNodeAnim.time?, List.getElem?_eq_getElem hlt]

theorem pairwise_le_isNaN (times : List Fp) (hmono : times.Pairwise (fun a b => Fp.le a b = true))
    (j : Nat) (T : Fp) (hj : 1 ≤ j) (hT : times[j]? = some T) : T.toFloat.isNaN = false := by
  have hlt : j < times.length := by
    rcases Nat.lt_or_ge j times.length with h | h
    · exact h
    · rw [List.getElem?_eq_none h] at hT; exact absurd hT (by simp)
  have h0 : 0 < times.length := by omega
  have hle := List.pairwise_iff_getElem.1 hmono 0 j h0 hlt (by omega)
  rw [List.getElem?_eq_getElem hlt] at hT
  rw [Fp.toFloat_isNaN, ← Option.some.inj hT]
  exact (Fp.le_isNaN hle).2

/-- C14 (counterexample): with two position keys at the `double` times `0` and `16777217`
(non-decreasing) and `t = 16777216` the code compares `t` with `(float)16777217`, which
is `16777216`, and returns `1 = n-1` although `t >= time[1]` is false; and for `t = NaN`
it returns `n-1` although `time[1] <= t` is false. -/
theorem C14_findPosition_counterexample :
    (1 ≤ roundedChannel.mNumPositionKeys ∧
      (roundedChannel.mPositionKeys.map (fun key => key.mTime)).Pairwise
        (fun a b => Fp.le a b = true) ∧
      roundedChannel.mNumPositionKeys - 1 = 1 ∧
      (roundedChannel.mPositionKeys.map (fun key => key.mTime))[1]? =
        some (.fin false 16777217 0) ∧
      findPosition (.fin false 16777216 0) roundedChannel = .ok 1 ∧
      Fp.le (.fin false 16777217 0) (.fin false 16777216 0) = false) ∧
    (findPosition .nan roundedChannel = .ok 1 ∧
      Fp.le (.fin false 16777217 0) .nan = false ∧
      Fp.le (Fp.fin false 16777217 0).toFloat .nan = false) :=
  ⟨⟨by decide, by decide, rfl, rfl, rfl, rfl⟩, rfl, rfl, rfl⟩

/-- C14 (amended): for a node animation with `n >= 1` position keys whose times are
non-decreasing and every time `t` that is not NaN, with `time[j]` read as the code
compares it, `(float)mPositionKeys[j].mTime`, `findPosition` returns an index `i < n`; if
`i < n-1` then `t < time[i+1]`; `time[j] <= t` for every `1 <= j <= i`; `i == n-1`
exactly when `time[j] <= t` for every `j >= 1`; and for `time[0] <= t < time[n-1]` the
result brackets `t`: `time[i] <= t < time[i+1]`. -/
theorem C14_findPosition (nodeAnim : aiNodeAnim Q) (t : Fp)
    (hn : 1 ≤ nodeAnim.mNumPositionKeys) (hn32 : nodeAnim.mNumPositionKeys < 4294967296)
    (hmono : (nodeAnim.mPositionKeys.map (fun key => key.mTime)).Pairwise
      (fun a b => Fp.le a b = true))
    (ht : t.isNaN = false) :
    ∃ i, findPosition t nodeAnim = .ok i ∧ i < nodeAnim.mNumPositionKeys ∧
      (i < nodeAnim.mNumPositionKeys - 1 →
        ∃ tn, nodeAnim.time? (i + 1) = some tn ∧ Fp.lt t tn = true) ∧
      (∀ j, 1 ≤ j → j ≤ i → ∃ tj, nodeAnim.time? j = some tj ∧ Fp.le tj t = true) ∧
      (i = nodeAnim.mNumPositionKeys - 1 ↔
        ∀ j, 1 ≤ j → j < nodeAnim.mNumPositionKeys →
          ∃ tj, nodeAnim.time? j = some tj ∧ Fp.le tj t = true) ∧
      (∀ t0 tl, nodeAnim.time? 0 = some t0 →
        nodeAnim.time? (nodeAnim.mNumPositionKeys - 1) = some tl →
        Fp.le t0 t = true → Fp.lt t tl = true →
        ∃ ti tn, nodeAnim.time? i = some ti ∧ nodeAnim.time? (i + 1) = some tn ∧
          Fp.le ti t = true ∧ Fp.lt t tn = true) := by
  have hlen : (nodeAnim.mPositionKeys.map (fun key => key.mTime)).length =
      nodeAnim.mNumPositionKeys := by simp [aiNodeAnim.mNumPositionKeys]
  obtain ⟨i, hi, hlt, hnext, hbefore⟩ :=
    findKey_spec t (nodeAnim.mPositionKeys.map (fun key => key.mTime)) (by omega) (by omega)
  rw [hlen] at hlt hnext
  have hle : ∀ j, 1 ≤ j → j ≤ i → ∃ tj, nodeAnim.time? j = some tj ∧ Fp.le tj t = true := by
    intro j hj1 hji
    obtain ⟨key, _, hT, htime⟩ := time?_defined nodeAnim j (by omega)
    exact ⟨_, htime, Fp.le_of_not_lt ht (pairwise_le_isNaN _ hmono j _ hj1 hT)
      (hbefore j _ hj1 hji hT)⟩
  have hnext' : i < nodeAnim.mNumPositionKeys - 1 →
      ∃ tn, nodeAnim.time? (i + 1) = some tn ∧ Fp.lt t tn = true := by
    intro h
    obtain ⟨T, hT, hltT⟩ := hnext (by omega)
    refine ⟨T.toFloat, ?_, hltT⟩
    rw [time?_eq, hT]
    rfl
  have hiff : i = nodeAnim.mNumPositionKeys - 1 ↔
      ∀ j, 1 ≤ j → j < nodeAnim.mNumPositionKeys →
        ∃ tj, nodeAnim.time? j = some tj ∧ Fp.le tj t = true := by
    constructor
    · intro h j hj1 hjn
      exact hle j hj1 (by omega)
    · intro h
      by_contra hne
      obtain ⟨tn, htn, hltn⟩ := hnext' (by omega)
      obtain ⟨tj, htj, hlej⟩ := h (i + 1) (by omega) (by omega)
      rw [htn] at htj
      rw [← Option.some.inj htj, Fp.not_le_of_lt hltn] at hlej
      exact absurd hlej (by simp)
  refine ⟨i, hi, hlt, hnext', hle, hiff, fun t0 tl ht0 htl h0 hl => ?_⟩
  have hlast : i < nodeAnim.mNumPositionKeys - 1 := by
    by_contra hc
    have hieq : i = nodeAnim.mNumPositionKeys - 1 := by omega
    by_cases hn1 : nodeAnim.mNumPositionKeys - 1 = 0
    · rw [hn1, ht0] at htl
      rw [Option.some.inj htl, Fp.not_le_of_lt hl] at h0
      exact absurd h0 (by simp)
    · obtain ⟨tj, htj, hlej⟩ := hle (nodeAnim.mNumPositionKeys - 1) (by omega) (by omega)
      rw [htl] at htj
      rw [← Option.some.inj htj, Fp.not_le_of_lt hl] at hlej
      exact absurd hlej (by simp)
  obtain ⟨tn, htn, hltn⟩ := hnext' hlast
  by_cases hi0 : i = 0
  · subst hi0
    exact ⟨t0, tn, ht0, htn, h0, hltn⟩
  · obtain ⟨ti, hti, hlei⟩ := hle i (by omega) le_rfl
    exact ⟨ti, tn, hti, htn, hlei, hltn⟩

/-- C14 at the three position keys of `hipChannel`, with the times `0, 2, 4`, and `t = 3`:
the result is `1`, and `2 <= 3 < 4`. -/
theorem C14_findPosition_witness :
    1 ≤ hipChannel.mNumPositionKeys ∧ hipChannel.mNumPositionKeys < 4294967296 ∧
    (hipChannel.mPositionKeys.map (fun key => key.mTime)).Pairwise
      (fun a b => Fp.le a b = true) ∧
    (Fp.fin false 3 0).isNaN = false ∧
    ∃ i, findPosition (.fin false 3 0) hipChannel = .ok i ∧ i < 3 ∧
      ∃ ti tn, hipChannel.time? i = some ti ∧ hipChannel.time? (i + 1) = some tn ∧
        Fp.le ti (.fin false 3 0) = true ∧ Fp.lt (.fin false 3 0) tn = true :=
  ⟨by decide, by decide, by decide, rfl,
    match C14_findPosition hipChannel (.fin false 3 0) (by decide) (by decide) (by decide)
      rfl with
    | ⟨i, hi, hlt, _, _, _, hbr⟩ =>
      ⟨i, hi, hlt, hbr (.fin false 0 0) (.fin false 4 0) rfl rfl rfl rfl⟩⟩

end KeyFrames

section Interpolation

variable {Q : Type}

theorem findKey_bracket (t : Fp) (times : List Fp) (hn : 1 ≤ times.length)
    (hn32 : times.length < 4294967296)
    (hmono : (times.map Fp.toFloat).Pairwise (fun a b => Fp.le a b = true))
    (i : Nat) (Ti Tn : Fp) (hTi : times[i]? = some Ti) (hTn : times[i + 1]? = some Tn)
    (hle : Fp.le Ti.toFloat t = true) (hlt : Fp.lt t Tn.toFloat = true) :
    findKey t times = .ok i := by
  obtain ⟨r, hr, hrlt, hnext, hbefore⟩ := findKey_spec t times hn hn32
  have hin : i + 1 < times.length := by
    rcases Nat.lt_or_ge (i + 1) times.length with h | h
    · exact h
    · rw [List.getElem?_eq_none h] at hTn; exact absurd hTn (by simp)
  rcases Nat.lt_trichotomy r i with hlt' | heq | hgt
  · exfalso
    obtain ⟨T, hT, hltT⟩ := hnext (by omega)
    have hleT : Fp.le T.toFloat Ti.toFloat = true := by
      by_cases hri : r + 1 = i
      · rw [hri, hTi] at hT
        rw [← Option.some.inj hT]
        exact Fp.le_self (Fp.le_isNaN hle).1
      · have h1 : r + 1 < (times.map Fp.toFloat).length := by simp; omega
        have h2 : i < (times.map Fp.toFloat).length := by simp; omega
        have := List.pairwise_iff_getElem.1 hmono (r + 1) i h1 h2 (by omega)
        rw [List.getElem?_eq_getElem (by omega)] at hT hTi
        simp only [List.getElem_map] at this
        rw [← Option.some.inj hT, ← Option.some.inj hTi]
        exact this
    have := Fp.not_le_of_lt hltT
    rw [Fp.le_le_trans hleT hle] at this
    exact absurd this (by simp)
  · rw [hr, heq]
  · exfalso
    have := hbefore (i + 1) Tn (by omega) (by omega) hTn
    rw [hlt] at this
    exact absurd this (by simp)

theorem findPosition_defined (nodeAnim : aiNodeAnim Q) (t : Fp)
    (hn : 1 ≤ nodeAnim.mNumPositionKeys) (hn32 : nodeAnim.mNumPositionKeys < 4294967296) :
    ∃ i key, findPosition t nodeAnim = .ok i ∧ nodeAnim.mPositionKeys[i]? = some key ∧
      i < nodeAnim.mNumPositionKeys := by
  have hlen : (nodeAnim.mPositionKeys.map (fun key => key.mTime)).length =
      nodeAnim.mNumPositionKeys := by simp [aiNodeAnim.mNumPositionKeys]
  obtain ⟨i, hi, hlt, _⟩ :=
    findKey_spec t (nodeAnim.mPositionKeys.map (fun key => key.mTime)) (by omega) (by omega)
  rw [hlen] at hlt
  exact ⟨i, _, hi, List.getElem?_eq_getElem (show i < nodeAnim.mPositionKeys.length from hlt),
    hlt⟩

theorem mem_of_getElem?_eq {α : Type} {l : List α} {i : Nat} {a : α} (h : l[i]? = some a) :
    a ∈ l := by
  rw [List.getElem?_eq_some] at h
  obtain ⟨hi, rfl⟩ := h
  exact List.getElem_mem hi

theorem calcInterpolatedPositionStep_spec (nodeAnim : aiNodeAnim Q) (anim : animframes_t)
    (out : aiVector3D) (hn : 1 ≤ nodeAnim.mNumPositionKeys)
    (hn32 : nodeAnim.mNumPositionKeys < 4294967296)
    (hmono : (nodeAnim.mPositionKeys.map (fun key => key.mTime.toFloat)).Pairwise
      (fun a b => Fp.le a b = true))
    (hcur : anim.interpolates = true → Fp.le anim.timeCur anim.end_ = true) :
    ∃ sample, calcInterpolatedPositionStep nodeAnim anim out =
        .ok (out.add (sample.scale anim.blend)) ∧ nodeAnim.IsSample anim sample := by
  have hlen : (nodeAnim.mPositionKeys.map (fun key => key.mTime)).length =
      nodeAnim.mNumPositionKeys := by simp [aiNodeAnim.mNumPositionKeys]
  have hmono' : ((nodeAnim.mPositionKeys.map (fun key => key.mTime)).map Fp.toFloat).Pairwise
      (fun a b => Fp.le a b = true) := by
    simpa [List.map_map, Function.comp_def] using hmono
  by_cases h1 : Fp.lt (.fin false 1 0) anim.animLength = true
  · by_cases h2 : (anim.loop || Fp.lt anim.ticks anim.animLength) = true
    · have hint : anim.interpolates = true := by
        simp only [animframes_t.interpolates, h1, h2, Bool.and_self]
      obtain ⟨iBeg, keyBeg, hB, hkB, hBlt⟩ := findPosition_defined nodeAnim anim.begin hn hn32
      obtain ⟨iCur, keyCur, hC, hkC, hClt⟩ := findPosition_defined nodeAnim anim.timeCur hn hn32
      obtain ⟨iEnd, keyEnd, hE, hkE, hElt⟩ := findPosition_defined nodeAnim anim.end_ hn hn32
      have hCE : iCur ≤ iEnd :=
        findKey_mono anim.timeCur anim.end_ _ (by omega) (by omega) (hcur hint) iCur iEnd hC hE
      have hnext : (if iCur = iEnd then iBeg else (iCur + 1) % 4294967296) <
          nodeAnim.mPositionKeys.length := by
        have hl : nodeAnim.mPositionKeys.length = nodeAnim.mNumPositionKeys := rfl
        split_ifs <;> omega
      obtain ⟨keyNext, hkN⟩ : ∃ key, nodeAnim.mPositionKeys[if iCur = iEnd then iBeg else
          (iCur + 1) % 4294967296]? = some key := ⟨_, List.getElem?_eq_getElem hnext⟩
      refine ⟨interpolatedSample anim keyCur keyNext, ?_,
        fun _ i kc kn hkc hkn hle hlt hend => ?_, fun hf => ?_⟩
      · unfold calcInterpolatedPositionStep
        rw [if_pos h1, if_pos h2, hB, ok_bind, hC, ok_bind, hE, ok_bind]
        dsimp only
        rw [load_of_getElem? hkN, ok_bind, load_of_getElem? hkC, ok_bind]
        rfl
      · have hCi : findKey anim.timeCur (nodeAnim.mPositionKeys.map (fun key => key.mTime)) =
            .ok i := by
          refine findKey_bracket anim.timeCur _ (by omega) (by omega) hmono' i kc.mTime kn.mTime
            ?_ ?_ hle hlt
          · simp [List.getElem?_map, hkc]
          · simp [List.getElem?_map, hkn]
        have e1 : iCur = i := by
          have : Except.ok iCur = (Except.ok i : Except Fault Nat) := by
            rw [← hC, ← hCi]; rfl
          exact Except.ok.inj this
        subst e1
        have hne : iCur ≠ iEnd := by
          intro heq
          have hlenE : iEnd + 1 < (nodeAnim.mPositionKeys.map (fun key => key.mTime)).length := by
            rcases Nat.lt_or_ge (iCur + 1) nodeAnim.mPositionKeys.length with h | h
            · simp; omega
            · rw [List.getElem?_eq_none h] at hkn; exact absurd hkn (by simp)
          obtain ⟨r, hr, _, hnx, _⟩ := findKey_spec anim.end_
            (nodeAnim.mPositionKeys.map (fun key => key.mTime)) (by omega) (by omega)
          have e2 : iEnd = r := by
            have : Except.ok iEnd = (Except.ok r : Except Fault Nat) := by
              rw [← hE, ← hr]; rfl
            exact Except.ok.inj this
          subst e2
          obtain ⟨T, hT, hltT⟩ := hnx hlenE
          rw [← heq] at hT
          simp only [List.getElem?_map, hkn, Option.map_some'] at hT
          rw [← Option.some.inj hT, hend] at hltT
          exact absurd hltT (by simp)
        have hidx : (if iCur = iEnd then iBeg else (iCur + 1) % 4294967296) = iCur + 1 := by
          rw [if_neg hne]
          have : iCur + 1 < nodeAnim.mPositionKeys.length := by
            rcases Nat.lt_or_ge (iCur + 1) nodeAnim.mPositionKeys.length with h | h
            · exact h
            · rw [List.getElem?_eq_none h] at hkn; exact absurd hkn (by simp)
          have hl : nodeAnim.mPositionKeys.length = nodeAnim.mNumPositionKeys := rfl
          omega
        rw [hkc] at hkC
        rw [hidx, hkn] at hkN
        rw [Option.some.inj hkC, Option.some.inj hkN]
      · rw [hint] at hf
        exact absurd hf (by simp)
    · have hint : anim.interpolates = false := by
        simp only [animframes_t.interpolates, h1, Bool.true_and]
        simpa using h2
      obtain ⟨iEnd, keyEnd, hE, hkE, _⟩ := findPosition_defined nodeAnim anim.end_ hn hn32
      refine ⟨keyEnd.mValue, ?_, fun ht => ?_, fun _ => ⟨keyEnd, mem_of_getElem?_eq hkE, rfl⟩⟩
      · unfold calcInterpolatedPositionStep
        rw [if_pos h1, if_neg h2, hE, ok_bind, load_of_getElem? hkE, ok_bind]
        rfl
      · rw [hint] at ht
        exact absurd ht (by simp)
  · have hint : anim.interpolates = false := by
      simp only [animframes_t.interpolates]
      simp [h1]
    obtain ⟨iBeg, keyBeg, hB, hkB, _⟩ := findPosition_defined nodeAnim anim.begin hn hn32
    refine ⟨keyBeg.mValue, ?_, fun ht => ?_, fun _ => ⟨keyBeg, mem_of_getElem?_eq hkB, rfl⟩⟩
    · unfold calcInterpolatedPositionStep
      rw [if_neg h1, hB, ok_bind, load_of_getElem? hkB, ok_bind]
      rfl
    · rw [hint] at ht
      exact absurd ht (by simp)

theorem contents_getElem? (l : ArrayList animframes_t) (i : Nat) (hi : i < l.size) :
    l.contents[i]? = l.arr[i]? := by
  simp [ArrayList.contents, List.getElem?_take, hi]

theorem blendSum_cons (out : aiVector3D) (anim : animframes_t) (tracks : List animframes_t)
    (sample : aiVector3D) (samples : List aiVector3D) :
    blendSum out (anim :: tracks) (sample :: samples) =
      blendSum (out.add (sample.scale anim.blend)) tracks samples := rfl

theorem calcInterpolatedPositionLoop_spec (nodeAnim : aiNodeAnim Q)
    (animations : ArrayList animframes_t) (hwf : animations.wf)
    (hn : 1 ≤ nodeAnim.mNumPositionKeys) (hn32 : nodeAnim.mNumPositionKeys < 4294967296)
    (hmono : (nodeAnim.mPositionKeys.map (fun key => key.mTime.toFloat)).Pairwise
      (fun a b => Fp.le a b = true))
    (hcur : ∀ anim, anim ∈ animations.contents → anim.interpolates = true →
      Fp.le anim.timeCur anim.end_ = true) (n : Nat) :
    ∀ (animIndex : Nat) (out : aiVector3D), animIndex + n = animations.size →
    ∃ samples : List aiVector3D, samples.length = n ∧
      calcInterpolatedPositionLoop animations nodeAnim n animIndex out =
        .ok (blendSum out (animations.contents.drop animIndex) samples) ∧
      ∀ (k : Nat) (anim : animframes_t), (animations.contents.drop animIndex)[k]? = some anim →
        ∃ sample, samples[k]? = some sample ∧ nodeAnim.IsSample anim sample := by
  induction n with
  | zero =>
    intro animIndex out _
    refine ⟨[], rfl, ?_, fun k anim hk => ?_⟩
    · simp [calcInterpolatedPositionLoop, blendSum]
    · have hlen : animations.contents.length ≤ animIndex := by
        simp only [ArrayList.contents, List.length_take]
        omega
      rw [List.drop_eq_nil_of_le hlen] at hk
      exact absurd hk (by simp)
  | succ n ih =>
    intro animIndex out hidx
    obtain ⟨anim, harr, hsub⟩ := subscript_defined hwf (show animIndex < animations.size by omega)
    have hc : animations.contents[animIndex]? = some anim := by
      rw [contents_getElem? animations animIndex (by omega), harr]
    have hlt : animIndex < animations.contents.length := by
      rcases Nat.lt_or_ge animIndex animations.contents.length with h | h
      · exact h
      · rw [List.getElem?_eq_none h] at hc; exact absurd hc (by simp)
    have hget : animations.contents[animIndex] = anim := by
      rw [List.getElem?_eq_getElem hlt] at hc
      exact Option.some.inj hc
    have hdrop : animations.contents.drop animIndex =
        anim :: animations.contents.drop (animIndex + 1) := by
      rw [List.drop_eq_getElem_cons hlt, hget]
    obtain ⟨sample, hstep, hsample⟩ := calcInterpolatedPositionStep_spec nodeAnim anim out hn hn32
      hmono (hcur anim (mem_of_getElem?_eq hc))
    obtain ⟨samples, hlen, hloop, hall⟩ :=
      ih (animIndex + 1) (out.add (sample.scale anim.blend)) (by omega)
    refine ⟨sample :: samples, by simp [hlen], ?_, fun k a hk => ?_⟩
    · rw [calcInterpolatedPositionLoop, hsub, ok_bind, hstep, ok_bind, hloop, hdrop,
        blendSum_cons]
    · rw [hdrop] at hk
      cases k with
      | zero =>
        simp only [List.getElem?_cons_zero, Option.some.injEq] at hk
        subst hk
        exact ⟨sample, List.getElem?_cons_zero, hsample⟩
      | succ k =>
        simp only [List.getElem?_cons_succ] at hk
        obtain ⟨x, hx, hxs⟩ := hall k a hk
        exact ⟨x, by simpa using hx, hxs⟩

theorem calcInterpolatedPosition_eval :
    calcInterpolatedPosition aiVector3D.zero steepTracks steepChannel =
      .ok ⟨.fin false 8388609 23, .fin false 0 0, .fin false 0 0⟩ ∧
    calcInterpolatedPosition aiVector3D.zero walkTracks hipChannel = .ok (.ofNat 1) ∧
    calcInterpolatedPosition aiVector3D.zero tieTracks tieChannel = .ok (.ofNat 1) ∧
    calcInterpolatedPosition aiVector3D.zero nanTracks hipChannel = .error Fault.outOfBounds ∧
    calcInterpolatedPosition aiVector3D.zero farTracks farChannel = .ok ⟨.nan, .nan, .nan⟩ :=
  ⟨rfl, rfl, rfl, rfl, rfl⟩

/-- C13 (counterexample): four inputs with at least two position keys at strictly
increasing times. (1) Key times `16777217 < 16777219 < 67108864`, a track from `0` to
`67108864` with `ticks = 16777218`: the current time `t = 16777218` lies in the first
key interval, which does not contain the end time, and the claim gives `f = 1/2`; the
code computes `f = (t - (float)time_0) / (float)(time_1 - time_0) = 2 / 2 = 1`, which is
not below `1`, and returns `k_1 = (1,0,0)` instead of `(1/2,0,0)`. (2) A looping track
whose `ticks` is NaN: the current time is NaN, the key index of the current time is the
last one, and the code reads the key after the last: there is no output. (3) Key times
`-2^200 < 0 < 8`, a track from `-2` to `8` with `ticks = 1`: the current time `t = -1`
lies in the first key interval, `(float)time_0` is `-inf`, and the code computes
`f = inf / inf = NaN`, for which `0 <= f` is false. (4) Key times `-16777219 < -3/4 < 8`,
a track from `-1` to `3` with `ticks = 1/8`: the current time `t = -7/8` lies in the
first key interval for the times themselves and for their `float` casts, and
`t - time_0 < time_1 - time_0`, so the claim has `f < 1`; the code computes
`f = 16777220 / 16777218`, rounded `1 + 2^-23`, which is above `1`. -/
theorem C13_calcInterpolatedPosition_counterexample :
    (2 ≤ tieChannel.mNumPositionKeys ∧
      (tieChannel.mPositionKeys.map (fun key => key.mTime)).Pairwise
        (fun a b => Fp.lt a b = true) ∧
      tieTracks.contents =
        [⟨.fin false 0 0, .fin false 67108864 0, .fin false 16777218 0, false, .fin false 1 0⟩] ∧
      (animframes_t.mk (.fin false 0 0) (.fin false 67108864 0) (.fin false 16777218 0) false
        (.fin false 1 0)).interpolates = true ∧
      (animframes_t.mk (.fin false 0 0) (.fin false 67108864 0) (.fin false 16777218 0) false
        (.fin false 1 0)).timeCur = .fin false 16777218 0 ∧
      Fp.le (.fin false 16777217 0) (.fin false 16777218 0) = true ∧
      Fp.lt (.fin false 16777218 0) (.fin false 16777219 0) = true ∧
      Fp.lt (.fin false 67108864 0) (.fin false 16777219 0) = false ∧
      Fp.div binary64 (Fp.sub binary64 (.fin false 16777218 0) (.fin false 16777217 0))
        (Fp.sub binary64 (.fin false 16777219 0) (.fin false 16777217 0)) = .fin false 1 1 ∧
      Fp.div binary32 (Fp.sub binary32 (.fin false 16777218 0) (Fp.fin false 16777217 0).toFloat)
        (Fp.sub binary64 (.fin false 16777219 0) (.fin false 16777217 0)).toFloat =
          .fin false 1 0 ∧
      Fp.lt (.fin false 1 0) (.fin false 1 0) = false ∧
      calcInterpolatedPosition aiVector3D.zero tieTracks tieChannel =
        .ok ⟨.fin false 1 0, .fin false 0 0, .fin false 0 0⟩) ∧
    (2 ≤ hipChannel.mNumPositionKeys ∧
      (hipChannel.mPositionKeys.map (fun key => key.mTime)).Pairwise
        (fun a b => Fp.lt a b = true) ∧
      calcInterpolatedPosition aiVector3D.zero nanTracks hipChannel =
        .error Fault.outOfBounds) ∧
    (2 ≤ farChannel.mNumPositionKeys ∧
      (farChannel.mPositionKeys.map (fun key => key.mTime)).Pairwise
        (fun a b => Fp.lt a b = true) ∧
      farTracks.contents =
        [⟨.fin true 2 0, .fin false 8 0, .fin false 1 0, false, .fin false 1 0⟩] ∧
      (animframes_t.mk (.fin true 2 0) (.fin false 8 0) (.fin false 1 0) false
        (.fin false 1 0)).interpolates = true ∧
      (animframes_t.mk (.fin true 2 0) (.fin false 8 0) (.fin false 1 0) false
        (.fin false 1 0)).timeCur = .fin true 1 0 ∧
      Fp.le (.fin true (2 ^ 200) 0) (.fin true 1 0) = true ∧
      Fp.lt (.fin true 1 0) (.fin false 0 0) = true ∧
      Fp.lt (.fin false 8 0) (.fin false 0 0) = false ∧
      Fp.div binary32 (Fp.sub binary32 (.fin true 1 0) (Fp.fin true (2 ^ 200) 0).toFloat)
        (Fp.sub binary64 (.fin false 0 0) (.fin true (2 ^ 200) 0)).toFloat = .nan ∧
      Fp.le (.fin false 0 0) .nan = false ∧
      calcInterpolatedPosition aiVector3D.zero farTracks farChannel =
        .ok ⟨.nan, .nan, .nan⟩) ∧
    (2 ≤ steepChannel.mNumPositionKeys ∧
      (steepChannel.mPositionKeys.map (fun key => key.mTime)).Pairwise
        (fun a b => Fp.lt a b = true) ∧
      steepTracks.contents =
        [⟨.fin true 1 0, .fin false 3 0, .fin false 1 3, false, .fin false 1 0⟩] ∧
      (animframes_t.mk (.fin true 1 0) (.fin false 3 0) (.fin false 1 3) false
        (.fin false 1 0)).interpolates = true ∧
      (animframes_t.mk (.fin true 1 0) (.fin false 3 0) (.fin false 1 3) false
        (.fin false 1 0)).timeCur = .fin true 7 3 ∧
      Fp.le (.fin true 16777219 0) (.fin true 7 3) = true ∧
      Fp.lt (.fin true 7 3) (.fin true 3 2) = true ∧
      Fp.le (Fp.fin true 16777219 0).toFloat (.fin true 7 3) = true ∧
      Fp.lt (.fin true 7 3) (Fp.fin true 3 2).toFloat = true ∧
      Fp.lt (.fin false 3 0) (Fp.fin true 3 2).toFloat = false ∧
      Fp.lt (Fp.sub binary64 (.fin true 7 3) (.fin true 16777219 0))
        (Fp.sub binary64 (.fin true 3 2) (.fin true 16777219 0)) = true ∧
      Fp.div binary32 (Fp.sub binary32 (.fin true 7 3) (Fp.fin true 16777219 0).toFloat)
        (Fp.sub binary64 (.fin true 3 2) (.fin true 16777219 0)).toFloat =
          .fin false 8388609 23 ∧
      Fp.lt (.fin false 1 0) (.fin false 8388609 23) = true ∧
      calcInterpolatedPosition aiVector3D.zero steepTracks steepChannel =
        .ok ⟨.fin false 8388609 23, .fin false 0 0, .fin false 0 0⟩) :=
  ⟨⟨by decide, by decide, rfl, rfl, rfl, rfl, rfl, rfl, rfl, rfl, rfl, rfl⟩,
    ⟨by decide, by decide, rfl⟩,
    ⟨by decide, by decide, rfl, rfl, rfl, rfl, rfl, rfl, rfl, rfl, rfl⟩,
    ⟨by decide, by decide, rfl, rfl, rfl, rfl, rfl, rfl, rfl, rfl, rfl, rfl, rfl, rfl⟩⟩

/-- C13 (amended): for a node animation with at least two position keys with strictly
increasing times, and a list of tracks in which every interpolating track
(`end - begin > 1`, and looping or `ticks < end - begin`) has a current time
`t = begin + fmod(ticks, end - begin)` with `t <= end`, `calcInterpolatedPosition`
returns the initial `out` (zero at the call in `readNodeHierarchy`) plus, track by track
in `float` arithmetic, `sample * blend`; and for an interpolating track whose `t` falls
in a key interval `(float)time_i <= t < (float)time_{i+1}` that does not contain the end
time of the track, `sample = k_i + f * (k_{i+1} - k_i)` with
`f = (t - (float)time_i) / (float)(time_{i+1} - time_i)` in `float` arithmetic; for a
track that does not interpolate the sample is the value of one of the keys. Of the bound
`0 <= f < 1` this is left: `f < 0` is false (`f` may be NaN, and it may be `1` or
more). -/
theorem C13_calcInterpolatedPosition (nodeAnim : aiNodeAnim Q)
    (animations : ArrayList animframes_t) (out : aiVector3D)
    (hn : 2 ≤ nodeAnim.mNumPositionKeys) (hn32 : nodeAnim.mNumPositionKeys < 4294967296)
    (hmono : (nodeAnim.mPositionKeys.map (fun key => key.mTime)).Pairwise
      (fun a b => Fp.lt a b = true))
    (hwf : animations.wf)
    (hcur : ∀ anim, anim ∈ animations.contents → anim.interpolates = true →
      Fp.le anim.timeCur anim.end_ = true) :
    ∃ samples : List aiVector3D, samples.length = animations.getSize ∧
      calcInterpolatedPosition out animations nodeAnim =
        .ok (blendSum out animations.contents samples) ∧
      ∀ (a : Nat) (anim : animframes_t), animations.contents[a]? = some anim →
        ∃ sample, samples[a]? = some sample ∧
          (anim.interpolates = true → ∀ i keyCur keyNext,
            nodeAnim.mPositionKeys[i]? = some keyCur →
            nodeAnim.mPositionKeys[i + 1]? = some keyNext →
            Fp.le keyCur.mTime.toFloat anim.timeCur = true →
            Fp.lt anim.timeCur keyNext.mTime.toFloat = true →
            Fp.lt anim.end_ keyNext.mTime.toFloat = false →
            sample = keyCur.mValue.add ((keyNext.mValue.sub keyCur.mValue).scale
              (Fp.div binary32 (Fp.sub binary32 anim.timeCur keyCur.mTime.toFloat)
                (Fp.sub binary64 keyNext.mTime keyCur.mTime).toFloat)) ∧
            Fp.lt (Fp.div binary32 (Fp.sub binary32 anim.timeCur keyCur.mTime.toFloat)
              (Fp.sub binary64 keyNext.mTime keyCur.mTime).toFloat) (.fin false 0 0) = false) ∧
          (anim.interpolates = false →
            ∃ key, key ∈ nodeAnim.mPositionKeys ∧ sample = key.mValue) := by
  have hcast : (nodeAnim.mPositionKeys.map (fun key => key.mTime.toFloat)).Pairwise
      (fun a b => Fp.le a b = true) := by
    rw [List.pairwise_map] at hmono ⊢
    exact hmono.imp (fun h => Fp.toFloat_mono (Fp.le_of_lt h))
  obtain ⟨samples, hlen, hloop, hall⟩ := calcInterpolatedPositionLoop_spec nodeAnim animations
    hwf (by omega) hn32 hcast hcur animations.size 0 out (by omega)
  refine ⟨samples, hlen, ?_, fun a anim ha => ?_⟩
  · have hne : ¬ nodeAnim.mNumPositionKeys = 1 := by omega
    rw [calcInterpolatedPosition, if_neg hne]
    simpa using hloop
  · obtain ⟨sample, hs, h1, h2⟩ := hall a anim (by simpa using ha)
    refine ⟨sample, hs, fun hint i keyCur keyNext hkc hkn hle hlt hend => ?_, h2⟩
    refine ⟨h1 hint i keyCur keyNext hkc hkn hle hlt hend, ?_⟩
    rw [List.pairwise_map] at hmono
    obtain ⟨k1, e1⟩ := List.getElem?_eq_some.1 hkc
    obtain ⟨k2, e2⟩ := List.getElem?_eq_some.1 hkn
    have hstrict := List.pairwise_iff_getElem.1 hmono i (i + 1) k1 k2 (by omega)
    rw [e1, e2] at hstrict
    exact factor_not_negative anim.timeCur keyCur.mTime keyNext.mTime hstrict hle

/-- C13 at the three position keys of `hipChannel` (times `0, 2, 4`, values `(0,0,0)`,
`(2,0,0)`, `(4,0,0)`) and one looping track from `0` to `4` at `ticks = 1`: the output
is the sum of one sample, and the sample is `(0,0,0) + 1/2 * (2,0,0) = (1,0,0)`. -/
theorem C13_calcInterpolatedPosition_witness :
    2 ≤ hipChannel.mNumPositionKeys ∧ hipChannel.mNumPositionKeys < 4294967296 ∧
    (hipChannel.mPositionKeys.map (fun key => key.mTime)).Pairwise
      (fun a b => Fp.lt a b = true) ∧
    walkTracks.wf ∧
    (∀ anim, anim ∈ walkTracks.contents → anim.interpolates = true →
      Fp.le anim.timeCur anim.end_ = true) ∧
    ∃ samples : List aiVector3D, samples.length = 1 ∧
      calcInterpolatedPosition aiVector3D.zero walkTracks hipChannel =
        .ok (blendSum aiVector3D.zero walkTracks.contents samples) ∧
      samples[0]? = some ⟨.fin false 1 0, .fin false 0 0, .fin false 0 0⟩ :=
  ⟨by decide, by decide, by decide, by decide, by decide,
    match C13_calcInterpolatedPosition hipChannel walkTracks aiVector3D.zero (by decide)
      (by decide) (by decide) (by decide) (by decide) with
    | ⟨samples, hlen, hout, hall⟩ =>
      ⟨samples, hlen, hout,
        match hall 0 ⟨.fin false 0 0, .fin false 4 0, .fin false 1 0, true, .fin false 1 0⟩
          rfl with
        | ⟨sample, hs, hint, _⟩ => by
          rw [hs, (hint rfl 0 ⟨.fin false 0 0, .ofNat 0⟩ ⟨.fin false 2 0, .ofNat 2⟩ rfl rfl rfl
            rfl rfl).1]
          rfl⟩⟩

end Interpolation

section HierarchyProofs

variable {M Q : Type}

theorem findNodeAnimLoop_spec (mChannels : List (aiNodeAnim Q)) (str : String) (n : Nat) :
    ∀ i, i + n = mChannels.length →
    findNodeAnimLoop mChannels str n i =
      .ok ((mChannels.drop i).find? (fun channel => decide (channel.mNodeName = str))) := by
  induction n with
  | zero =>
    intro i hi
    have : mChannels.drop i = [] := List.drop_eq_nil_of_le (by omega)
    rw [this]
    rfl
  | succ n ih =>
    intro i hi
    have hlt : i < mChannels.length := by omega
    rw [List.drop_eq_getElem_cons hlt, List.find?_cons]
    by_cases hname : mChannels[i].mNodeName = str
    · simp only [findNodeAnimLoop, load_of_getElem? (List.getElem?_eq_getElem hlt), bind,
        Except.bind, hname, if_true, decide_True]
      rfl
    · simp only [findNodeAnimLoop, load_of_getElem? (List.getElem?_eq_getElem hlt), bind,
        Except.bind, hname, if_false, decide_False]
      exact ih (i + 1) (by omega)

theorem findNodeAnim_spec (animation : aiAnimation Q) (str : String) :
    findNodeAnim animation str = .ok (animation.channel? str) := by
  have := findNodeAnimLoop_spec animation.mChannels str animation.mChannels.length 0 (by omega)
  simpa [findNodeAnim, aiAnimation.mNumChannels, aiAnimation.channel?] using this

theorem applyWrites_append (transforms : ArrayList M) (ws ws' : List (Nat × M)) :
    applyWrites transforms (ws ++ ws') = applyWrites (applyWrites transforms ws) ws' := by
  simp [applyWrites, List.foldl_append]

theorem applyWrites_size (ws : List (Nat × M)) : ∀ transforms : ArrayList M,
    (applyWrites transforms ws).size = transforms.size ∧
    (applyWrites transforms ws).maxSize = transforms.maxSize ∧
    (applyWrites transforms ws).arr.length = transforms.arr.length := by
  induction ws with
  | nil => intro t; exact ⟨rfl, rfl, rfl⟩
  | cons w ws ih =>
    intro t
    have := ih ⟨t.arr.set w.1 w.2, t.size, t.maxSize⟩
    simpa [applyWrites] using this

theorem readNode_write [MulOneClass M] [SMul Nat M] [Inhabited M] (sub : SubMeshBones M Q)
    (hsub : sub.wf) (transforms : ArrayList M) (hs : transforms.size = sub.numBones)
    (hl : transforms.size ≤ transforms.arr.length) (name : String) (g : M) :
    (match sub.boneMapping.lookup name with
      | some boneIndex => do
        let bone ← sub.bones.subscript boneIndex
        transforms.assign boneIndex (16384 • (g * bone.offset))
      | none => pure transforms) =
    .ok (applyWrites transforms
      (match sub.boneMapping.lookup name with
      | some b => [(b, 16384 • (g * (sub.bones.arr.getD b default).offset))]
      | none => [])) := by
  cases hlook : sub.boneMapping.lookup name with
  | none => rfl
  | some b =>
    obtain ⟨hbwf, hbs, hbound, _⟩ := hsub
    have hb : b < sub.numBones := hbound name b hlook
    obtain ⟨bone, hbone, hsubs⟩ := subscript_defined hbwf (show b < sub.bones.size by omega)
    have hget : sub.bones.arr.getD b default = bone := by simp [List.getD, hbone]
    simp only [hsubs, bind, Except.bind, ArrayList.assign,
      assert_of (show b < transforms.size by omega),
      store_of_lt _ (show b < transforms.arr.length by omega), hget]
    rfl

theorem mem_of_channel? (animation : aiAnimation Q) (name : String) (channel : aiNodeAnim Q)
    (h : animation.channel? name = some channel) : channel ∈ animation.mChannels :=
  List.mem_of_find?_eq_some h

theorem nodeTransform_spec [MulOneClass M] [Inhabited M] (lib : Assimp Q M)
    (animations : ArrayList animframes_t) (animation : aiAnimation Q)
    (hdef : ∀ channel, channel ∈ animation.mChannels → channel.interpolates lib animations)
    (node : aiNode M) :
    nodeTransform lib animations (animation.channel? node.mName) node.mTransformation =
      .ok (localTransform (channelMatrices lib animations) animation node) ∧
    localTransform? lib animations animation node =
      some (localTransform (channelMatrices lib animations) animation node) := by
  cases hch : animation.channel? node.mName with
  | none =>
    simp only [nodeTransform, localTransform, localTransform?, hch]
    constructor <;> first | rfl | trivial
  | some channel =>
    obtain ⟨⟨p, hp⟩, ⟨q, hq⟩, ⟨s, hs⟩⟩ := hdef channel (mem_of_channel? animation _ channel hch)
    simp only [nodeTransform, localTransform, localTransform?, hch, hp, hq, hs, channelMatrices,
      bind, Except.bind]
    constructor <;> first | rfl | trivial

mutual
theorem readNodeHierarchy_spec [MulOneClass M] [SMul Nat M] [Inhabited M]
    (sub : SubMeshBones M Q) (lib : Assimp Q M) (animations : ArrayList animframes_t)
    (scene : aiScene M Q) (animation : aiAnimation Q) (hsub : sub.wf)
    (hanim : scene.mAnimations[0]? = some animation)
    (hdef : ∀ channel, channel ∈ animation.mChannels → channel.interpolates lib animations) :
    ∀ (node : aiNode M) (parent : M) (transforms : ArrayList M) (visited : List String),
    transforms.size = sub.numBones → transforms.size ≤ transforms.arr.length →
    sub.readNodeHierarchy lib animations scene transforms visited node parent =
      .ok (applyWrites transforms
        (aiNode.writes sub (channelMatrices lib animations) animation node parent),
        visited ++ node.names)
  | .mk name tr children, parent, transforms, visited, hs, hl => by
    have hnt := (nodeTransform_spec lib animations animation hdef (aiNode.mk name tr children)).1
    simp only [aiNode.mName, aiNode.mTransformation] at hnt
    generalize hmats : channelMatrices lib animations = mats at hnt
    have hL : localTransform mats animation (aiNode.mk name tr children) =
        (match animation.channel? name with
        | some channel =>
          mats.translationM channel * mats.rotationM channel * mats.scalingM channel
        | none => tr) := rfl
    have hw := readNode_write sub hsub transforms hs hl name
      (parent * localTransform mats animation (aiNode.mk name tr children))
    have hsz := applyWrites_size
      (match sub.boneMapping.lookup name with
      | some b => [(b, 16384 • (parent * localTransform mats animation (aiNode.mk name tr children) *
          (sub.bones.arr.getD b default).offset))]
      | none => []) transforms
    have hrec := readNodeChildren_spec sub lib animations scene animation hsub hanim hdef
      children (parent * localTransform mats animation (aiNode.mk name tr children))
      (applyWrites transforms
        (match sub.boneMapping.lookup name with
        | some b => [(b, 16384 • (parent * localTransform mats animation (aiNode.mk name tr children) *
            (sub.bones.arr.getD b default).offset))]
        | none => []))
      (visited ++ [name]) (by omega) (by omega)
    rw [hmats] at hrec
    rw [SubMeshBones.readNodeHierarchy, load_of_getElem? hanim, ok_bind,
      findNodeAnim_spec, ok_bind, hnt, ok_bind]
    dsimp only
    rw [hw, ok_bind, hrec, aiNode.writes, applyWrites_append, aiNode.names]
    simp
theorem readNodeChildren_spec [MulOneClass M] [SMul Nat M] [Inhabited M]
    (sub : SubMeshBones M Q) (lib : Assimp Q M) (animations : ArrayList animframes_t)
    (scene : aiScene M Q) (animation : aiAnimation Q) (hsub : sub.wf)
    (hanim : scene.mAnimations[0]? = some animation)
    (hdef : ∀ channel, channel ∈ animation.mChannels → channel.interpolates lib animations) :
    ∀ (nodes : List (aiNode M)) (parent : M) (transforms : ArrayList M)
      (visited : List String),
    transforms.size = sub.numBones → transforms.size ≤ transforms.arr.length →
    sub.readNodeChildren lib animations scene transforms visited nodes parent =
      .ok (applyWrites transforms
        (aiNode.writesList sub (channelMatrices lib animations) animation nodes parent),
        visited ++ aiNode.namesList nodes)
  | [], parent, transforms, visited, hs, hl => by
    simp [SubMeshBones.readNodeChildren, aiNode.writesList, aiNode.namesList, applyWrites]
    rfl
  | child :: rest, parent, transforms, visited, hs, hl => by
    have h1 := readNodeHierarchy_spec sub lib animations scene animation hsub hanim hdef child
      parent transforms visited hs hl
    have hsz := applyWrites_size
      (aiNode.writes sub (channelMatrices lib animations) animation child parent) transforms
    have h2 := readNodeChildren_spec sub lib animations scene animation hsub hanim hdef rest
      parent
      (applyWrites transforms
        (aiNode.writes sub (channelMatrices lib animations) animation child parent))
      (visited ++ child.names) (by omega) (by omega)
    rw [SubMeshBones.readNodeChildren, h1, ok_bind, h2, aiNode.writesList, applyWrites_append,
      aiNode.namesList]
    simp
end

mutual
theorem writes_indices [MulOneClass M] [SMul Nat M] [Inhabited M] (sub : SubMeshBones M Q)
    (mats : ChannelMatrices M Q) (animation : aiAnimation Q) :
    ∀ (node : aiNode M) (parent : M),
    (aiNode.writes sub mats animation node parent).map Prod.fst =
      node.names.filterMap (fun name => sub.boneMapping.lookup name)
  | .mk name tr children, parent => by
    have hrec := writesList_indices sub mats animation children
      (parent * localTransform mats animation (aiNode.mk name tr children))
    rw [aiNode.writes, aiNode.names, List.map_append, hrec, List.filterMap_cons]
    cases sub.boneMapping.lookup name <;> rfl
theorem writesList_indices [MulOneClass M] [SMul Nat M] [Inhabited M]
    (sub : SubMeshBones M Q) (mats : ChannelMatrices M Q) (animation : aiAnimation Q) :
    ∀ (nodes : List (aiNode M)) (parent : M),
    (aiNode.writesList sub mats animation nodes parent).map Prod.fst =
      (aiNode.namesList nodes).filterMap (fun name => sub.boneMapping.lookup name)
  | [], parent => by
    rw [aiNode.writesList, aiNode.namesList]
    rfl
  | child :: rest, parent => by
    rw [aiNode.writesList, aiNode.namesList, List.map_append, List.filterMap_append,
      writes_indices sub mats animation child parent,
      writesList_indices sub mats animation rest parent]
end

theorem hipChannel_interpolates : hipChannel.interpolates natLib walkTracks :=
  ⟨⟨_, rfl⟩, ⟨_, rfl⟩, ⟨_, rfl⟩⟩

theorem boneTransform_eval :
    legBones.boneTransform natLib walkTracks ArrayList.empty =
      .ok (⟨[16384 * (2 * ((1 + 13) * 23 * (1 + 19)) * 5 * 7),
        16384 * (2 * ((1 + 13) * 23 * (1 + 19)) * 11)], 2, 2⟩, ["root", "hip", "knee"]) ∧
    stillBones.boneTransform natLib walkTracks ArrayList.empty = .ok (ArrayList.empty, []) ∧
    calcInterpolatedScaling aiVector3D.zero walkTracks shortChannel =
      .error Fault.outOfBounds ∧
    shortBones.boneTransform natLib walkTracks ArrayList.empty = .error Fault.outOfBounds :=
  ⟨rfl, rfl, rfl, rfl⟩

end HierarchyProofs

end Spacepunk
